import Mathlib

/-!
# BCC (Build Config Compile): rebuild decision, process supervision, self-rebuild

A shallow embedding of `bcc.h`.  The operating system is an explicit state
(`World`) threaded through every operation; each operation appends the system
calls it performs to `World.log`, so that statements of the form "no input is
examined" or "nothing is re-invoked" are statements about that log.

The operations are embedded in their POSIX form (the `#else` branches of
`bcc.h`); the one place where the configuration is a parameter is the command
that `BCC_REBUILD_URSELF` expands to (`Toolchain`).  Diagnostic output written
by `bcc_log` to stderr is not modelled.
-/

namespace BCC

/-! ## Operating system model -/

/-- The errno value of "No such file or directory". -/
def ENOENT : Nat := 2

/-- The value of the macro BCC_INVALID_PROC on POSIX. -/
def BCC_INVALID_PROC : Int := -1

/-- What `stat(path, &statbuf)` yields: either the `st_mtime` field (a 64-bit
`time_t`) or a negative return value with `errno` set. -/
inductive StatResult where
  | ok (st_mtime : Int)
  | fail (errno : Nat)
deriving DecidableEq, Repr

/-- What one call `waitpid(pid, &wstatus, 0)` yields. -/
inductive WaitReport where
  /-- the call returned a negative value -/
  | failed
  /-- `WIFEXITED(wstatus)` holds and `WEXITSTATUS(wstatus)` is `exit_status` -/
  | exited (exit_status : Nat)
  /-- `WIFSIGNALED(wstatus)` holds and `WTERMSIG(wstatus)` is `sig` -/
  | signaled (sig : Nat)
  /-- neither `WIFEXITED` nor `WIFSIGNALED` holds -/
  | other
deriving DecidableEq, Repr

/-- A file: its last-modification time and its contents. -/
structure File where
  st_mtime : Int
  data : List Nat
deriving DecidableEq, Repr

deriving instance DecidableEq for Except

/-- The system calls recorded in `World.log`, together with one marker
(`proc_wait`) recorded on every entry into `bcc_proc_wait`. -/
inductive Event where
  | stat (path : String)
  | rename (old_path new_path : String)
  /-- `fork()` in the parent; the child runs `execvp(cmd[0], cmd)` -/
  | spawn (cmd : List String)
  | waitpid (pid : Int)
  | proc_wait (proc : Int)
deriving DecidableEq, Repr

/-- The behaviour of a child process created by a successful `fork()`:
the child receives process id `pid + 1`, changes the file system by `effect`,
and successive `waitpid` calls on it yield `reports` (and fail afterwards). -/
structure Launch where
  pid : Nat
  reports : List WaitReport
  effect : (String → Except Nat File) → (String → Except Nat File)

/-- State of the operating system as seen by the program.

* `files path` is the file at `path`, or the errno with which `stat` fails;
* `rename_errno old new` is the errno with which the OS refuses that rename
  for a reason other than a missing source, if it does;
* `launch n cmd` is the behaviour of the child created by the `n`-th `fork`
  of this run when it executes `cmd`, or `none` when that `fork` fails;
* `children pid` are the reports that pending `waitpid` calls on `pid` yield. -/
structure World where
  files : String → Except Nat File
  rename_errno : String → String → Option Nat
  launch : Nat → List String → Option Launch
  forks : Nat
  children : Int → List WaitReport
  log : List Event

/-- Model of `stat(2)`. -/
def stat (w : World) (path : String) : StatResult × World :=
  (match w.files path with
   | .ok f => StatResult.ok f.st_mtime
   | .error errno => StatResult.fail errno,
   { w with log := w.log ++ [Event.stat path] })

/-- Model of `rename(2)`: returns 0 and moves the file, or returns -1 and
leaves the file system as it is. -/
def rename (w : World) (old_path new_path : String) : Int × World :=
  let w1 := { w with log := w.log ++ [Event.rename old_path new_path] }
  match w.rename_errno old_path new_path, w.files old_path with
  | some _, _ => (-1, w1)
  | none, .error _ => (-1, w1)
  | none, .ok f =>
    (0, { w1 with
            files := Function.update (Function.update w.files old_path (.error ENOENT))
                       new_path (.ok f) })

/-- Model of `fork()` as seen by the parent, the child executing `cmd`:
the return value is the process id of the child, or -1. -/
def fork_exec (w : World) (cmd : List String) : Int × World :=
  let w1 := { w with log := w.log ++ [Event.spawn cmd], forks := w.forks + 1 }
  match w.launch w.forks cmd with
  | none => (-1, w1)
  | some l =>
    ((l.pid : Int) + 1,
     { w1 with
         files := l.effect w.files
         children := Function.update w.children ((l.pid : Int) + 1) l.reports })

/-- Model of `waitpid(pid, &wstatus, 0)`: delivers the next report of the child. -/
def waitpid (w : World) (pid : Int) : WaitReport × World :=
  let w1 := { w with log := w.log ++ [Event.waitpid pid] }
  match w.children pid with
  | [] => (WaitReport.failed, w1)
  | r :: rest => (r, { w1 with children := Function.update w.children pid rest })

/-! ## Rebuild decision engine -/

/-- Conversion of a `time_t` value (64 bits) to `int` (32 bits), as in
`int output_path_time = statbuf.st_mtime;`: the value modulo 2^32, taken in
the range [-2^31, 2^31).  C leaves the result for a value outside that range
to the implementation; this is what GCC and Clang do. -/
def toInt32 (x : Int) : Int :=
  let r := x % 2 ^ 32
  if r < 2 ^ 31 then r else r - 2 ^ 32

/-- The loop of `bcc_needs_rebuild` over the input paths. -/
def bcc_needs_rebuild_inputs (output_path_time : Int) : List String → World → Int × World
  | [], w => (0, w)
  | input_path :: rest, w =>
    match stat w input_path with
    | (StatResult.fail _, w1) => (-1, w1)
    | (StatResult.ok st_mtime, w1) =>
      let input_path_time := toInt32 st_mtime
      if input_path_time > output_path_time then (1, w1)
      else bcc_needs_rebuild_inputs output_path_time rest w1

/-- Embedding of `bcc_needs_rebuild` (bcc.h, POSIX branch): 1 is STALE,
0 is FRESH, -1 is ERROR. -/
def bcc_needs_rebuild (w : World) (output_path : String) (input_paths : List String) :
    Int × World :=
  match stat w output_path with
  | (StatResult.fail errno, w1) => if errno = ENOENT then (1, w1) else (-1, w1)
  | (StatResult.ok st_mtime, w1) =>
    let output_path_time := toInt32 st_mtime
    bcc_needs_rebuild_inputs output_path_time input_paths w1

/-- Embedding of `bcc_needs_rebuild1`. -/
def bcc_needs_rebuild1 (w : World) (output_path input_path : String) : Int × World :=
  bcc_needs_rebuild w output_path [input_path]

/-- Embedding of `bcc_rename`. -/
def bcc_rename (w : World) (old_path new_path : String) : Bool × World :=
  match rename w old_path new_path with
  | (r, w1) => if r < 0 then (false, w1) else (true, w1)

/-! ## Process execution layer -/

/-- The `for (;;)` loop of `bcc_proc_wait`: one `waitpid` call per iteration.
Every call consumes one pending report of the child and `waitpid` fails once
none is left, so `(w.children proc).length + 1` iterations always suffice;
`fuel` counts the iterations still allowed, and the first equation is never
reached from `bcc_proc_wait` (see `bcc_proc_wait_loop_eq`). -/
def bcc_proc_wait_loop (proc : Int) : Nat → World → Bool × World
  | 0, w => (false, w)
  | fuel + 1, w =>
    match waitpid w proc with
    | (WaitReport.failed, w1) => (false, w1)
    | (WaitReport.exited exit_status, w1) =>
      if exit_status ≠ 0 then (false, w1) else (true, w1)
    | (WaitReport.signaled _, w1) => (false, w1)
    | (WaitReport.other, w1) => bcc_proc_wait_loop proc fuel w1

/-- Embedding of `bcc_proc_wait` (bcc.h, POSIX branch). -/
def bcc_proc_wait (w : World) (proc : Int) : Bool × World :=
  let w0 := { w with log := w.log ++ [Event.proc_wait proc] }
  if proc = BCC_INVALID_PROC then (false, w0)
  else bcc_proc_wait_loop proc ((w0.children proc).length + 1) w0

/-- The loop of `bcc_procs_wait`, `success` being the value accumulated so far:
`success = bcc_proc_wait(procs.items[i]) && success;`. -/
def bcc_procs_wait_from (success : Bool) : List Int → World → Bool × World
  | [], w => (success, w)
  | proc :: rest, w =>
    match bcc_proc_wait w proc with
    | (r, w1) => bcc_procs_wait_from (r && success) rest w1

/-- Embedding of `bcc_procs_wait`. -/
def bcc_procs_wait (w : World) (procs : List Int) : Bool × World :=
  bcc_procs_wait_from true procs w

/-- Embedding of `bcc_cmd_run_async` (bcc.h, POSIX branch), as seen by the parent. -/
def bcc_cmd_run_async (w : World) (cmd : List String) : Int × World :=
  if cmd.length < 1 then (BCC_INVALID_PROC, w)
  else
    match fork_exec w cmd with
    | (cpid, w1) => if cpid < 0 then (BCC_INVALID_PROC, w1) else (cpid, w1)

/-- Embedding of `bcc_cmd_run_sync`. -/
def bcc_cmd_run_sync (w : World) (cmd : List String) : Bool × World :=
  match bcc_cmd_run_async w cmd with
  | (p, w1) => if p = BCC_INVALID_PROC then (false, w1) else bcc_proc_wait w1 p

/-! ## Self-rebuild bootstrap -/

/-- The preprocessor configurations that select an expansion of
`BCC_REBUILD_URSELF`. -/
inductive Toolchain where
  /-- not `_WIN32` -/
  | posix
  /-- `_WIN32` and `__GNUC__` -/
  | windows_gnuc
  /-- `_WIN32` and `__clang__` -/
  | windows_clang
  /-- `_WIN32` and `_MSC_VER` -/
  | windows_msvc
deriving DecidableEq, Repr

/-- Embedding of the default `BCC_REBUILD_URSELF(binary_path, source_path)`;
`bcc_temp_sprintf("/Fe:%s", binary_path)` is the concatenation. -/
def BCC_REBUILD_URSELF (tc : Toolchain) (binary_path source_path : String) : List String :=
  match tc with
  | .windows_gnuc => ["gcc", "-o", binary_path, source_path]
  | .windows_clang => ["clang", "-o", binary_path, source_path]
  | .windows_msvc => ["cl.exe", "/Fe:" ++ binary_path, source_path]
  | .posix => ["cc", "-o", binary_path, source_path]

/-- How control leaves `BCC_GO_REBUILD_URSELF`. -/
inductive Outcome where
  /-- `assert(argc >= 1)` failed -/
  | assert_failed
  /-- `exit(status)` was called -/
  | exit (status : Nat)
  /-- control reaches the statement after the do-while block -/
  | fallthrough
deriving DecidableEq, Repr

/-- Embedding of `BCC_GO_REBUILD_URSELF(argc, argv)`: `source_path` stands for
`__FILE__`, `argv` for the `argc` arguments, and the string builder `sb` holds
`binary_path` followed by ".old". -/
def BCC_GO_REBUILD_URSELF (tc : Toolchain) (source_path : String) (argv : List String)
    (w : World) : Outcome × World :=
  match argv with
  | [] => (Outcome.assert_failed, w)
  | binary_path :: _ =>
    match bcc_needs_rebuild w binary_path [source_path] with
    | (rebuild_is_needed, w1) =>
      if rebuild_is_needed < 0 then (Outcome.exit 1, w1)
      else if rebuild_is_needed ≠ 0 then
        let sb := binary_path ++ ".old"
        match bcc_rename w1 binary_path sb with
        | (false, w2) => (Outcome.exit 1, w2)
        | (true, w2) =>
          match bcc_cmd_run_sync w2 (BCC_REBUILD_URSELF tc binary_path source_path) with
          | (false, w3) =>
            match bcc_rename w3 sb binary_path with
            | (_, w4) => (Outcome.exit 1, w4)
          | (true, w3) =>
            match bcc_cmd_run_sync w3 argv with
            | (false, w4) => (Outcome.exit 1, w4)
            | (true, w4) => (Outcome.exit 0, w4)
      else (Outcome.fallthrough, w1)

/-! ## Vocabulary of the statements -/

/-- A time that an `int` represents exactly. -/
def InInt32 (t : Int) : Prop := -2 ^ 31 ≤ t ∧ t < 2 ^ 31

/-- The child `proc` terminates normally with exit code `k`, and the waiting
parent gets to see it: the reports pending for `proc` are reports of the kind
`other` followed by `exited k`. -/
def ExitsWith (w : World) (proc : Int) (k : Nat) : Prop :=
  ∃ n rest, w.children proc = List.replicate n WaitReport.other ++ WaitReport.exited k :: rest

/-- The child `proc` is terminated by the signal `sig`. -/
def KilledBy (w : World) (proc : Int) (sig : Nat) : Prop :=
  ∃ n rest, w.children proc = List.replicate n WaitReport.other ++ WaitReport.signaled sig :: rest

/-- The handles on which a log records an entry into `bcc_proc_wait`, in order. -/
def proc_wait_calls (log : List Event) : List Int :=
  log.filterMap fun e =>
    match e with
    | Event.proc_wait proc => some proc
    | _ => none

/-- The handles on which a log records a `waitpid` call, in order. -/
def waitpid_calls (log : List Event) : List Int :=
  log.filterMap fun e =>
    match e with
    | Event.waitpid pid => some pid
    | _ => none

/-- What the loop of `bcc_proc_wait` returns on a child with the given pending
reports. -/
def wait_result : List WaitReport → Bool
  | [] => false
  | WaitReport.failed :: _ => false
  | WaitReport.exited exit_status :: _ => decide (exit_status = 0)
  | WaitReport.signaled _ :: _ => false
  | WaitReport.other :: rest => wait_result rest

/-- The reports still pending once the loop of `bcc_proc_wait` has returned. -/
def wait_rest : List WaitReport → List WaitReport
  | [] => []
  | WaitReport.other :: rest => wait_rest rest
  | _ :: rest => rest

/-- The number of `waitpid` calls the loop of `bcc_proc_wait` makes. -/
def wait_calls : List WaitReport → Nat
  | [] => 1
  | WaitReport.other :: rest => wait_calls rest + 1
  | _ :: _ => 1

/-! ## Concrete worlds -/

/-- A world holding the listed files, in which the `n`-th fork behaves as the
`n`-th entry of `launches` says, the listed children are pending, and no
rename is refused. -/
def World.sim (fs : List (String × File)) (launches : List (Option Launch))
    (cs : List (Int × List WaitReport)) : World :=
  { files := fun p =>
      match fs.lookup p with
      | some f => .ok f
      | none => .error ENOENT
    rename_errno := fun _ _ => none
    launch := fun n _ => (launches.get? n).join
    forks := 0
    children := fun p => (cs.lookup p).getD []
    log := [] }

/-- A child that writes `f` to `path` and yields the given reports. -/
def Launch.writing (pid : Nat) (reports : List WaitReport) (path : String) (f : File) :
    Launch :=
  { pid := pid, reports := reports, effect := fun fs => Function.update fs path (.ok f) }

/-- A child that leaves the file system alone and yields the given reports. -/
def Launch.idle (pid : Nat) (reports : List WaitReport) : Launch :=
  { pid := pid, reports := reports, effect := fun fs => fs }

/-! ## Concrete inputs of the rebuild decision -/

/-- Output older than the first input; the second input does not exist. -/
def world_newer_then_missing : World :=
  World.sim [("out", ⟨100, []⟩), ("a.c", ⟨200, []⟩)] [] []

/-- Output and one older input; another input does not exist. -/
def world_older_then_missing : World :=
  World.sim [("out", ⟨100, []⟩), ("a.c", ⟨50, []⟩)] [] []

/-- The output was written in the last second that an `int` can hold, the
input one second later. -/
def world_input_after_int_max : World :=
  World.sim [("out", ⟨2147483647, []⟩), ("in.c", ⟨2147483648, []⟩)] [] []

/-- The input was written in the last second that an `int` can hold, the
output one second later. -/
def world_output_after_int_max : World :=
  World.sim [("out", ⟨2147483648, []⟩), ("in.c", ⟨2147483647, []⟩)] [] []

/-! ## Concrete inputs of the process execution layer -/

/-- Three pending children: 7 is reported once with neither exit nor signal
and then exits with code 0, 8 exits with code 0, 9 exits with code 3. -/
def world_three_children : World :=
  World.sim [] []
    [(7, [WaitReport.other, WaitReport.exited 0]), (8, [WaitReport.exited 0]),
     (9, [WaitReport.exited 3])]

/-! ## Concrete inputs of the self-rebuild bootstrap -/

/-- The source is newer than the binary, the compiler (first fork) writes a
new binary and exits with code 0, and the rebuilt binary (second fork) exits
with code 3. -/
def world_reinvoked_exits_3 : World :=
  World.sim [("./bc", ⟨100, [1]⟩), ("bc.c", ⟨200, [2]⟩)]
    [some (Launch.writing 10 [WaitReport.exited 0] "./bc" ⟨300, [3]⟩),
     some (Launch.idle 11 [WaitReport.exited 3])] []

/-- The source is newer than the binary, the compiler (first fork) writes a
new binary and exits with code 0, and the rebuilt binary (second fork) exits
with code 0. -/
def world_rebuild_succeeds : World :=
  World.sim [("bc.exe", ⟨100, [1]⟩), ("bc.c", ⟨200, [2]⟩)]
    [some (Launch.writing 10 [WaitReport.exited 0] "bc.exe" ⟨300, [3]⟩),
     some (Launch.idle 11 [WaitReport.exited 0])] []

/-- The source is newer than the binary and the compiler (first fork) exits
with code 1 without writing anything. -/
def world_compiler_fails : World :=
  World.sim [("./bc", ⟨100, [1]⟩), ("bc.c", ⟨200, [2]⟩)]
    [some (Launch.idle 10 [WaitReport.exited 1])] []

/-- The binary is newer than the source. -/
def world_binary_fresh : World :=
  World.sim [("./bc", ⟨200, [1]⟩), ("bc.c", ⟨100, [2]⟩)] [] []

/-- The state of `world_reinvoked_exits_3` after the rebuild decision. -/
def world_reinvoked_exits_3_checked : World :=
  (bcc_needs_rebuild world_reinvoked_exits_3 "./bc" ["bc.c"]).2

/-- The state of `world_reinvoked_exits_3` after the rename to "./bc.old". -/
def world_reinvoked_exits_3_renamed : World :=
  (bcc_rename world_reinvoked_exits_3_checked "./bc" "./bc.old").2

/-- The state of `world_reinvoked_exits_3` after the compiler has run. -/
def world_reinvoked_exits_3_compiled : World :=
  (bcc_cmd_run_sync world_reinvoked_exits_3_renamed ["cc", "-o", "./bc", "bc.c"]).2

/-- The state of `world_compiler_fails` after the rebuild decision. -/
def world_compiler_fails_checked : World :=
  (bcc_needs_rebuild world_compiler_fails "./bc" ["bc.c"]).2

/-- The state of `world_compiler_fails` after the rename to "./bc.old". -/
def world_compiler_fails_renamed : World :=
  (bcc_rename world_compiler_fails_checked "./bc" "./bc.old").2

/-- The state of `world_compiler_fails` after the compiler has run. -/
def world_compiler_fails_compiled : World :=
  (bcc_cmd_run_sync world_compiler_fails_renamed ["cc", "-o", "./bc", "bc.c"]).2

/-- The source is newer than the binary and the OS refuses every rename. -/
def world_rename_refused : World :=
  { World.sim [("./bc", ⟨100, [1]⟩), ("bc.c", ⟨200, [2]⟩)]
      [some (Launch.idle 10 [WaitReport.exited 0])] [] with
    rename_errno := fun _ _ => some 13 }

/-- The binary exists and the source file does not. -/
def world_source_missing : World :=
  World.sim [("./bc", ⟨100, [1]⟩)] [some (Launch.idle 10 [WaitReport.exited 0])] []

/-! ## Arena allocator -/

/-- The modulus of `size_t` arithmetic (64 bits). -/
def SIZE_MODULUS : Nat := 2 ^ 64

/-- The default value of the macro BCC_TEMP_CAPACITY, `(8*1024*1024)`. -/
def BCC_TEMP_CAPACITY : Nat := 8 * 1024 * 1024

/-- The state of the temporary allocator: the cursor `bcc_temp_size` into the
static array `bcc_temp`.  The bytes of the array are not modelled. -/
structure Arena where
  bcc_temp_size : Nat
deriving DecidableEq, Repr

/-- Embedding of `bcc_temp_alloc`: the result is the offset in `bcc_temp` of
the region returned (`none` for NULL) and the arena afterwards. -/
def bcc_temp_alloc (a : Arena) (size : Nat) : Option Nat × Arena :=
  if (a.bcc_temp_size + size) % SIZE_MODULUS > BCC_TEMP_CAPACITY then (none, a)
  else (some a.bcc_temp_size, { bcc_temp_size := (a.bcc_temp_size + size) % SIZE_MODULUS })

/-- Embedding of `bcc_temp_reset`. -/
def bcc_temp_reset (_ : Arena) : Arena :=
  { bcc_temp_size := 0 }

/-- Embedding of `bcc_temp_save`. -/
def bcc_temp_save (a : Arena) : Nat :=
  a.bcc_temp_size

/-- Embedding of `bcc_temp_rewind`. -/
def bcc_temp_rewind (_ : Arena) (checkpoint : Nat) : Arena :=
  { bcc_temp_size := checkpoint }

/-- A sequence of `bcc_temp_alloc` calls with the given sizes, the results
being dropped. -/
def temp_alloc_each : List Nat → Arena → Arena
  | [], a => a
  | size :: rest, a => temp_alloc_each rest (bcc_temp_alloc a size).2

/-! ## Dynamic arrays and string builders -/

/-- The value of the macro BCC_DA_INIT_CAP. -/
def BCC_DA_INIT_CAP : Nat := 256

/-- The ways in which an operation can fail to produce a result. -/
inductive Fault where
  /-- a cell outside the allocated block is written: undefined behaviour -/
  | out_of_bounds
  /-- a loop never terminates -/
  | no_return
deriving DecidableEq, Repr

/-- A dynamic array (the common shape of `BCC_File_Paths`, `BCC_Procs`,
`BCC_Cmd` and `BCC_String_Builder`): `items` is the allocated block, cell by
cell, a cell that was never written being `none`; a NULL pointer is the empty
block. -/
structure Da (α : Type) where
  items : List (Option α)
  count : Nat
  capacity : Nat
deriving DecidableEq, Repr

/-- The zero-initialised array `{0}`. -/
def Da.zero {α : Type} : Da α :=
  { items := [], count := 0, capacity := 0 }

/-- Model of `BCC_REALLOC(items, capacity*sizeof(*items))`, which is assumed to
succeed: the block is cut or extended to `capacity` cells, the cells kept
holding what they held. -/
def realloc_cells {α : Type} (items : List (Option α)) (capacity : Nat) : List (Option α) :=
  (items ++ List.replicate (capacity - items.length) none).take capacity

/-- Model of `memcpy(items + offset, new_items, n*sizeof(*items))`; copying
no item writes nothing. -/
def memcpy_cells {α : Type} (items : List (Option α)) (offset : Nat) (new_items : List α) :
    Except Fault (List (Option α)) :=
  if new_items.length = 0 then .ok items
  else if offset + new_items.length ≤ items.length then
    .ok (items.take offset ++ new_items.map some ++ items.drop (offset + new_items.length))
  else .error Fault.out_of_bounds

/-- Embedding of the macro `bcc_da_append(da, item)`. -/
def bcc_da_append {α : Type} (da : Da α) (item : α) : Except Fault (Da α) :=
  let da1 : Da α :=
    if da.count ≥ da.capacity then
      let capacity := if da.capacity = 0 then BCC_DA_INIT_CAP
        else (da.capacity * 2) % SIZE_MODULUS
      { da with capacity := capacity, items := realloc_cells da.items capacity }
    else da
  if da1.count < da1.items.length then
    .ok { da1 with
            items := da1.items.set da1.count (some item)
            count := (da1.count + 1) % SIZE_MODULUS }
  else .error Fault.out_of_bounds

/-- The loop `while (count + new_items_count > capacity) capacity *= 2;` of
`bcc_da_append_many`, `needed` being `count + new_items_count`.  `fuel` bounds
the number of tests of the condition; see `da_grow_loop_more_fuel` for why 65
of them decide whether the loop terminates. -/
def da_grow_loop (needed : Nat) : Nat → Nat → Option Nat
  | 0, _ => none
  | fuel + 1, capacity =>
    if needed > capacity then da_grow_loop needed fuel ((capacity * 2) % SIZE_MODULUS)
    else some capacity

/-- Embedding of the macro `bcc_da_append_many(da, new_items, new_items_count)`,
`new_items_count` being the length of `new_items`. -/
def bcc_da_append_many {α : Type} (da : Da α) (new_items : List α) : Except Fault (Da α) :=
  let new_items_count := new_items.length
  let needed := (da.count + new_items_count) % SIZE_MODULUS
  let grown : Except Fault (Da α) :=
    if needed > da.capacity then
      let capacity := if da.capacity = 0 then BCC_DA_INIT_CAP else da.capacity
      match da_grow_loop needed 65 capacity with
      | none => .error Fault.no_return
      | some capacity =>
        .ok { da with capacity := capacity, items := realloc_cells da.items capacity }
    else .ok da
  match grown with
  | .error e => .error e
  | .ok da1 =>
    match memcpy_cells da1.items da1.count new_items with
    | .error e => .error e
    | .ok items => .ok { da1 with items := items, count := needed }

/-- The items a dynamic array holds: the cells `items[0 .. count)`. -/
def Da.contents {α : Type} (da : Da α) : List (Option α) :=
  da.items.take da.count

/-- A dynamic array whose block has `capacity` cells and whose fields are
values of `size_t`. -/
def Da.WellFormed {α : Type} (da : Da α) : Prop :=
  da.items.length = da.capacity ∧ da.capacity < SIZE_MODULUS

/-- The capacity from which the growth of a dynamic array starts doubling. -/
def Da.base {α : Type} (da : Da α) : Nat :=
  if da.capacity = 0 then BCC_DA_INIT_CAP else da.capacity

/-- Appending `n` items overflows no `size_t`: some doubling of the starting
capacity that is a value of `size_t` holds `count + n` items. -/
def Da.Fits {α : Type} (da : Da α) (n : Nat) : Prop :=
  ∃ k, da.count + n ≤ da.base * 2 ^ k ∧ da.base * 2 ^ k < SIZE_MODULUS

/-- The value `cap` is the smallest of the values `c * 2 ^ k` that is at
least `needed`. -/
def LeastDoubling (c needed cap : Nat) : Prop :=
  ∃ k, cap = c * 2 ^ k ∧ needed ≤ cap ∧ ∀ j, needed ≤ c * 2 ^ j → k ≤ j

/-- An array of two cells of which the first is in use. -/
def da_one_of_two : Da Nat :=
  { items := [some 1, none], count := 1, capacity := 2 }


/-! ## String views -/

/-- Embedding of `BCC_String_View`: `count` bytes starting at the address
`data`.  Memory is a list of bytes and an address is an index into it. -/
structure BCC_String_View where
  count : Nat
  data : Nat
deriving DecidableEq, Repr

/-- The byte `data[i]` read from memory. -/
def read_byte (mem : List Nat) (data i : Nat) : Nat :=
  mem.getD (data + i) 0

/-- The bytes a view designates. -/
def BCC_String_View.bytes (mem : List Nat) (sv : BCC_String_View) : List Nat :=
  (mem.drop sv.data).take sv.count

/-- A view that lies inside memory. -/
def BCC_String_View.Valid (mem : List Nat) (sv : BCC_String_View) : Prop :=
  sv.data + sv.count ≤ mem.length

/-- Embedding of `bcc_sv_from_parts`. -/
def bcc_sv_from_parts (data count : Nat) : BCC_String_View :=
  { count := count, data := data }

/-- The loop `while (i < count && cond(i)) i += 1;` that the string view
functions share, started at `i` with `fuel` iterations allowed.  Started at 0
with `count` iterations allowed it never runs short: after `count`
iterations `i < count` is false. -/
def scan_while (cond : Nat → Bool) (count : Nat) : Nat → Nat → Nat
  | 0, i => i
  | fuel + 1, i => if i < count ∧ cond i = true then scan_while cond count fuel (i + 1) else i

/-- Embedding of `bcc_sv_chop_by_delim`: the view returned and the view left
in `*sv`. -/
def bcc_sv_chop_by_delim (mem : List Nat) (sv : BCC_String_View) (delim : Nat) :
    BCC_String_View × BCC_String_View :=
  let i := scan_while (fun i => decide (read_byte mem sv.data i ≠ delim)) sv.count sv.count 0
  let result := bcc_sv_from_parts sv.data i
  if i < sv.count then
    (result, { count := sv.count - (i + 1), data := sv.data + (i + 1) })
  else
    (result, { count := sv.count - i, data := sv.data + i })

/-- Embedding of `bcc_sv_trim_left`; `isspace` is the C library function, which
depends on the locale. -/
def bcc_sv_trim_left (isspace : Nat → Bool) (mem : List Nat) (sv : BCC_String_View) :
    BCC_String_View :=
  let i := scan_while (fun i => isspace (read_byte mem sv.data i)) sv.count sv.count 0
  bcc_sv_from_parts (sv.data + i) (sv.count - i)

/-- Embedding of `bcc_sv_trim_right`. -/
def bcc_sv_trim_right (isspace : Nat → Bool) (mem : List Nat) (sv : BCC_String_View) :
    BCC_String_View :=
  let i := scan_while (fun i => isspace (read_byte mem sv.data (sv.count - 1 - i)))
    sv.count sv.count 0
  bcc_sv_from_parts sv.data (sv.count - i)

/-- Embedding of `bcc_sv_trim`. -/
def bcc_sv_trim (isspace : Nat → Bool) (mem : List Nat) (sv : BCC_String_View) :
    BCC_String_View :=
  bcc_sv_trim_right isspace mem (bcc_sv_trim_left isspace mem sv)

/-- The function `isspace` in the "C" locale: space, and the characters from
horizontal tab (9) to carriage return (13). -/
def isspace_C (c : Nat) : Bool :=
  decide (c = 32) || (decide (9 ≤ c) && decide (c ≤ 13))

/-- The bytes of "  a b\t", preceded and followed by other bytes. -/
def mem_padded : List Nat := [120, 32, 32, 97, 32, 98, 9, 121]

/-- The bytes of "key=a=b". -/
def mem_key_value : List Nat := [107, 101, 121, 61, 97, 61, 98]

/-! ## Rendering of commands -/

/-- Embedding of the macro `bcc_sb_append_cstr(sb, cstr)`: a C string is the
list of its bytes, the terminating NUL left out, so that `strlen` is the
length of the list. -/
def bcc_sb_append_cstr (sb : Da Nat) (cstr : List Nat) : Except Fault (Da Nat) :=
  bcc_da_append_many sb cstr

/-- Embedding of the macro `bcc_sb_append_null(sb)`. -/
def bcc_sb_append_null (sb : Da Nat) : Except Fault (Da Nat) :=
  bcc_da_append_many sb [0]

/-- The loop of `bcc_cmd_render` from index `i` on, over the items
`cmd.items[i .. cmd.count)`; an item is a C string or NULL (`none`).
The byte 32 is the space and 39 the single quote. -/
def bcc_cmd_render_from : Nat → List (Option (List Nat)) → Da Nat → Except Fault (Da Nat)
  | _, [], render => .ok render
  | _, none :: _, render => .ok render
  | i, some arg :: rest, render =>
    match (if i > 0 then bcc_sb_append_cstr render [32] else .ok render) with
    | .error e => .error e
    | .ok r1 =>
      if ¬ (32 ∈ arg) then
        match bcc_sb_append_cstr r1 arg with
        | .error e => .error e
        | .ok r2 => bcc_cmd_render_from (i + 1) rest r2
      else
        match bcc_da_append r1 39 with
        | .error e => .error e
        | .ok r2 =>
          match bcc_sb_append_cstr r2 arg with
          | .error e => .error e
          | .ok r3 =>
            match bcc_da_append r3 39 with
            | .error e => .error e
            | .ok r4 => bcc_cmd_render_from (i + 1) rest r4

/-- Embedding of `bcc_cmd_render(cmd, render)`, `cmd` being given by its
`cmd.count` items. -/
def bcc_cmd_render (cmd : List (Option (List Nat))) (render : Da Nat) : Except Fault (Da Nat) :=
  bcc_cmd_render_from 0 cmd render

/-- The arguments of a command: its items up to the first NULL. -/
def cmd_args : List (Option (List Nat)) → List (List Nat)
  | [] => []
  | none :: _ => []
  | some arg :: rest => arg :: cmd_args rest

/-- An argument as it is rendered: between single quotes if it contains a
space, verbatim otherwise. -/
def render_arg (arg : List Nat) : List Nat :=
  if 32 ∈ arg then [39] ++ arg ++ [39] else arg

/-- The text of a command: its rendered arguments, separated by one space. -/
def render_text (cmd : List (Option (List Nat))) : List Nat :=
  List.intercalate [32] ((cmd_args cmd).map render_arg)

/-- A string builder of 16 cells, none in use. -/
def sb_sixteen : Da Nat :=
  { items := List.replicate 16 none, count := 0, capacity := 16 }

/-- The text that the loop of `bcc_cmd_render` adds from index `i` on: the
text of the remaining items, after a space when an argument was rendered
before and one follows. -/
def render_text_from (i : Nat) (cmd : List (Option (List Nat))) : List Nat :=
  (if 0 < i ∧ cmd_args cmd ≠ [] then [32] else []) ++ render_text cmd


/-! ## File system operations

A path is the list of its components, so that `src_path` followed by "/" and
a child name is `src_path ++ [child]`.  Permission bits are not modelled. -/

/-- The errno value of "File exists". -/
def EEXIST : Nat := 17

/-- The errno value of "Not a directory". -/
def ENOTDIR : Nat := 20

/-- What a path names, by the class `st_mode & S_IFMT` that `stat` reports:
a regular file with its bytes, a directory with the names that `readdir`
yields for it in order ("." and ".." among them), a symbolic link, or
anything else. -/
inductive Entry where
  | regular (data : List Nat)
  | directory (names : List String)
  | symlink
  | other
deriving DecidableEq, Repr

/-- The system call of `bcc_copy_file` that fails: opening the source, `fstat`,
opening the destination, or a `read` or `write` once `copied` bytes have
reached the destination. -/
inductive CopyFault where
  | open_src
  | fstat
  | open_dst
  | transfer (copied : Nat)
deriving DecidableEq, Repr

/-- The file system, the failures the OS injects, and the temporary allocator.

* `entries path` is what `path` names, if anything;
* `stat_errno`, `mkdir_errno`, `opendir_errno` give the errno with which the
  call fails on a path for a reason of its own, if it does;
* `readdir_fault path` is the number of names `readdir` yields for `path`
  before it fails, if it fails;
* `copy_fault src dst` is the call of `bcc_copy_file(src, dst)` that fails, if
  one does. -/
structure Sys where
  entries : List String → Option Entry
  stat_errno : List String → Option Nat
  mkdir_errno : List String → Option Nat
  opendir_errno : List String → Option Nat
  readdir_fault : List String → Option Nat
  copy_fault : List String → List String → Option CopyFault
  arena : Arena

/-- How a call ends: it returns a value, the process is aborted by a failed
assertion, or the recursion allowance of the embedding is used up. -/
inductive Ret (α : Type) where
  | value (a : α)
  | aborted
  | no_fuel
deriving DecidableEq, Repr

/-- Creation of a new entry at `path`: the directory that contains it gains
the name; `none` when `path` has no last component or is not in a directory. -/
def create_entry (entries : List String → Option Entry) (path : List String) (e : Entry) :
    Option (List String → Option Entry) :=
  match path.getLast?, entries path.dropLast with
  | some name, some (Entry.directory names) =>
    some (Function.update
      (Function.update entries path.dropLast (some (Entry.directory (names ++ [name]))))
      path (some e))
  | _, _ => none

/-- Model of `mkdir(path, 0755)`: the new state, or the errno. -/
def mkdir (s : Sys) (path : List String) : Except Nat Sys :=
  match s.mkdir_errno path with
  | some errno => .error errno
  | none =>
    match s.entries path with
    | some _ => .error EEXIST
    | none =>
      match create_entry s.entries path (Entry.directory [".", ".."]) with
      | some entries => .ok { s with entries := entries }
      | none =>
        match s.entries path.dropLast with
        | some _ => .error ENOTDIR
        | none => .error ENOENT

/-- Embedding of `bcc_mkdir_if_not_exists` (POSIX branch). -/
def bcc_mkdir_if_not_exists (s : Sys) (path : List String) : Bool × Sys :=
  match mkdir s path with
  | .error errno => if errno = EEXIST then (true, s) else (false, s)
  | .ok s1 => (true, s1)

/-- Model of `open(path, O_CREAT | O_TRUNC | O_WRONLY, mode)`: an existing
regular file is emptied, a missing one is created empty in its directory;
`none` when the call fails. -/
def open_truncate (entries : List String → Option Entry) (path : List String) :
    Option (List String → Option Entry) :=
  match entries path with
  | some (Entry.regular _) => some (Function.update entries path (some (Entry.regular [])))
  | some _ => none
  | none => create_entry entries path (Entry.regular [])

/-- Embedding of `bcc_copy_file` (POSIX branch), the system calls it makes
being summarised by their outcome: a failure to open the source, of `fstat`
or to open the destination changes nothing; opening the destination creates
it or empties it (the source too, when both are the same file); a failing
`read` or `write` leaves the bytes copied so far; otherwise the destination
holds the bytes of the source.  A source that is not a regular file counts as
one that cannot be opened. -/
def bcc_copy_file (s : Sys) (src_path dst_path : List String) : Bool × Sys :=
  match s.entries src_path, s.copy_fault src_path dst_path with
  | some (Entry.regular data), none =>
    match open_truncate s.entries dst_path with
    | none => (false, s)
    | some entries =>
      let data1 := if src_path = dst_path then [] else data
      (true, { s with
                 entries := Function.update entries dst_path (some (Entry.regular data1)) })
  | some (Entry.regular data), some (CopyFault.transfer copied) =>
    match open_truncate s.entries dst_path with
    | none => (false, s)
    | some entries =>
      let data1 := if src_path = dst_path then [] else data
      (false, { s with
                  entries := Function.update entries dst_path
                    (some (Entry.regular (data1.take copied))) })
  | _, _ => (false, s)

/-- Embedding of `bcc_temp_strdup`: the offset of the copy, or `none` when the
assertion `result != NULL` fails. -/
def bcc_temp_strdup (a : Arena) (cstr : String) : Option Nat × Arena :=
  let n := cstr.utf8ByteSize
  bcc_temp_alloc a ((n + 1) % SIZE_MODULUS)

/-- The loop of `bcc_read_entire_dir` over the names that `readdir` yields:
the children appended, or `none` when an assertion fails. -/
def read_dir_names : List String → Arena → Option (List String) × Arena
  | [], a => (some [], a)
  | d_name :: rest, a =>
    match bcc_temp_strdup a d_name with
    | (none, a1) => (none, a1)
    | (some _, a1) =>
      match read_dir_names rest a1 with
      | (some children, a2) => (some (d_name :: children), a2)
      | (none, a2) => (none, a2)

/-- The names that successive `readdir` calls yield for the directory `parent`
whose listing is `names`, before `readdir` returns NULL. -/
def readdir_yield (s : Sys) (parent : List String) (names : List String) : List String :=
  match s.readdir_fault parent with
  | some k => names.take k
  | none => names

/-- Embedding of `bcc_read_entire_dir`, called with an empty `children`: the
result, the children appended and the state afterwards. -/
def bcc_read_entire_dir (s : Sys) (parent : List String) : Ret Bool × List String × Sys :=
  match s.opendir_errno parent, s.entries parent with
  | none, some (Entry.directory names) =>
    match read_dir_names (readdir_yield s parent names) s.arena with
    | (some children, a) =>
      (Ret.value (s.readdir_fault parent).isNone, children, { s with arena := a })
    | (none, a) => (Ret.aborted, [], { s with arena := a })
  | _, _ => (Ret.value false, [], s)

/-- The value that an object of type `BCC_File_Type` holds after `v` is stored
in it.  The type that represents an enumeration is chosen by the compiler:
with `enum_signed` it is `int`, otherwise `unsigned int` (the choice of GCC
and Clang for an enumeration without negative constants). -/
def enum_value (enum_signed : Bool) (v : Int) : Int :=
  if enum_signed then v else v % 2 ^ 32

/-- Embedding of `bcc_get_file_type` (POSIX branch): BCC_FILE_REGULAR is 0,
BCC_FILE_DIRECTORY 1, BCC_FILE_SYMLINK 2, BCC_FILE_OTHER 3, and -1 is returned
when `stat` fails. -/
def bcc_get_file_type (enum_signed : Bool) (s : Sys) (path : List String) : Int :=
  match s.stat_errno path, s.entries path with
  | none, some (Entry.directory _) => 1
  | none, some (Entry.regular _) => 0
  | none, some Entry.symlink => 2
  | none, some Entry.other => 3
  | _, _ => enum_value enum_signed (-1)

/-- The loop of `bcc_copy_directory_recursively` over the children, `copy`
being the recursive call. -/
def copy_children (copy : List String → List String → Sys → Ret Bool × Sys)
    (src_path dst_path : List String) : List String → Sys → Ret Bool × Sys
  | [], s => (Ret.value true, s)
  | child :: rest, s =>
    if child = "." then copy_children copy src_path dst_path rest s
    else if child = ".." then copy_children copy src_path dst_path rest s
    else
      match copy (src_path ++ [child]) (dst_path ++ [child]) s with
      | (Ret.value true, s1) => copy_children copy src_path dst_path rest s1
      | (r, s1) => (r, s1)

/-- The label `defer` of `bcc_copy_directory_recursively`: the arena is rewound
and `result` returned. -/
def copy_defer (temp_checkpoint : Nat) (result : Bool) (s : Sys) : Ret Bool × Sys :=
  (Ret.value result, { s with arena := bcc_temp_rewind s.arena temp_checkpoint })

/-- Embedding of `bcc_copy_directory_recursively`, with assertions enabled.
`fuel` bounds the depth of the recursion. -/
def bcc_copy_directory_recursively (enum_signed : Bool) :
    Nat → List String → List String → Sys → Ret Bool × Sys
  | 0, _, _, s => (Ret.no_fuel, s)
  | fuel + 1, src_path, dst_path, s =>
    let temp_checkpoint := bcc_temp_save s.arena
    let type := bcc_get_file_type enum_signed s src_path
    if type < 0 then (Ret.value false, s)
    else if type = 1 then
      match bcc_mkdir_if_not_exists s dst_path with
      | (false, s1) => copy_defer temp_checkpoint false s1
      | (true, s1) =>
        match bcc_read_entire_dir s1 src_path with
        | (Ret.value true, children, s2) =>
          match copy_children (bcc_copy_directory_recursively enum_signed fuel)
              src_path dst_path children s2 with
          | (Ret.value result, s3) => copy_defer temp_checkpoint result s3
          | (r, s3) => (r, s3)
        | (Ret.value false, _, s2) => copy_defer temp_checkpoint false s2
        | (r, _, s2) => (r, s2)
    else if type = 0 then
      match bcc_copy_file s src_path dst_path with
      | (false, s1) => copy_defer temp_checkpoint false s1
      | (true, s1) => copy_defer temp_checkpoint true s1
    else if type = 2 then copy_defer temp_checkpoint true s
    else if type = 3 then copy_defer temp_checkpoint false s
    else (Ret.aborted, s)

/-- A file system holding the listed entries, without injected failures, and
an empty arena. -/
def Sys.sim (es : List (List String × Entry)) : Sys :=
  { entries := fun p => es.lookup p
    stat_errno := fun _ => none
    mkdir_errno := fun _ => none
    opendir_errno := fun _ => none
    readdir_fault := fun _ => none
    copy_fault := fun _ _ => none
    arena := { bcc_temp_size := 0 } }

/-- The directory "src" holds the regular file "f.txt", the directory "sub"
with the regular file "g.txt" in it, and the entry "dev" of another kind; its
listing yields "dev" first. -/
def sys_other_first : Sys :=
  Sys.sim
    [([], Entry.directory [".", "..", "src"]),
     (["src"], Entry.directory [".", "..", "dev", "f.txt", "sub"]),
     (["src", "dev"], Entry.other),
     (["src", "f.txt"], Entry.regular [1, 2, 3]),
     (["src", "sub"], Entry.directory [".", "..", "g.txt"]),
     (["src", "sub", "g.txt"], Entry.regular [4, 5])]

/-- The same directory, its listing yielding "dev" last. -/
def sys_other_last : Sys :=
  Sys.sim
    [([], Entry.directory [".", "..", "src"]),
     (["src"], Entry.directory [".", "..", "f.txt", "sub", "dev"]),
     (["src", "dev"], Entry.other),
     (["src", "f.txt"], Entry.regular [1, 2, 3]),
     (["src", "sub"], Entry.directory [".", "..", "g.txt"]),
     (["src", "sub", "g.txt"], Entry.regular [4, 5])]

/-! ## Vocabulary of the statements about the recursive copy -/

/-- The children that the loop of `bcc_copy_directory_recursively` copies:
all but "." and "..". -/
def real_children (children : List String) : List String :=
  children.filter (fun c => decide (c ≠ "." ∧ c ≠ ".."))

/-- Copying the listed children one after the other with `copy`, each from
`src_path` to `dst_path`, succeeds for every one of them and leads from the
state `s` to the state `s2`. -/
def ChildrenSucceed (copy : List String → List String → Sys → Ret Bool × Sys)
    (src_path dst_path : List String) : List String → Sys → Sys → Prop
  | [], s, s2 => s2 = s
  | child :: rest, s, s2 =>
    ∃ s1, copy (src_path ++ [child]) (dst_path ++ [child]) s = (Ret.value true, s1) ∧
      ChildrenSucceed copy src_path dst_path rest s1 s2

/-- The path `p` is `dir` or lies below it. -/
def Under (dir p : List String) : Prop :=
  ∃ t, p = dir ++ t

/-- The state `s2` differs from `s` at most in the arena and in what is named
by `dst`, by the paths below `dst`, and by the directory that contains `dst`. -/
def FrameOutside (dst : List String) (s s2 : Sys) : Prop :=
  s2.stat_errno = s.stat_errno ∧ s2.mkdir_errno = s.mkdir_errno ∧
  s2.opendir_errno = s.opendir_errno ∧ s2.readdir_fault = s.readdir_fault ∧
  s2.copy_fault = s.copy_fault ∧
  ∀ p, ¬ Under dst p → p ≠ dst.dropLast → s2.entries p = s.entries p

/-- Neither of the two paths is the other or lies below it. -/
def Apart (a b : List String) : Prop :=
  ¬ Under a b ∧ ¬ Under b a

/-- The relative path `t` leads from the directory `dir` down through
directories each of which lists the next component. -/
def Listed (s : Sys) : List String → List String → Prop
  | _, [] => True
  | dir, c :: t =>
    (∃ names, s.entries dir = some (Entry.directory names) ∧ c ∈ real_children names) ∧
      Listed s (dir ++ [c]) t

/-- The state of `sys_other_last` once "dst" has been created. -/
def sys_after_mkdir : Sys :=
  (bcc_mkdir_if_not_exists sys_other_last ["dst"]).2

/-- The state once "src" has been listed. -/
def sys_after_listing : Sys :=
  (bcc_read_entire_dir sys_after_mkdir ["src"]).2.2

/-- The state once the child "f.txt" has been copied. -/
def sys_after_file : Sys :=
  (bcc_copy_directory_recursively false 2 ["src", "f.txt"] ["dst", "f.txt"]
    sys_after_listing).2

/-- The state once the child "sub" has been copied. -/
def sys_after_sub : Sys :=
  (bcc_copy_directory_recursively false 2 ["src", "sub"] ["dst", "sub"] sys_after_file).2

/-! ## Concrete inputs of the timestamp comparison -/

/-- The output was written one second after the epoch, the input 2^32 seconds
after it. -/
def world_input_at_two_pow_32 : World :=
  World.sim [("out", ⟨1, []⟩), ("in.c", ⟨4294967296, []⟩)] [] []

/-- The input was written one second after the epoch, the output 2^32 seconds
after it. -/
def world_output_at_two_pow_32 : World :=
  World.sim [("out", ⟨4294967296, []⟩), ("in.c", ⟨1, []⟩)] [] []

/-! ## Sequences of calls to the arena allocator -/

/-- A call to one of the functions of the arena allocator, with its
argument. -/
inductive TempCall where
  | alloc (size : Nat)
  | save
  | reset
  | rewind (checkpoint : Nat)
deriving DecidableEq, Repr

/-- The arena after a call. -/
def temp_call (a : Arena) : TempCall → Arena
  | TempCall.alloc size => (bcc_temp_alloc a size).2
  | TempCall.save => a
  | TempCall.reset => bcc_temp_reset a
  | TempCall.rewind checkpoint => bcc_temp_rewind a checkpoint

/-- The arena after each call of a sequence, in order. -/
def temp_trace : List TempCall → Arena → List Arena
  | [], _ => []
  | call :: rest, a => temp_call a call :: temp_trace rest (temp_call a call)

/-- The regions that the successful `bcc_temp_alloc` calls of a sequence
return, by offset in `bcc_temp` and size in bytes, in order. -/
def temp_regions : List TempCall → Arena → List (Nat × Nat)
  | [], _ => []
  | TempCall.alloc size :: rest, a =>
    match bcc_temp_alloc a size with
    | (some offset, a1) => (offset, size) :: temp_regions rest a1
    | (none, a1) => temp_regions rest a1
  | call :: rest, a => temp_regions rest (temp_call a call)

/-- Every argument of `bcc_temp_rewind` in the sequence is a value returned by
an earlier `bcc_temp_save`, `saved` being the values returned before the
sequence starts; every size is a value of `size_t`. -/
def Disciplined : List TempCall → Arena → List Nat → Prop
  | [], _, _ => True
  | TempCall.rewind checkpoint :: rest, a, saved =>
    checkpoint ∈ saved ∧ Disciplined rest (bcc_temp_rewind a checkpoint) saved
  | TempCall.save :: rest, a, saved => Disciplined rest a (bcc_temp_save a :: saved)
  | TempCall.reset :: rest, a, saved => Disciplined rest (bcc_temp_reset a) saved
  | TempCall.alloc size :: rest, a, saved =>
    size < SIZE_MODULUS ∧ Disciplined rest (bcc_temp_alloc a size).2 saved

/-! ## Concrete dynamic arrays -/

/-- An array whose block has one cell and whose `count` is 3, beyond its
capacity. -/
def da_count_beyond_capacity : Da Nat :=
  { items := [none], count := 3, capacity := 1 }

/-- A full array of two cells. -/
def da_two_of_two : Da Nat :=
  { items := [some 1, some 2], count := 2, capacity := 2 }

/-! ## Depth of a source tree -/

/-- The directories reached from `p` through the listings nest fewer than
`depth` levels deep. -/
def tree_within (s : Sys) : Nat → List String → Bool
  | 0, _ => false
  | depth + 1, p =>
    match s.entries p with
    | some (Entry.directory names) =>
      (real_children names).all (fun c => tree_within s depth (p ++ [c]))
    | _ => true

/-- The directory "src" of `sys_other_last`, `stat` failing on "src/sub". -/
def sys_stat_fails_below : Sys :=
  { sys_other_last with
      stat_errno := fun p => if p = ["src", "sub"] then some 13 else none }

/-! # Theorems -/

/-! ## Rebuild decision engine -/

theorem toInt32_of_inInt32 {t : Int} (h : InInt32 t) : toInt32 t = t := by
  unfold InInt32 at h
  unfold toInt32
  simp only
  split <;> omega

theorem stat_ok {w : World} {p : String} {f : File} (h : w.files p = .ok f) :
    stat w p = (StatResult.ok f.st_mtime, { w with log := w.log ++ [Event.stat p] }) := by
  simp [stat, h]

theorem stat_error {w : World} {p : String} {e : Nat} (h : w.files p = .error e) :
    stat w p = (StatResult.fail e, { w with log := w.log ++ [Event.stat p] }) := by
  simp [stat, h]

/-- The input loop up to the first input on which `stat` fails. -/
theorem needs_rebuild_inputs_missing (fs : String → Except Nat File) (t : Int)
    (pre : List String) (m : String) (post : List String) (e : Nat)
    (hpre : ∀ p ∈ pre, ∃ g, fs p = .ok g ∧ InInt32 g.st_mtime)
    (hm : fs m = .error e) (w : World) (hw : w.files = fs) :
    ((∀ p ∈ pre, ∀ g, fs p = .ok g → g.st_mtime ≤ t) →
        (bcc_needs_rebuild_inputs t (pre ++ m :: post) w).1 = -1) ∧
    ((∃ p ∈ pre, ∃ g, fs p = .ok g ∧ t < g.st_mtime) →
        (bcc_needs_rebuild_inputs t (pre ++ m :: post) w).1 = 1) := by
  induction pre generalizing w with
  | nil =>
    subst hw
    constructor
    · intro _
      simp [bcc_needs_rebuild_inputs, stat_error hm]
    · rintro ⟨p, hp, _⟩
      simp at hp
  | cons p pre ih =>
    obtain ⟨g, hg, hr⟩ := hpre p (by simp)
    have hpre2 : ∀ q ∈ pre, ∃ g, fs q = .ok g ∧ InInt32 g.st_mtime :=
      fun q hq => hpre q (by simp [hq])
    have hgw : w.files p = .ok g := by rw [hw]; exact hg
    have ih2 := ih hpre2 { w with log := w.log ++ [Event.stat p] } hw
    simp only [List.cons_append, bcc_needs_rebuild_inputs, stat_ok hgw, toInt32_of_inInt32 hr]
    by_cases hnew : g.st_mtime > t
    · simp only [hnew, if_true]
      constructor
      · intro hall
        have := hall p (by simp) g hg
        omega
      · intro _
        trivial
    · simp only [hnew, if_false]
      constructor
      · intro hall
        exact ih2.1 (fun q hq => hall q (by simp [hq]))
      · rintro ⟨q, hq, g2, hg2, hlt⟩
        rcases List.mem_cons.mp hq with rfl | hq2
        · rw [hg] at hg2
          cases hg2
          omega
        · exact ih2.2 ⟨q, hq2, g2, hg2, hlt⟩

/-- The input loop when `stat` succeeds on every input. -/
theorem needs_rebuild_inputs_all_exist (fs : String → Except Nat File) (t : Int)
    (ins : List String)
    (hins : ∀ p ∈ ins, ∃ g, fs p = .ok g ∧ InInt32 g.st_mtime)
    (w : World) (hw : w.files = fs) :
    ((∀ p ∈ ins, ∀ g, fs p = .ok g → g.st_mtime ≤ t) →
        (bcc_needs_rebuild_inputs t ins w).1 = 0) ∧
    ((∃ p ∈ ins, ∃ g, fs p = .ok g ∧ t < g.st_mtime) →
        (bcc_needs_rebuild_inputs t ins w).1 = 1) := by
  induction ins generalizing w with
  | nil =>
    constructor
    · intro _
      simp [bcc_needs_rebuild_inputs]
    · rintro ⟨p, hp, _⟩
      simp at hp
  | cons p ins ih =>
    obtain ⟨g, hg, hr⟩ := hins p (by simp)
    have hins2 : ∀ q ∈ ins, ∃ g, fs q = .ok g ∧ InInt32 g.st_mtime :=
      fun q hq => hins q (by simp [hq])
    have hgw : w.files p = .ok g := by rw [hw]; exact hg
    have ih2 := ih hins2 { w with log := w.log ++ [Event.stat p] } hw
    simp only [bcc_needs_rebuild_inputs, stat_ok hgw, toInt32_of_inInt32 hr]
    by_cases hnew : g.st_mtime > t
    · simp only [hnew, if_true]
      constructor
      · intro hall
        have := hall p (by simp) g hg
        omega
      · intro _
        trivial
    · simp only [hnew, if_false]
      constructor
      · intro hall
        exact ih2.1 (fun q hq => hall q (by simp [hq]))
      · rintro ⟨q, hq, g2, hg2, hlt⟩
        rcases List.mem_cons.mp hq with rfl | hq2
        · rw [hg] at hg2
          cases hg2
          omega
        · exact ih2.2 ⟨q, hq2, g2, hg2, hlt⟩

/-- C1, as stated, fails: with an existing output, a first input newer than
the output and a second input that does not exist, `bcc_needs_rebuild`
returns STALE (1), not ERROR (-1). -/
theorem needs_rebuild_missing_after_newer_is_stale :
    (∃ f, world_newer_then_missing.files "out" = .ok f) ∧
    (∃ p ∈ ["a.c", "missing.c"], world_newer_then_missing.files p = .error ENOENT) ∧
    (bcc_needs_rebuild world_newer_then_missing "out" ["a.c", "missing.c"]).1 = 1 :=
  ⟨⟨⟨100, []⟩, by decide⟩, ⟨"missing.c", by decide, by decide⟩, by decide⟩

/-- C1, amended: when the output exists, some listed input does not (`stat`
fails on it), and the modification times of the output and of the inputs
listed before the first such input fit in an `int`, `bcc_needs_rebuild`
returns ERROR (-1) if none of the inputs listed before it is strictly newer
than the output, and STALE (1) if one of them is. -/
theorem needs_rebuild_missing_input (w : World) (output_path : String) (f : File)
    (pre : List String) (missing : String) (post : List String) (errno : Nat)
    (hout : w.files output_path = .ok f) (hf : InInt32 f.st_mtime)
    (hpre : ∀ p ∈ pre, ∃ g, w.files p = .ok g ∧ InInt32 g.st_mtime)
    (hmissing : w.files missing = .error errno) :
    ((∀ p ∈ pre, ∀ g, w.files p = .ok g → g.st_mtime ≤ f.st_mtime) →
        (bcc_needs_rebuild w output_path (pre ++ missing :: post)).1 = -1) ∧
    ((∃ p ∈ pre, ∃ g, w.files p = .ok g ∧ f.st_mtime < g.st_mtime) →
        (bcc_needs_rebuild w output_path (pre ++ missing :: post)).1 = 1) := by
  simp only [bcc_needs_rebuild, stat_ok hout, toInt32_of_inInt32 hf]
  exact needs_rebuild_inputs_missing w.files f.st_mtime pre missing post errno hpre hmissing
    { w with log := w.log ++ [Event.stat output_path] } rfl

/-- An instance of `needs_rebuild_missing_input`: an older input, then a
missing one, then anything: ERROR. -/
theorem needs_rebuild_missing_input_witness :
    (bcc_needs_rebuild world_older_then_missing "out"
      (["a.c"] ++ "missing.c" :: ["a.c"])).1 = -1 :=
  (needs_rebuild_missing_input world_older_then_missing "out" ⟨100, []⟩ ["a.c"] "missing.c"
    ["a.c"] ENOENT (by decide) (by unfold InInt32; decide)
    (fun p hp => by
      rw [List.mem_singleton] at hp
      subst hp
      exact ⟨⟨50, []⟩, by decide, by unfold InInt32; decide⟩)
    (by decide)).1
    (fun p hp g hg => by
      rw [List.mem_singleton] at hp
      subst hp
      have h50 : world_older_then_missing.files "a.c" = .ok ⟨50, []⟩ := by decide
      rw [h50] at hg
      cases hg
      decide)

/-- C2, the code at the failing input: the output exists with modification
time 2^31 - 1, the only input exists and is one second newer (2^31), and
`bcc_needs_rebuild` returns FRESH (0). -/
theorem needs_rebuild_newer_input_after_int_max_is_fresh :
    world_input_after_int_max.files "out" = .ok ⟨2147483647, []⟩ ∧
    world_input_after_int_max.files "in.c" = .ok ⟨2147483648, []⟩ ∧
    (bcc_needs_rebuild world_input_after_int_max "out" ["in.c"]).1 = 0 := by
  decide

/-- When all modification times fit in an `int`, all inputs exist and one of
them is strictly newer than the existing output, the result is STALE (1). -/
theorem needs_rebuild_stale_in_int_range (w : World) (output_path : String) (f : File)
    (input_paths : List String)
    (hout : w.files output_path = .ok f) (hf : InInt32 f.st_mtime)
    (hins : ∀ p ∈ input_paths, ∃ g, w.files p = .ok g ∧ InInt32 g.st_mtime)
    (hnewer : ∃ p ∈ input_paths, ∃ g, w.files p = .ok g ∧ f.st_mtime < g.st_mtime) :
    (bcc_needs_rebuild w output_path input_paths).1 = 1 := by
  simp only [bcc_needs_rebuild, stat_ok hout, toInt32_of_inInt32 hf]
  exact (needs_rebuild_inputs_all_exist w.files f.st_mtime input_paths hins
    { w with log := w.log ++ [Event.stat output_path] } rfl).2 hnewer

/-- C3: when the output path does not exist, `bcc_needs_rebuild` returns
STALE (1) for every input list, and the only system call it makes is the
`stat` of the output path: no input is examined. -/
theorem needs_rebuild_output_missing (w : World) (output_path : String)
    (input_paths : List String) (hout : w.files output_path = .error ENOENT) :
    bcc_needs_rebuild w output_path input_paths =
      (1, { w with log := w.log ++ [Event.stat output_path] }) := by
  simp [bcc_needs_rebuild, stat_error hout]

/-- An instance of `needs_rebuild_output_missing`, with a missing input too. -/
theorem needs_rebuild_output_missing_witness :
    bcc_needs_rebuild world_newer_then_missing "build/x.o" ["a.c", "missing.c"] =
      (1, { world_newer_then_missing with
              log := world_newer_then_missing.log ++ [Event.stat "build/x.o"] }) :=
  needs_rebuild_output_missing world_newer_then_missing "build/x.o" ["a.c", "missing.c"]
    (by decide)

/-- C4, the code at the failing input: the output exists with modification
time 2^31, the only input exists and is one second older (2^31 - 1), and
`bcc_needs_rebuild` returns STALE (1). -/
theorem needs_rebuild_older_input_before_int_max_is_stale :
    world_output_after_int_max.files "out" = .ok ⟨2147483648, []⟩ ∧
    world_output_after_int_max.files "in.c" = .ok ⟨2147483647, []⟩ ∧
    (bcc_needs_rebuild world_output_after_int_max "out" ["in.c"]).1 = 1 := by
  decide

/-- When all modification times fit in an `int`, all inputs exist and none
of them is strictly newer than the existing output (older or equal), the
result is FRESH (0). -/
theorem needs_rebuild_fresh_in_int_range (w : World) (output_path : String) (f : File)
    (input_paths : List String)
    (hout : w.files output_path = .ok f) (hf : InInt32 f.st_mtime)
    (hins : ∀ p ∈ input_paths, ∃ g, w.files p = .ok g ∧ InInt32 g.st_mtime)
    (hold : ∀ p ∈ input_paths, ∀ g, w.files p = .ok g → g.st_mtime ≤ f.st_mtime) :
    (bcc_needs_rebuild w output_path input_paths).1 = 0 := by
  simp only [bcc_needs_rebuild, stat_ok hout, toInt32_of_inInt32 hf]
  exact (needs_rebuild_inputs_all_exist w.files f.st_mtime input_paths hins
    { w with log := w.log ++ [Event.stat output_path] } rfl).1 hold
/-! ## Process execution layer -/

theorem wait_result_iff (s : List WaitReport) :
    wait_result s = true ↔
      ∃ n rest, s = List.replicate n WaitReport.other ++ WaitReport.exited 0 :: rest := by
  induction s with
  | nil =>
    simp only [wait_result, Bool.false_eq_true, false_iff]
    rintro ⟨n, rest, h⟩
    cases n <;> simp [List.replicate] at h
  | cons r s ih =>
    cases r with
    | failed =>
      simp only [wait_result, Bool.false_eq_true, false_iff]
      rintro ⟨n, rest, h⟩
      cases n <;> simp [List.replicate] at h
    | signaled sig =>
      simp only [wait_result, Bool.false_eq_true, false_iff]
      rintro ⟨n, rest, h⟩
      cases n <;> simp [List.replicate] at h
    | exited k =>
      simp only [wait_result, decide_eq_true_eq]
      constructor
      · intro hk
        subst hk
        exact ⟨0, s, rfl⟩
      · rintro ⟨n, rest, h⟩
        cases n with
        | zero =>
          simp only [List.replicate, List.nil_append, List.cons.injEq,
            WaitReport.exited.injEq] at h
          exact h.1
        | succ n => simp [List.replicate] at h
    | other =>
      simp only [wait_result]
      rw [ih]
      constructor
      · rintro ⟨n, rest, h⟩
        exact ⟨n + 1, rest, by simp [List.replicate, h]⟩
      · rintro ⟨n, rest, h⟩
        cases n with
        | zero => simp [List.replicate] at h
        | succ n =>
          simp only [List.replicate, List.cons_append, List.cons.injEq, true_and] at h
          exact ⟨n, rest, h⟩

theorem wait_result_exited (n : Nat) (k : Nat) (rest : List WaitReport) :
    wait_result (List.replicate n WaitReport.other ++ WaitReport.exited k :: rest)
      = decide (k = 0) := by
  induction n with
  | zero => simp [wait_result]
  | succ n ih => simpa [List.replicate, wait_result] using ih

theorem wait_result_signaled (n : Nat) (sig : Nat) (rest : List WaitReport) :
    wait_result (List.replicate n WaitReport.other ++ WaitReport.signaled sig :: rest)
      = false := by
  induction n with
  | zero => simp [wait_result]
  | succ n ih => simpa [List.replicate, wait_result] using ih

/-- The loop of `bcc_proc_wait` never runs out of iterations when it is given
more of them than there are pending reports; its result is then determined
by the pending reports alone. -/
theorem bcc_proc_wait_loop_eq (proc : Int) (fuel : Nat) (w : World)
    (hfuel : (w.children proc).length < fuel) :
    bcc_proc_wait_loop proc fuel w =
      (wait_result (w.children proc),
       { w with
           children := Function.update w.children proc (wait_rest (w.children proc))
           log := w.log ++
             List.replicate (wait_calls (w.children proc)) (Event.waitpid proc) }) := by
  induction fuel generalizing w with
  | zero => omega
  | succ fuel ih =>
    cases hc : w.children proc with
    | nil =>
      have hself : Function.update w.children proc [] = w.children := by
        rw [← hc]
        exact Function.update_eq_self proc w.children
      simp [bcc_proc_wait_loop, waitpid, hc, wait_result, wait_rest, wait_calls, hself]
    | cons r rest =>
      rw [hc] at hfuel
      cases r with
      | failed =>
        simp [bcc_proc_wait_loop, waitpid, hc, wait_result, wait_rest, wait_calls]
      | signaled sig =>
        simp [bcc_proc_wait_loop, waitpid, hc, wait_result, wait_rest, wait_calls]
      | exited k =>
        by_cases hk : k = 0 <;>
          simp [bcc_proc_wait_loop, waitpid, hc, wait_result, wait_rest, wait_calls, hk]
      | other =>
        simp only [bcc_proc_wait_loop, waitpid, hc, wait_result, wait_rest, wait_calls]
        rw [ih]
        · simp [List.replicate_succ]
        · simp only [Function.update_same]
          simp only [List.length_cons] at hfuel
          omega

/-- What `bcc_proc_wait` does on a handle other than BCC_INVALID_PROC. -/
theorem bcc_proc_wait_valid (w : World) (proc : Int) (h : proc ≠ BCC_INVALID_PROC) :
    bcc_proc_wait w proc =
      (wait_result (w.children proc),
       { w with
           children := Function.update w.children proc (wait_rest (w.children proc))
           log := w.log ++ Event.proc_wait proc ::
             List.replicate (wait_calls (w.children proc)) (Event.waitpid proc) }) := by
  unfold bcc_proc_wait
  simp only [h, if_false]
  rw [bcc_proc_wait_loop_eq]
  · simp
  · simp

/-- What `bcc_proc_wait` does on BCC_INVALID_PROC. -/
theorem bcc_proc_wait_invalid (w : World) :
    bcc_proc_wait w BCC_INVALID_PROC =
      (false, { w with log := w.log ++ [Event.proc_wait BCC_INVALID_PROC] }) := by
  simp [bcc_proc_wait]

theorem bcc_proc_wait_fst (w : World) (proc : Int) :
    (bcc_proc_wait w proc).1 =
      (decide (proc ≠ BCC_INVALID_PROC) && wait_result (w.children proc)) := by
  by_cases h : proc = BCC_INVALID_PROC
  · subst h
    simp [bcc_proc_wait_invalid]
  · simp [bcc_proc_wait_valid w proc h, h]

theorem bcc_proc_wait_children (w : World) (proc : Int) :
    (bcc_proc_wait w proc).2.children =
      if proc = BCC_INVALID_PROC then w.children
      else Function.update w.children proc (wait_rest (w.children proc)) := by
  by_cases h : proc = BCC_INVALID_PROC
  · subst h
    simp [bcc_proc_wait_invalid]
  · simp [bcc_proc_wait_valid w proc h, h]

theorem bcc_proc_wait_children_of_ne (w : World) (proc p : Int) (h : p ≠ proc) :
    (bcc_proc_wait w proc).2.children p = w.children p := by
  rw [bcc_proc_wait_children]
  split
  · rfl
  · exact Function.update_noteq h _ _

theorem bcc_proc_wait_log (w : World) (proc : Int) :
    ∃ n, (bcc_proc_wait w proc).2.log =
      w.log ++ Event.proc_wait proc :: List.replicate n (Event.waitpid proc) := by
  by_cases h : proc = BCC_INVALID_PROC
  · subst h
    exact ⟨0, by simp [bcc_proc_wait_invalid]⟩
  · exact ⟨wait_calls (w.children proc), by simp [bcc_proc_wait_valid w proc h]⟩

theorem bcc_procs_wait_from_cons (s : Bool) (proc : Int) (rest : List Int) (w : World) :
    bcc_procs_wait_from s (proc :: rest) w =
      bcc_procs_wait_from ((bcc_proc_wait w proc).1 && s) rest (bcc_proc_wait w proc).2 := by
  simp [bcc_procs_wait_from]

/-- A value of `success` that is false stays false. -/
theorem bcc_procs_wait_from_false (procs : List Int) (w : World) :
    (bcc_procs_wait_from false procs w).1 = false := by
  induction procs generalizing w with
  | nil => rfl
  | cons p rest ih =>
    rw [bcc_procs_wait_from_cons]
    simpa using ih _

/-- The aggregate and the pending reports left behind depend on the world
only through its pending reports. -/
theorem bcc_procs_wait_from_congr (procs : List Int) (s : Bool) (w v : World)
    (h : w.children = v.children) :
    (bcc_procs_wait_from s procs w).1 = (bcc_procs_wait_from s procs v).1 ∧
    (bcc_procs_wait_from s procs w).2.children = (bcc_procs_wait_from s procs v).2.children := by
  induction procs generalizing s w v with
  | nil => exact ⟨rfl, h⟩
  | cons p rest ih =>
    rw [bcc_procs_wait_from_cons, bcc_procs_wait_from_cons]
    have h1 : (bcc_proc_wait w p).1 = (bcc_proc_wait v p).1 := by
      rw [bcc_proc_wait_fst, bcc_proc_wait_fst, h]
    have h2 : (bcc_proc_wait w p).2.children = (bcc_proc_wait v p).2.children := by
      rw [bcc_proc_wait_children, bcc_proc_wait_children, h]
    rw [h1]
    exact ih _ _ _ h2

/-- Waiting on two handles in either order gives the same two results and
leaves the same pending reports. -/
theorem bcc_proc_wait_swap (w : World) (x y : Int) :
    ((bcc_proc_wait (bcc_proc_wait w x).2 y).1 && (bcc_proc_wait w x).1) =
      ((bcc_proc_wait (bcc_proc_wait w y).2 x).1 && (bcc_proc_wait w y).1) ∧
    (bcc_proc_wait (bcc_proc_wait w x).2 y).2.children =
      (bcc_proc_wait (bcc_proc_wait w y).2 x).2.children := by
  by_cases hxy : x = y
  · subst hxy
    exact ⟨rfl, rfl⟩
  · have hyx : y ≠ x := fun h => hxy h.symm
    constructor
    · rw [bcc_proc_wait_fst (bcc_proc_wait w x).2 y, bcc_proc_wait_fst (bcc_proc_wait w y).2 x,
        bcc_proc_wait_children_of_ne w x y hyx, bcc_proc_wait_children_of_ne w y x hxy,
        bcc_proc_wait_fst w x, bcc_proc_wait_fst w y]
      exact Bool.and_comm _ _
    · rw [bcc_proc_wait_children (bcc_proc_wait w x).2 y,
        bcc_proc_wait_children (bcc_proc_wait w y).2 x,
        bcc_proc_wait_children_of_ne w x y hyx, bcc_proc_wait_children_of_ne w y x hxy,
        bcc_proc_wait_children w x, bcc_proc_wait_children w y]
      by_cases hx : x = BCC_INVALID_PROC <;> by_cases hy : y = BCC_INVALID_PROC <;>
        simp only [hx, hy, if_true, if_false]
      exact Function.update_comm hxy _ _ _

theorem bcc_procs_wait_from_perm {l1 l2 : List Int} (hp : l1.Perm l2) :
    ∀ (s : Bool) (w v : World), w.children = v.children →
      (bcc_procs_wait_from s l1 w).1 = (bcc_procs_wait_from s l2 v).1 ∧
      (bcc_procs_wait_from s l1 w).2.children = (bcc_procs_wait_from s l2 v).2.children := by
  induction hp with
  | nil => exact fun s w v h => ⟨rfl, h⟩
  | cons x _ ih =>
    intro s w v h
    rw [bcc_procs_wait_from_cons, bcc_procs_wait_from_cons]
    have h1 : (bcc_proc_wait w x).1 = (bcc_proc_wait v x).1 := by
      rw [bcc_proc_wait_fst, bcc_proc_wait_fst, h]
    have h2 : (bcc_proc_wait w x).2.children = (bcc_proc_wait v x).2.children := by
      rw [bcc_proc_wait_children, bcc_proc_wait_children, h]
    rw [h1]
    exact ih _ _ _ h2
  | swap x y l =>
    intro s w v h
    rw [bcc_procs_wait_from_cons, bcc_procs_wait_from_cons, bcc_procs_wait_from_cons,
      bcc_procs_wait_from_cons]
    obtain ⟨hr, hc⟩ := bcc_proc_wait_swap w y x
    have hv := bcc_procs_wait_from_congr (x :: y :: l) s w v h
    rw [bcc_procs_wait_from_cons, bcc_procs_wait_from_cons, bcc_procs_wait_from_cons,
      bcc_procs_wait_from_cons] at hv
    rw [← hv.1, ← hv.2, ← Bool.and_assoc, ← Bool.and_assoc, hr]
    exact bcc_procs_wait_from_congr l _ _ _ hc
  | trans _ _ ih1 ih2 =>
    intro s w v h
    obtain ⟨a1, a2⟩ := ih1 s w w rfl
    obtain ⟨b1, b2⟩ := ih2 s w v h
    exact ⟨a1.trans b1, a2.trans b2⟩

/-- A member whose own wait fails makes the aggregate false. -/
theorem bcc_procs_wait_from_failing (procs : List Int) (s : Bool) (w : World) (p : Int)
    (hp : p ∈ procs) (hfail : p = BCC_INVALID_PROC ∨ wait_result (w.children p) = false) :
    (bcc_procs_wait_from s procs w).1 = false := by
  induction procs generalizing s w with
  | nil => simp at hp
  | cons x rest ih =>
    rw [bcc_procs_wait_from_cons]
    by_cases hx : p = x
    · subst hx
      have : (bcc_proc_wait w p).1 = false := by
        rw [bcc_proc_wait_fst]
        rcases hfail with h | h
        · simp [h]
        · simp [h]
      rw [this]
      exact bcc_procs_wait_from_false _ _
    · have hmem : p ∈ rest := by
        rcases List.mem_cons.mp hp with h | h
        · exact absurd h hx
        · exact h
      apply ih _ _ hmem
      rw [bcc_proc_wait_children_of_ne w x p hx]
      exact hfail

/-- With pairwise distinct valid handles, the aggregate is true exactly when
the accumulated value is and every member is valid and its own wait succeeds. -/
theorem bcc_procs_wait_from_iff (procs : List Int) (s : Bool) (w : World)
    (hnd : (procs.filter (fun p => decide (p ≠ BCC_INVALID_PROC))).Nodup) :
    (bcc_procs_wait_from s procs w).1 = true ↔
      s = true ∧ ∀ p ∈ procs, p ≠ BCC_INVALID_PROC ∧ wait_result (w.children p) = true := by
  constructor
  · intro h
    have hs : s = true := by
      cases s
      · rw [bcc_procs_wait_from_false] at h
        exact h
      · rfl
    refine ⟨hs, fun p hp => ?_⟩
    by_contra hcon
    have hfail : p = BCC_INVALID_PROC ∨ wait_result (w.children p) = false := by
      by_cases hv : p = BCC_INVALID_PROC
      · exact Or.inl hv
      · right
        cases hr : wait_result (w.children p)
        · rfl
        · exact absurd ⟨hv, hr⟩ hcon
    rw [bcc_procs_wait_from_failing procs s w p hp hfail] at h
    exact Bool.false_ne_true h
  · rintro ⟨hs, hall⟩
    subst hs
    induction procs generalizing w with
    | nil => rfl
    | cons x rest ih =>
      rw [bcc_procs_wait_from_cons]
      obtain ⟨hxv, hxr⟩ := hall x (by simp)
      have hfx : (bcc_proc_wait w x).1 = true := by
        rw [bcc_proc_wait_fst]
        simp [hxv, hxr]
      rw [hfx]
      have hnd2 : (x :: rest.filter (fun p => decide (p ≠ BCC_INVALID_PROC))).Nodup := by
        simpa [List.filter_cons, hxv] using hnd
      rw [List.nodup_cons] at hnd2
      apply ih _ hnd2.2
      intro p hp
      obtain ⟨hpv, hpr⟩ := hall p (by simp [hp])
      have hne : p ≠ x := by
        intro hpx
        apply hnd2.1
        rw [← hpx]
        exact List.mem_filter.mpr ⟨hp, by simpa using hpv⟩
      rw [bcc_proc_wait_children_of_ne w x p hne]
      exact ⟨hpv, hpr⟩

theorem proc_wait_calls_append (a b : List Event) :
    proc_wait_calls (a ++ b) = proc_wait_calls a ++ proc_wait_calls b := by
  simp [proc_wait_calls, List.filterMap_append]

theorem proc_wait_calls_step (proc : Int) (n : Nat) :
    proc_wait_calls (Event.proc_wait proc :: List.replicate n (Event.waitpid proc)) = [proc] := by
  induction n with
  | zero => simp [proc_wait_calls]
  | succ n ih =>
    simp only [proc_wait_calls, List.replicate_succ] at ih ⊢
    simp [List.filterMap_cons]

theorem bcc_procs_wait_from_log (procs : List Int) (s : Bool) (w : World) :
    ∃ added, (bcc_procs_wait_from s procs w).2.log = w.log ++ added ∧
      proc_wait_calls added = procs := by
  induction procs generalizing s w with
  | nil => exact ⟨[], by simp [bcc_procs_wait_from], rfl⟩
  | cons p rest ih =>
    rw [bcc_procs_wait_from_cons]
    obtain ⟨n, hn⟩ := bcc_proc_wait_log w p
    obtain ⟨added, h1, h2⟩ := ih ((bcc_proc_wait w p).1 && s) (bcc_proc_wait w p).2
    refine ⟨(Event.proc_wait p :: List.replicate n (Event.waitpid p)) ++ added, ?_, ?_⟩
    · rw [h1, hn, List.append_assoc]
    · rw [proc_wait_calls_append, proc_wait_calls_step, h2]
      rfl

theorem exitsWith_zero_iff (w : World) (proc : Int) :
    ExitsWith w proc 0 ↔ wait_result (w.children proc) = true :=
  (wait_result_iff (w.children proc)).symm

/-- C5: `bcc_procs_wait` on a process set (the valid handles pairwise
distinct, BCC_INVALID_PROC allowed any number of times, the empty set
included) succeeds if and only if every member is a valid handle whose
process exits with code 0; a member that is invalid or does not exit with
code 0 makes the result false whatever the other members do; and the result
is the same for every reordering of the members. -/
theorem bcc_procs_wait_success_iff (w : World) (procs : List Int) :
    ((procs.filter (fun p => decide (p ≠ BCC_INVALID_PROC))).Nodup →
      ((bcc_procs_wait w procs).1 = true ↔
        ∀ p ∈ procs, p ≠ BCC_INVALID_PROC ∧ ExitsWith w p 0)) ∧
    (∀ p ∈ procs, (p = BCC_INVALID_PROC ∨ ¬ ExitsWith w p 0) →
      (bcc_procs_wait w procs).1 = false) ∧
    (∀ procs2 : List Int, procs2.Perm procs →
      (bcc_procs_wait w procs2).1 = (bcc_procs_wait w procs).1) := by
  refine ⟨fun hnd => ?_, fun p hp hfail => ?_, fun procs2 hperm => ?_⟩
  · unfold bcc_procs_wait
    rw [bcc_procs_wait_from_iff procs true w hnd]
    simp only [true_and, exitsWith_zero_iff]
  · unfold bcc_procs_wait
    apply bcc_procs_wait_from_failing procs true w p hp
    rcases hfail with h | h
    · exact Or.inl h
    · right
      rw [exitsWith_zero_iff] at h
      simpa using h
  · exact (bcc_procs_wait_from_perm hperm true w w rfl).1

/-- An instance of `bcc_procs_wait_success_iff`: two children that exit with
code 0 give success, and adding the child that exits with code 3 or an
invalid handle gives failure. -/
theorem bcc_procs_wait_success_iff_witness :
    (bcc_procs_wait world_three_children [7, 8]).1 = true ∧
    (bcc_procs_wait world_three_children [7, 9, 8]).1 = false ∧
    (bcc_procs_wait world_three_children [7, BCC_INVALID_PROC, 8]).1 = false :=
  ⟨((bcc_procs_wait_success_iff world_three_children [7, 8]).1 (by decide)).2
      (fun p hp => by
        rcases List.mem_cons.mp hp with rfl | hp
        · exact ⟨by decide, 1, [], rfl⟩
        · rw [List.mem_singleton] at hp
          subst hp
          exact ⟨by decide, 0, [], rfl⟩),
    (bcc_procs_wait_success_iff world_three_children [7, 9, 8]).2.1 9 (by decide)
      (Or.inr (by rw [exitsWith_zero_iff]; decide)),
    (bcc_procs_wait_success_iff world_three_children [7, BCC_INVALID_PROC, 8]).2.1
      BCC_INVALID_PROC (by decide) (Or.inl rfl)⟩

/-- C6: `bcc_procs_wait` does not short-circuit: the entries into
`bcc_proc_wait` that it adds to the log are, in order and with
multiplicity, exactly the members of the set, whatever the individual waits
return. -/
theorem bcc_procs_wait_waits_on_every_member (w : World) (procs : List Int) :
    ∃ added, (bcc_procs_wait w procs).2.log = w.log ++ added ∧
      proc_wait_calls added = procs :=
  bcc_procs_wait_from_log procs true w

/-- C7: for a valid handle `bcc_proc_wait` succeeds if and only if the
process terminates normally with exit code 0; a nonzero exit code and a
termination by signal give failure; for BCC_INVALID_PROC the result is
failure and the world is left as it is but for the record of the entry, so
no `waitpid` call is made. -/
theorem bcc_proc_wait_success_iff (w : World) (proc : Int) :
    (proc ≠ BCC_INVALID_PROC →
      ((bcc_proc_wait w proc).1 = true ↔ ExitsWith w proc 0)) ∧
    (proc ≠ BCC_INVALID_PROC → ∀ k, k ≠ 0 → ExitsWith w proc k →
      (bcc_proc_wait w proc).1 = false) ∧
    (proc ≠ BCC_INVALID_PROC → ∀ sig, KilledBy w proc sig →
      (bcc_proc_wait w proc).1 = false) ∧
    bcc_proc_wait w BCC_INVALID_PROC =
      (false, { w with log := w.log ++ [Event.proc_wait BCC_INVALID_PROC] }) ∧
    waitpid_calls (bcc_proc_wait w BCC_INVALID_PROC).2.log = waitpid_calls w.log := by
  refine ⟨fun h => ?_, fun h k hk hex => ?_, fun h sig hsig => ?_, bcc_proc_wait_invalid w, ?_⟩
  rotate_right
  · simp [bcc_proc_wait_invalid, waitpid_calls, List.filterMap_append]
  · rw [bcc_proc_wait_fst, exitsWith_zero_iff]
    simp [h]
  · obtain ⟨n, rest, hc⟩ := hex
    rw [bcc_proc_wait_fst, hc, wait_result_exited]
    simp [hk]
  · obtain ⟨n, rest, hc⟩ := hsig
    rw [bcc_proc_wait_fst, hc, wait_result_signaled]
    simp

/-- An instance of `bcc_proc_wait_success_iff`: child 7 exits with code 0
after one other report, child 9 exits with code 3. -/
theorem bcc_proc_wait_success_iff_witness :
    (bcc_proc_wait world_three_children 7).1 = true ∧
    (bcc_proc_wait world_three_children 9).1 = false :=
  ⟨((bcc_proc_wait_success_iff world_three_children 7).1 (by decide)).2 ⟨1, [], rfl⟩,
    (bcc_proc_wait_success_iff world_three_children 9).2.1 (by decide) 3 (by decide)
      ⟨0, [], rfl⟩⟩

/-! ## Self-rebuild bootstrap -/

theorem bcc_rename_true {w w2 : World} {a b : String} (h : bcc_rename w a b = (true, w2)) :
    ∃ f, w.files a = .ok f ∧
      w2 = { w with
               log := w.log ++ [Event.rename a b]
               files := Function.update (Function.update w.files a (.error ENOENT)) b (.ok f) } := by
  unfold bcc_rename rename at h
  cases hr : w.rename_errno a b with
  | some e => simp [hr] at h
  | none =>
    cases hf : w.files a with
    | error e => simp [hr, hf] at h
    | ok f =>
      simp only [hr, hf] at h
      simp only [Int.lt_irrefl, if_false, Prod.mk.injEq, true_and] at h
      exact ⟨f, rfl, h.symm⟩

theorem bcc_rename_log (w : World) (a b : String) :
    (bcc_rename w a b).2.log = w.log ++ [Event.rename a b] ∧
    (bcc_rename w a b).2.forks = w.forks := by
  unfold bcc_rename rename
  cases hr : w.rename_errno a b with
  | some e => simp
  | none =>
    cases hf : w.files a with
    | error e => simp
    | ok f => simp

/-- The rebuild decision for a single input, case by case. -/
theorem bcc_needs_rebuild_single (w : World) (output_path input_path : String) :
    bcc_needs_rebuild w output_path [input_path] =
      match w.files output_path with
      | .error errno =>
        (if errno = ENOENT then 1 else -1,
         { w with log := w.log ++ [Event.stat output_path] })
      | .ok f =>
        match w.files input_path with
        | .error _ =>
          (-1, { w with log := w.log ++ [Event.stat output_path, Event.stat input_path] })
        | .ok g =>
          (if toInt32 g.st_mtime > toInt32 f.st_mtime then 1 else 0,
           { w with log := w.log ++ [Event.stat output_path, Event.stat input_path] }) := by
  cases ho : w.files output_path with
  | error errno =>
    by_cases he : errno = ENOENT <;> simp [bcc_needs_rebuild, stat, ho, he]
  | ok f =>
    cases hi : w.files input_path with
    | error e => simp [bcc_needs_rebuild, bcc_needs_rebuild_inputs, stat, ho, hi]
    | ok g =>
      by_cases hn : toInt32 g.st_mtime > toInt32 f.st_mtime <;>
        simp [bcc_needs_rebuild, bcc_needs_rebuild_inputs, stat, ho, hi, hn]

/-- When the single-input decision is not ERROR and the output exists, both
paths were examined and nothing else happened. -/
theorem bcc_needs_rebuild_single_of_exists {w w1 : World} {output_path input_path : String}
    {v : Int} {f : File}
    (h : bcc_needs_rebuild w output_path [input_path] = (v, w1)) (hv : v ≠ -1)
    (hf : w.files output_path = .ok f) :
    w1 = { w with log := w.log ++ [Event.stat output_path, Event.stat input_path] } := by
  rw [bcc_needs_rebuild_single, hf] at h
  cases hi : w.files input_path with
  | error e =>
    simp only [hi, Prod.mk.injEq] at h
    exact absurd h.1.symm hv
  | ok g =>
    simp only [hi, Prod.mk.injEq] at h
    exact h.2.symm

theorem bcc_needs_rebuild_single_files (w : World) (output_path input_path : String) :
    (bcc_needs_rebuild w output_path [input_path]).2.files = w.files := by
  rw [bcc_needs_rebuild_single]
  cases w.files output_path with
  | error e => rfl
  | ok f =>
    cases w.files input_path with
    | error e => rfl
    | ok g => rfl

/-- A synchronous run that succeeds consists of one fork, one entry into
`bcc_proc_wait` and the `waitpid` calls on the child. -/
theorem bcc_cmd_run_sync_true {w w2 : World} {cmd : List String}
    (h : bcc_cmd_run_sync w cmd = (true, w2)) :
    ∃ p n, w2.log = w.log ++ [Event.spawn cmd, Event.proc_wait p] ++
      List.replicate n (Event.waitpid p) := by
  unfold bcc_cmd_run_sync bcc_cmd_run_async fork_exec at h
  by_cases hlen : cmd.length < 1
  · simp [hlen] at h
  · simp only [hlen, if_false] at h
    cases hl : w.launch w.forks cmd with
    | none => simp [hl, BCC_INVALID_PROC] at h
    | some l =>
      simp only [hl] at h
      have hnn : ¬ ((l.pid : Int) + 1 < 0) := by omega
      have hne : ((l.pid : Int) + 1) ≠ BCC_INVALID_PROC := by
        unfold BCC_INVALID_PROC
        omega
      simp only [hnn, hne, if_false] at h
      rw [bcc_proc_wait_valid _ _ hne] at h
      simp only [Prod.mk.injEq] at h
      refine ⟨(l.pid : Int) + 1,
        wait_calls (Function.update w.children ((l.pid : Int) + 1) l.reports ((l.pid : Int) + 1)),
        ?_⟩
      rw [← h.2]
      simp

/-- C8, as stated, fails: the binary is STALE, the rename and the
recompilation succeed, the re-invoked binary exits with code 3, and the
bootstrap exits with status 1, not 3. -/
theorem go_rebuild_exit_code_3_gives_exit_1 :
    bcc_needs_rebuild world_reinvoked_exits_3 "./bc" ["bc.c"]
      = (1, world_reinvoked_exits_3_checked) ∧
    bcc_rename world_reinvoked_exits_3_checked "./bc" ("./bc" ++ ".old")
      = (true, world_reinvoked_exits_3_renamed) ∧
    bcc_cmd_run_sync world_reinvoked_exits_3_renamed (BCC_REBUILD_URSELF .posix "./bc" "bc.c")
      = (true, world_reinvoked_exits_3_compiled) ∧
    (bcc_cmd_run_async world_reinvoked_exits_3_compiled ["./bc", "build"]).1 = 12 ∧
    (bcc_cmd_run_async world_reinvoked_exits_3_compiled ["./bc", "build"]).2.children 12
      = [WaitReport.exited 3] ∧
    (BCC_GO_REBUILD_URSELF .posix "bc.c" ["./bc", "build"] world_reinvoked_exits_3).1
      = Outcome.exit 1 :=
  ⟨rfl, rfl, rfl, by decide, by decide, by decide⟩

/-- C8, amended: when the binary is STALE and the rename and the
recompilation succeed, then for every exit code `k` of the re-invoked
process the bootstrap exits with status 0 if `k = 0` and with status 1
otherwise. -/
theorem go_rebuild_exit_status (tc : Toolchain) (source_path binary_path : String)
    (args : List String) (w w1 w2 w3 w4 : World) (p : Int) (k : Nat)
    (hstale : bcc_needs_rebuild w binary_path [source_path] = (1, w1))
    (hrename : bcc_rename w1 binary_path (binary_path ++ ".old") = (true, w2))
    (hcompile : bcc_cmd_run_sync w2 (BCC_REBUILD_URSELF tc binary_path source_path)
      = (true, w3))
    (hspawn : bcc_cmd_run_async w3 (binary_path :: args) = (p, w4))
    (hp : p ≠ BCC_INVALID_PROC) (hexit : ExitsWith w4 p k) :
    (BCC_GO_REBUILD_URSELF tc source_path (binary_path :: args) w).1
      = Outcome.exit (if k = 0 then 0 else 1) := by
  have hrun : (bcc_cmd_run_sync w3 (binary_path :: args)).1 = decide (k = 0) := by
    unfold bcc_cmd_run_sync
    simp only [hspawn, hp, if_false]
    obtain ⟨n, rest, hc⟩ := hexit
    rw [bcc_proc_wait_fst, hc, wait_result_exited]
    simp [hp]
  unfold BCC_GO_REBUILD_URSELF
  simp only [hstale, hrename, hcompile]
  cases hr : bcc_cmd_run_sync w3 (binary_path :: args) with
  | mk r w5 =>
    rw [hr] at hrun
    simp only at hrun
    subst hrun
    by_cases hk : k = 0 <;> simp [hk]

/-- An instance of `go_rebuild_exit_status` with exit code 3. -/
theorem go_rebuild_exit_status_witness :
    (BCC_GO_REBUILD_URSELF .posix "bc.c" ("./bc" :: ["build"]) world_reinvoked_exits_3).1
      = Outcome.exit (if 3 = 0 then 0 else 1) :=
  go_rebuild_exit_status .posix "bc.c" "./bc" ["build"] world_reinvoked_exits_3
    world_reinvoked_exits_3_checked world_reinvoked_exits_3_renamed
    world_reinvoked_exits_3_compiled
    (bcc_cmd_run_async world_reinvoked_exits_3_compiled ["./bc", "build"]).2 12 3
    rfl rfl rfl rfl (by decide) ⟨0, [], by decide⟩

/-- C9: when the binary is STALE, the rename to the ".old" path succeeds and
the compiler run fails, the bootstrap does one more thing, the rename of the
".old" path back to the original path, and exits with status 1: nothing is
forked after the compiler run and control does not fall through.  If that
rename succeeds and the compiler run left the ".old" path alone, the
original path holds the file it held at the start. -/
theorem go_rebuild_compile_failure (tc : Toolchain) (source_path binary_path : String)
    (args : List String) (w w1 w2 w3 : World)
    (hstale : bcc_needs_rebuild w binary_path [source_path] = (1, w1))
    (hrename : bcc_rename w1 binary_path (binary_path ++ ".old") = (true, w2))
    (hcompile : bcc_cmd_run_sync w2 (BCC_REBUILD_URSELF tc binary_path source_path)
      = (false, w3)) :
    BCC_GO_REBUILD_URSELF tc source_path (binary_path :: args) w
      = (Outcome.exit 1, (bcc_rename w3 (binary_path ++ ".old") binary_path).2) ∧
    (BCC_GO_REBUILD_URSELF tc source_path (binary_path :: args) w).2.log
      = w3.log ++ [Event.rename (binary_path ++ ".old") binary_path] ∧
    (BCC_GO_REBUILD_URSELF tc source_path (binary_path :: args) w).2.forks = w3.forks ∧
    ((bcc_rename w3 (binary_path ++ ".old") binary_path).1 = true →
      w3.files (binary_path ++ ".old") = w2.files (binary_path ++ ".old") →
      (∃ f, w.files binary_path = .ok f) ∧
      (BCC_GO_REBUILD_URSELF tc source_path (binary_path :: args) w).2.files binary_path
        = w.files binary_path) := by
  have hgo : BCC_GO_REBUILD_URSELF tc source_path (binary_path :: args) w
      = (Outcome.exit 1, (bcc_rename w3 (binary_path ++ ".old") binary_path).2) := by
    unfold BCC_GO_REBUILD_URSELF
    simp only [hstale, hrename, hcompile]
    rfl
  refine ⟨hgo, ?_, ?_, ?_⟩
  · rw [hgo]
    exact (bcc_rename_log w3 _ _).1
  · rw [hgo]
    exact (bcc_rename_log w3 _ _).2
  · intro hback hkept
    rw [hgo]
    obtain ⟨f, hf, hw2⟩ := bcc_rename_true hrename
    have hw1 : w1.files = w.files := by
      have := bcc_needs_rebuild_single_files w binary_path source_path
      rw [hstale] at this
      exact this
    rw [hw1] at hf
    refine ⟨⟨f, hf⟩, ?_⟩
    have hold : w2.files (binary_path ++ ".old") = .ok f := by
      rw [hw2]
      simp
    cases hb : bcc_rename w3 (binary_path ++ ".old") binary_path with
    | mk r w4 =>
      rw [hb] at hback
      simp only at hback
      subst hback
      obtain ⟨g, hg, hw4⟩ := bcc_rename_true hb
      rw [hkept, hold] at hg
      cases hg
      rw [hw4, hf]
      simp

/-- An instance of `go_rebuild_compile_failure`: the compiler exits with
code 1, and afterwards "./bc" holds the old binary again. -/
theorem go_rebuild_compile_failure_witness :
    (BCC_GO_REBUILD_URSELF .posix "bc.c" ("./bc" :: ["build"]) world_compiler_fails).1
      = Outcome.exit 1 ∧
    (BCC_GO_REBUILD_URSELF .posix "bc.c" ("./bc" :: ["build"]) world_compiler_fails).2.files
      "./bc" = world_compiler_fails.files "./bc" :=
  ⟨congrArg Prod.fst
      (go_rebuild_compile_failure .posix "bc.c" "./bc" ["build"] world_compiler_fails
        world_compiler_fails_checked world_compiler_fails_renamed
        world_compiler_fails_compiled rfl rfl rfl).1,
    ((go_rebuild_compile_failure .posix "bc.c" "./bc" ["build"] world_compiler_fails
        world_compiler_fails_checked world_compiler_fails_renamed
        world_compiler_fails_compiled rfl rfl rfl).2.2.2 (by decide) (by decide)).2⟩

/-- C10, as stated, fails for the MSVC expansion of `BCC_REBUILD_URSELF`:
the verdict is STALE, every step succeeds, and the command run after the
rename is `cl.exe /Fe:bc.exe bc.c`, which is not of the form
`<compiler> -o <binary_path> <source_path>`. -/
theorem go_rebuild_msvc_command_shape :
    (BCC_REBUILD_URSELF .windows_msvc "bc.exe" "bc.c").length = 3 ∧
    (BCC_GO_REBUILD_URSELF .windows_msvc "bc.c" ["bc.exe"] world_rebuild_succeeds).1
      = Outcome.exit 0 ∧
    (BCC_GO_REBUILD_URSELF .windows_msvc "bc.c" ["bc.exe"] world_rebuild_succeeds).2.log
      = [Event.stat "bc.exe", Event.stat "bc.c", Event.rename "bc.exe" "bc.exe.old",
         Event.spawn ["cl.exe", "/Fe:bc.exe", "bc.c"], Event.proc_wait 11, Event.waitpid 11,
         Event.spawn ["bc.exe"], Event.proc_wait 12, Event.waitpid 12] := by
  decide

/-- C10, amended: when the verdict is STALE and every step succeeds, the
bootstrap performs, after the two `stat` calls of the rebuild decision,
exactly: the rename of `binary_path` to `binary_path` followed by ".old";
a synchronous run (fork, then wait on the child) of the command
`BCC_REBUILD_URSELF(binary_path, source_path)`; a synchronous run of the
unchanged `argv`; and then exits with status 0.  When the verdict is FRESH
it performs nothing but the two `stat` calls and control falls through.
The rebuild command is `[compiler, "-o", binary_path, source_path]` for
every toolchain but MSVC. -/
theorem go_rebuild_actions (tc : Toolchain) (source_path binary_path : String)
    (args : List String) (w : World) :
    (∀ w1 w2 w3 w4 : World,
      bcc_needs_rebuild w binary_path [source_path] = (1, w1) →
      bcc_rename w1 binary_path (binary_path ++ ".old") = (true, w2) →
      bcc_cmd_run_sync w2 (BCC_REBUILD_URSELF tc binary_path source_path) = (true, w3) →
      bcc_cmd_run_sync w3 (binary_path :: args) = (true, w4) →
      BCC_GO_REBUILD_URSELF tc source_path (binary_path :: args) w = (Outcome.exit 0, w4) ∧
      ∃ p1 n1 p2 n2,
        w4.log = w.log ++
          [Event.stat binary_path, Event.stat source_path,
           Event.rename binary_path (binary_path ++ ".old"),
           Event.spawn (BCC_REBUILD_URSELF tc binary_path source_path), Event.proc_wait p1] ++
          List.replicate n1 (Event.waitpid p1) ++
          [Event.spawn (binary_path :: args), Event.proc_wait p2] ++
          List.replicate n2 (Event.waitpid p2)) ∧
    (∀ w1 : World,
      bcc_needs_rebuild w binary_path [source_path] = (0, w1) →
      BCC_GO_REBUILD_URSELF tc source_path (binary_path :: args) w
        = (Outcome.fallthrough, w1) ∧
      w1 = { w with log := w.log ++ [Event.stat binary_path, Event.stat source_path] }) ∧
    (tc ≠ Toolchain.windows_msvc →
      ∃ compiler,
        BCC_REBUILD_URSELF tc binary_path source_path
          = [compiler, "-o", binary_path, source_path]) := by
  refine ⟨?_, ?_, ?_⟩
  · intro w1 w2 w3 w4 hstale hrename hcompile hrun
    constructor
    · unfold BCC_GO_REBUILD_URSELF
      simp only [hstale, hrename, hcompile, hrun]
      rfl
    · obtain ⟨f, hf, _⟩ := bcc_rename_true hrename
      have hw1 : w1.files = w.files := by
        have := bcc_needs_rebuild_single_files w binary_path source_path
        rw [hstale] at this
        exact this
      rw [hw1] at hf
      have h1 := bcc_needs_rebuild_single_of_exists hstale (by decide) hf
      have h2 := (bcc_rename_log w1 binary_path (binary_path ++ ".old")).1
      rw [hrename] at h2
      obtain ⟨p1, n1, h3⟩ := bcc_cmd_run_sync_true hcompile
      obtain ⟨p2, n2, h4⟩ := bcc_cmd_run_sync_true hrun
      refine ⟨p1, n1, p2, n2, ?_⟩
      rw [h4, h3]
      simp only at h2
      rw [h2, h1]
      simp
  · intro w1 hfresh
    have hgo : BCC_GO_REBUILD_URSELF tc source_path (binary_path :: args) w
        = (Outcome.fallthrough, w1) := by
      unfold BCC_GO_REBUILD_URSELF
      simp only [hfresh]
      rfl
    refine ⟨hgo, ?_⟩
    rw [bcc_needs_rebuild_single] at hfresh
    cases ho : w.files binary_path with
    | error e =>
      rw [ho] at hfresh
      simp only [Prod.mk.injEq] at hfresh
      by_cases he : e = ENOENT
      · simp [he] at hfresh
      · simp [he] at hfresh
    | ok f =>
      rw [ho] at hfresh
      cases hi : w.files source_path with
      | error e =>
        rw [hi] at hfresh
        simp at hfresh
      | ok g =>
        rw [hi] at hfresh
        simp only [Prod.mk.injEq] at hfresh
        exact hfresh.2.symm
  · intro htc
    cases tc with
    | posix => exact ⟨"cc", rfl⟩
    | windows_gnuc => exact ⟨"gcc", rfl⟩
    | windows_clang => exact ⟨"clang", rfl⟩
    | windows_msvc => exact absurd rfl htc

/-- An instance of `go_rebuild_actions`: a fresh binary falls through after
two `stat` calls; a stale one is renamed, rebuilt with `cc`, re-invoked, and
the bootstrap exits with status 0. -/
theorem go_rebuild_actions_witness :
    (BCC_GO_REBUILD_URSELF .posix "bc.c" ("./bc" :: ["build"]) world_binary_fresh).1
      = Outcome.fallthrough ∧
    (BCC_GO_REBUILD_URSELF .posix "bc.c" ("bc.exe" :: []) world_rebuild_succeeds).1
      = Outcome.exit 0 ∧
    (∃ compiler, BCC_REBUILD_URSELF .posix "./bc" "bc.c" = [compiler, "-o", "./bc", "bc.c"]) :=
  ⟨congrArg Prod.fst
      ((go_rebuild_actions .posix "bc.c" "./bc" ["build"] world_binary_fresh).2.1
        (bcc_needs_rebuild world_binary_fresh "./bc" ["bc.c"]).2 rfl).1,
    congrArg Prod.fst
      ((go_rebuild_actions .posix "bc.c" "bc.exe" [] world_rebuild_succeeds).1
        (bcc_needs_rebuild world_rebuild_succeeds "bc.exe" ["bc.c"]).2
        (bcc_rename (bcc_needs_rebuild world_rebuild_succeeds "bc.exe" ["bc.c"]).2
          "bc.exe" "bc.exe.old").2
        (bcc_cmd_run_sync
          (bcc_rename (bcc_needs_rebuild world_rebuild_succeeds "bc.exe" ["bc.c"]).2
            "bc.exe" "bc.exe.old").2 ["cc", "-o", "bc.exe", "bc.c"]).2
        (bcc_cmd_run_sync
          (bcc_cmd_run_sync
            (bcc_rename (bcc_needs_rebuild world_rebuild_succeeds "bc.exe" ["bc.c"]).2
              "bc.exe" "bc.exe.old").2 ["cc", "-o", "bc.exe", "bc.c"]).2 ["bc.exe"]).2
        rfl rfl rfl rfl).1,
    (go_rebuild_actions .posix "bc.c" "./bc" [] world_binary_fresh).2.2 (by decide)⟩
theorem bcc_rename_false {w w2 : World} {a b : String} (h : bcc_rename w a b = (false, w2)) :
    w2 = { w with log := w.log ++ [Event.rename a b] } := by
  unfold bcc_rename rename at h
  cases hr : w.rename_errno a b with
  | some e =>
    simp [hr] at h
    exact h.symm
  | none =>
    cases hf : w.files a with
    | error e =>
      simp [hr, hf] at h
      exact h.symm
    | ok f => simp [hr, hf] at h

/-- The rebuild decision for a single input only adds `stat` calls to the log. -/
theorem bcc_needs_rebuild_single_only_stats (w : World) (output_path input_path : String) :
    ∃ stats : List Event,
      (∀ e ∈ stats, ∃ p, e = Event.stat p) ∧
      (bcc_needs_rebuild w output_path [input_path]).2 = { w with log := w.log ++ stats } := by
  rw [bcc_needs_rebuild_single]
  cases w.files output_path with
  | error e =>
    refine ⟨[Event.stat output_path], ?_, rfl⟩
    intro e he
    rw [List.mem_singleton] at he
    exact ⟨output_path, he⟩
  | ok f =>
    have hst : ∀ e ∈ [Event.stat output_path, Event.stat input_path], ∃ p, e = Event.stat p := by
      intro e he
      rcases List.mem_cons.mp he with h | h
      · exact ⟨output_path, h⟩
      · rw [List.mem_singleton] at h
        exact ⟨input_path, h⟩
    cases w.files input_path with
    | error e => exact ⟨_, hst, rfl⟩
    | ok g => exact ⟨_, hst, rfl⟩

/-- C11: when the verdict is STALE and the rename of the executable to the
".old" path fails, the bootstrap exits with status 1 and all it has done is
the `stat` calls of the rebuild decision and that one rename attempt: the
files are as before, nothing was forked, no second rename was attempted.
When the verdict is ERROR it exits with status 1 having done nothing but
the `stat` calls. -/
theorem go_rebuild_early_exit (tc : Toolchain) (source_path binary_path : String)
    (args : List String) (w : World) :
    (∀ w1 w2 : World,
      bcc_needs_rebuild w binary_path [source_path] = (1, w1) →
      bcc_rename w1 binary_path (binary_path ++ ".old") = (false, w2) →
      (BCC_GO_REBUILD_URSELF tc source_path (binary_path :: args) w).1 = Outcome.exit 1 ∧
      ∃ stats : List Event,
        (∀ e ∈ stats, ∃ p, e = Event.stat p) ∧
        (BCC_GO_REBUILD_URSELF tc source_path (binary_path :: args) w).2
          = { w with
                log := w.log ++ stats ++
                  [Event.rename binary_path (binary_path ++ ".old")] }) ∧
    (∀ w1 : World,
      bcc_needs_rebuild w binary_path [source_path] = (-1, w1) →
      (BCC_GO_REBUILD_URSELF tc source_path (binary_path :: args) w).1 = Outcome.exit 1 ∧
      ∃ stats : List Event,
        (∀ e ∈ stats, ∃ p, e = Event.stat p) ∧
        (BCC_GO_REBUILD_URSELF tc source_path (binary_path :: args) w).2
          = { w with log := w.log ++ stats }) := by
  obtain ⟨stats, hstats, hw⟩ := bcc_needs_rebuild_single_only_stats w binary_path source_path
  constructor
  · intro w1 w2 hstale hrename
    have hgo : BCC_GO_REBUILD_URSELF tc source_path (binary_path :: args) w
        = (Outcome.exit 1, w2) := by
      unfold BCC_GO_REBUILD_URSELF
      simp only [hstale, hrename]
      rfl
    rw [hgo]
    refine ⟨rfl, stats, hstats, ?_⟩
    rw [hstale] at hw
    simp only at hw
    rw [bcc_rename_false hrename, hw]
  · intro w1 herror
    have hgo : BCC_GO_REBUILD_URSELF tc source_path (binary_path :: args) w
        = (Outcome.exit 1, w1) := by
      unfold BCC_GO_REBUILD_URSELF
      simp only [herror]
      rfl
    rw [hgo]
    refine ⟨rfl, stats, hstats, ?_⟩
    rw [herror] at hw
    exact hw

/-- An instance of `go_rebuild_early_exit`: a refused rename, and a missing
source file. -/
theorem go_rebuild_early_exit_witness :
    (BCC_GO_REBUILD_URSELF .posix "bc.c" ("./bc" :: ["build"]) world_rename_refused).1
      = Outcome.exit 1 ∧
    (BCC_GO_REBUILD_URSELF .posix "bc.c" ("./bc" :: ["build"]) world_source_missing).1
      = Outcome.exit 1 :=
  ⟨((go_rebuild_early_exit .posix "bc.c" "./bc" ["build"] world_rename_refused).1
      (bcc_needs_rebuild world_rename_refused "./bc" ["bc.c"]).2
      (bcc_rename (bcc_needs_rebuild world_rename_refused "./bc" ["bc.c"]).2
        "./bc" "./bc.old").2 rfl rfl).1,
    ((go_rebuild_early_exit .posix "bc.c" "./bc" ["build"] world_source_missing).2
      (bcc_needs_rebuild world_source_missing "./bc" ["bc.c"]).2 rfl).1⟩

/-! ## Arena allocator -/

/-- C12: after `c = bcc_temp_save()` and any sequence of `bcc_temp_alloc`
calls, successful or not, `bcc_temp_rewind(c)` puts the cursor back at `c`,
and the next `bcc_temp_alloc(s)` returns what it would have returned before
those calls: the same region (or the same failure) and the same arena
afterwards. -/
theorem temp_rewind_round_trip (a : Arena) (sizes : List Nat) (s : Nat) :
    (bcc_temp_rewind (temp_alloc_each sizes a) (bcc_temp_save a)).bcc_temp_size
      = bcc_temp_save a ∧
    bcc_temp_alloc (bcc_temp_rewind (temp_alloc_each sizes a) (bcc_temp_save a)) s
      = bcc_temp_alloc a s := by
  have h : bcc_temp_rewind (temp_alloc_each sizes a) (bcc_temp_save a) = a := rfl
  rw [h]
  exact ⟨rfl, rfl⟩

/-- C13, the code at the failing input: with the cursor at 1, a request of
2^64 - 1 bytes, far more than the 8388607 bytes left, is granted: the call
returns the region at offset 1 and moves the cursor back to 0. -/
theorem temp_alloc_wraps_around :
    bcc_temp_alloc { bcc_temp_size := 1 } 18446744073709551615
      = (some 1, { bcc_temp_size := 0 }) := by
  decide

/-- When the sum of the cursor and the requested size does not wrap around,
`bcc_temp_alloc` fails exactly when the size exceeds what is left, and
otherwise returns the region at the old cursor and advances the cursor by
the size. -/
theorem temp_alloc_without_wrap (a : Arena) (size : Nat)
    (hcur : a.bcc_temp_size ≤ BCC_TEMP_CAPACITY)
    (hsum : a.bcc_temp_size + size < SIZE_MODULUS) :
    (size > BCC_TEMP_CAPACITY - a.bcc_temp_size → bcc_temp_alloc a size = (none, a)) ∧
    (size ≤ BCC_TEMP_CAPACITY - a.bcc_temp_size →
      bcc_temp_alloc a size
        = (some a.bcc_temp_size, { bcc_temp_size := a.bcc_temp_size + size })) := by
  unfold bcc_temp_alloc
  rw [Nat.mod_eq_of_lt hsum]
  constructor
  · intro h
    have : a.bcc_temp_size + size > BCC_TEMP_CAPACITY := by omega
    simp [this]
  · intro h
    have : ¬ (a.bcc_temp_size + size > BCC_TEMP_CAPACITY) := by omega
    simp [this]

/-! ## Dynamic arrays and string builders -/

theorem da_grow_loop_spec (needed : Nat) (fuel c : Nat) (hc : 0 < c)
    (hfit : ∃ k, k < fuel ∧ needed ≤ c * 2 ^ k ∧ c * 2 ^ k < SIZE_MODULUS) :
    ∃ k, da_grow_loop needed fuel c = some (c * 2 ^ k) ∧ needed ≤ c * 2 ^ k ∧
      c * 2 ^ k < SIZE_MODULUS ∧ ∀ j, needed ≤ c * 2 ^ j → k ≤ j := by
  induction fuel generalizing c with
  | zero =>
    obtain ⟨k, hk, _⟩ := hfit
    omega
  | succ fuel ih =>
    obtain ⟨k, hk, hle, hlt⟩ := hfit
    by_cases hgt : needed > c
    · have hk1 : 1 ≤ k := by
        rcases Nat.eq_zero_or_pos k with h0 | hpos
        · subst h0
          simp at hle
          omega
        · exact hpos
      obtain ⟨k2, rfl⟩ : ∃ k2, k = k2 + 1 := ⟨k - 1, by omega⟩
      have hpow : c * 2 ^ (k2 + 1) = c * 2 * 2 ^ k2 := by ring
      have h2c : c * 2 < SIZE_MODULUS := by
        have : c * 2 * 1 ≤ c * 2 * 2 ^ k2 := Nat.mul_le_mul_left _ (Nat.one_le_two_pow)
        omega
      obtain ⟨k3, h3, h3le, h3lt, h3min⟩ :=
        ih (c * 2) (by omega) ⟨k2, by omega, by rw [← hpow]; exact hle, by rw [← hpow]; exact hlt⟩
      refine ⟨k3 + 1, ?_, ?_, ?_, ?_⟩
      · simp only [da_grow_loop, hgt, if_true, Nat.mod_eq_of_lt h2c]
        rw [h3]
        congr 1
        ring
      · have : c * 2 ^ (k3 + 1) = c * 2 * 2 ^ k3 := by ring
        rw [this]
        exact h3le
      · have : c * 2 ^ (k3 + 1) = c * 2 * 2 ^ k3 := by ring
        rw [this]
        exact h3lt
      · intro j hj
        rcases Nat.eq_zero_or_pos j with h0 | hpos
        · subst h0
          simp at hj
          omega
        · obtain ⟨j2, rfl⟩ : ∃ j2, j = j2 + 1 := ⟨j - 1, by omega⟩
          have : c * 2 ^ (j2 + 1) = c * 2 * 2 ^ j2 := by ring
          rw [this] at hj
          have := h3min j2 hj
          omega
    · refine ⟨0, ?_, ?_, ?_, ?_⟩
      · simp [da_grow_loop, hgt]
      · simp
        omega
      · simp only [pow_zero, Nat.mul_one]
        have : c * 1 ≤ c * 2 ^ k := Nat.mul_le_mul_left _ (Nat.one_le_two_pow)
        omega
      · intro j _
        omega

theorem da_grow_loop_none_iff (needed : Nat) (fuel c : Nat) (hc : c < SIZE_MODULUS) :
    da_grow_loop needed fuel c = none ↔ ∀ j < fuel, needed > (c * 2 ^ j) % SIZE_MODULUS := by
  induction fuel generalizing c with
  | zero => simp [da_grow_loop]
  | succ fuel ih =>
    have hstep : ∀ j, (c * 2 % SIZE_MODULUS * 2 ^ j) % SIZE_MODULUS
        = (c * 2 ^ (j + 1)) % SIZE_MODULUS := by
      intro j
      rw [Nat.mod_mul_mod]
      congr 1
      ring
    have hpos : 0 < SIZE_MODULUS := by decide
    by_cases hgt : needed > c
    · simp only [da_grow_loop, hgt, if_true]
      rw [ih _ (Nat.mod_lt _ hpos)]
      constructor
      · intro h j hj
        rcases Nat.eq_zero_or_pos j with h0 | hjpos
        · subst h0
          simp only [pow_zero, Nat.mul_one, Nat.mod_eq_of_lt hc]
          exact hgt
        · obtain ⟨j2, rfl⟩ : ∃ j2, j = j2 + 1 := ⟨j - 1, by omega⟩
          rw [← hstep]
          exact h j2 (by omega)
      · intro h j hj
        rw [hstep]
        exact h (j + 1) (by omega)
    · simp only [da_grow_loop, hgt, if_false]
      constructor
      · intro h
        cases h
      · intro h
        have := h 0 (by omega)
        simp only [pow_zero, Nat.mul_one, Nat.mod_eq_of_lt hc] at this
        exact absurd this hgt

/-- The growth loop of `bcc_da_append_many` terminates within 65 tests of
its condition or not at all: after 64 doublings the capacity is 0 and stays 0. -/
theorem da_grow_loop_more_fuel (needed c : Nat) (hc : c < SIZE_MODULUS)
    (h : da_grow_loop needed 65 c = none) (fuel : Nat) :
    da_grow_loop needed fuel c = none := by
  rw [da_grow_loop_none_iff needed 65 c hc] at h
  rw [da_grow_loop_none_iff needed fuel c hc]
  intro j _
  by_cases hj : j < 65
  · exact h j hj
  · have hzero : (c * 2 ^ j) % SIZE_MODULUS = 0 := by
      obtain ⟨d, rfl⟩ : ∃ d, j = 64 + d := ⟨j - 64, by omega⟩
      have : c * 2 ^ (64 + d) = SIZE_MODULUS * (c * 2 ^ d) := by
        unfold SIZE_MODULUS
        ring
      rw [this]
      exact Nat.mul_mod_right _ _
    have h64 := h 64 (by omega)
    have hz64 : (c * 2 ^ 64) % SIZE_MODULUS = 0 := by
      have : c * 2 ^ 64 = SIZE_MODULUS * c := by
        unfold SIZE_MODULUS
        ring
      rw [this]
      exact Nat.mul_mod_right _ _
    rw [hzero]
    rw [hz64] at h64
    exact h64

theorem realloc_cells_length {α : Type} (items : List (Option α)) (capacity : Nat) :
    (realloc_cells items capacity).length = capacity := by
  simp [realloc_cells]
  omega

theorem realloc_cells_take {α : Type} (items : List (Option α)) (capacity n : Nat)
    (hn : n ≤ items.length) (hcap : n ≤ capacity) :
    (realloc_cells items capacity).take n = items.take n := by
  unfold realloc_cells
  rw [List.take_take, Nat.min_eq_left hcap, List.take_append_of_le_length hn]

theorem memcpy_cells_spec {α : Type} (items : List (Option α)) (offset : Nat)
    (new_items : List α) (h : offset + new_items.length ≤ items.length) :
    ∃ cells, memcpy_cells items offset new_items = .ok cells ∧
      cells.length = items.length ∧
      cells.take (offset + new_items.length) = items.take offset ++ new_items.map some := by
  unfold memcpy_cells
  by_cases hn : new_items.length = 0
  · refine ⟨items, by simp [hn], rfl, ?_⟩
    have : new_items = [] := List.length_eq_zero.mp hn
    subst this
    simp
  · refine ⟨items.take offset ++ new_items.map some ++ items.drop (offset + new_items.length),
      by simp only [hn, h, if_true, if_false], ?_, ?_⟩
    · simp only [List.length_append, List.length_take, List.length_map, List.length_drop]
      omega
    · have hlen : (items.take offset ++ new_items.map some).length
          = offset + new_items.length := by
        simp only [List.length_append, List.length_take, List.length_map]
        omega
      exact List.take_left' hlen

theorem set_take_succ {α : Type} (l : List α) (i : Nat) (x : α) (h : i < l.length) :
    (l.set i x).take (i + 1) = l.take i ++ [x] := by
  rw [List.set_eq_take_cons_drop x h]
  have hlen : (l.take i ++ [x]).length = i + 1 := by
    simp only [List.length_append, List.length_take, List.length_singleton]
    omega
  have : l.take i ++ x :: l.drop (i + 1) = (l.take i ++ [x]) ++ l.drop (i + 1) := by simp
  rw [this]
  exact List.take_left' hlen

theorem da_fits_bound {α : Type} (da : Da α) (n : Nat) (hfit : da.Fits n) :
    da.count + n < SIZE_MODULUS ∧
    ∃ k, k < 65 ∧ da.count + n ≤ da.base * 2 ^ k ∧ da.base * 2 ^ k < SIZE_MODULUS := by
  obtain ⟨k, hle, hlt⟩ := hfit
  refine ⟨by omega, k, ?_, hle, hlt⟩
  have hbase : 1 ≤ da.base := by
    unfold Da.base BCC_DA_INIT_CAP
    split <;> omega
  have h1 : 1 * 2 ^ k ≤ da.base * 2 ^ k := Nat.mul_le_mul_right _ hbase
  have h2 : 2 ^ k < 2 ^ 64 := by
    unfold SIZE_MODULUS at hlt
    omega
  have := (Nat.pow_lt_pow_iff_right (by norm_num : 1 < 2)).mp h2
  omega

/-- What `bcc_da_append_many` does to a well-formed array with
`count <= capacity` when no `size_t` overflows. -/
theorem bcc_da_append_many_spec {α : Type} (da : Da α) (new_items : List α)
    (hwf : da.WellFormed) (hcount : da.count ≤ da.capacity)
    (hfit : da.Fits new_items.length) :
    ∃ da2, bcc_da_append_many da new_items = .ok da2 ∧
      da2.WellFormed ∧ da2.count ≤ da2.capacity ∧
      da2.count = da.count + new_items.length ∧
      da2.contents = da.contents ++ new_items.map some ∧
      (da.count + new_items.length ≤ da.capacity → da2.capacity = da.capacity) ∧
      (da.capacity < da.count + new_items.length →
        LeastDoubling da.base (da.count + new_items.length) da2.capacity) := by
  obtain ⟨hlen, hcapM⟩ := hwf
  obtain ⟨hsum, k, hk, hle, hlt⟩ := da_fits_bound da new_items.length hfit
  have hneeded : (da.count + new_items.length) % SIZE_MODULUS = da.count + new_items.length :=
    Nat.mod_eq_of_lt hsum
  have hbase : 0 < da.base := by
    unfold Da.base BCC_DA_INIT_CAP
    split <;> omega
  by_cases hgrow : da.count + new_items.length > da.capacity
  · obtain ⟨k2, hloop, hk2le, hk2lt, hk2min⟩ :=
      da_grow_loop_spec (da.count + new_items.length) 65 da.base hbase ⟨k, hk, hle, hlt⟩
    have hcnt2 : da.count ≤ da.base * 2 ^ k2 := by omega
    obtain ⟨cells, hcells, hcl, hct⟩ :=
      memcpy_cells_spec (realloc_cells da.items (da.base * 2 ^ k2)) da.count new_items
        (by rw [realloc_cells_length]; exact hk2le)
    refine ⟨{ items := cells, count := da.count + new_items.length,
              capacity := da.base * 2 ^ k2 }, ?_, ?_, ?_, rfl, ?_, ?_, ?_⟩
    · unfold bcc_da_append_many
      simp only [hneeded, hgrow, if_true]
      simp only [Da.base] at hloop hcells ⊢
      simp only [hloop, hcells]
    · exact ⟨by rw [hcl, realloc_cells_length], hk2lt⟩
    · exact hk2le
    · unfold Da.contents
      simp only
      rw [hct, realloc_cells_take da.items _ da.count (by omega) hcnt2]
    · intro h
      omega
    · intro _
      exact ⟨k2, rfl, hk2le, hk2min⟩
  · have hfitcap : da.count + new_items.length ≤ da.items.length := by omega
    obtain ⟨cells, hcells, hcl, hct⟩ := memcpy_cells_spec da.items da.count new_items hfitcap
    refine ⟨{ items := cells, count := da.count + new_items.length,
              capacity := da.capacity }, ?_, ?_, ?_, rfl, ?_, ?_, ?_⟩
    · unfold bcc_da_append_many
      simp only [hneeded, hgrow, if_false, hcells]
    · exact ⟨by rw [hcl, hlen], hcapM⟩
    · simp only
      omega
    · unfold Da.contents
      simp only
      rw [hct]
    · intro _
      rfl
    · intro h
      omega

/-- What `bcc_da_append` does to a well-formed array with
`count <= capacity` when no `size_t` overflows. -/
theorem bcc_da_append_spec {α : Type} (da : Da α) (item : α)
    (hwf : da.WellFormed) (hcount : da.count ≤ da.capacity) (hfit : da.Fits 1) :
    ∃ da2, bcc_da_append da item = .ok da2 ∧
      da2.WellFormed ∧ da2.count ≤ da2.capacity ∧
      da2.count = da.count + 1 ∧
      da2.contents = da.contents ++ [some item] ∧
      (da.count + 1 ≤ da.capacity → da2.capacity = da.capacity) ∧
      (da.capacity < da.count + 1 → LeastDoubling da.base (da.count + 1) da2.capacity) := by
  obtain ⟨hlen, hcapM⟩ := hwf
  obtain ⟨hsum, _⟩ := da_fits_bound da 1 hfit
  obtain ⟨k, hle, hlt⟩ := hfit
  have hcount1 : (da.count + 1) % SIZE_MODULUS = da.count + 1 := Nat.mod_eq_of_lt hsum
  by_cases hgrow : da.count ≥ da.capacity
  · have heq : da.count = da.capacity := by omega
    by_cases hzero : da.capacity = 0
    · have hc0 : da.count = 0 := by omega
      refine ⟨{ items := (realloc_cells da.items BCC_DA_INIT_CAP).set da.count (some item),
                count := da.count + 1, capacity := BCC_DA_INIT_CAP }, ?_, ?_, ?_, rfl, ?_, ?_, ?_⟩
      · have : da.count < BCC_DA_INIT_CAP := by
          unfold BCC_DA_INIT_CAP
          omega
        simp only [bcc_da_append, hgrow, if_true]
        simp only [hzero, if_true, realloc_cells_length, hcount1, this]
      · exact ⟨by rw [List.length_set, realloc_cells_length],
          (by decide : BCC_DA_INIT_CAP < SIZE_MODULUS)⟩
      · simp only
        unfold BCC_DA_INIT_CAP
        omega
      · unfold Da.contents
        simp only
        rw [set_take_succ _ _ _ (by rw [realloc_cells_length]; unfold BCC_DA_INIT_CAP; omega),
          realloc_cells_take da.items _ da.count (by omega) (by unfold BCC_DA_INIT_CAP; omega)]
      · intro h
        omega
      · intro _
        refine ⟨0, ?_, ?_, ?_⟩
        · simp [Da.base, hzero]
        · show da.count + 1 ≤ BCC_DA_INIT_CAP
          unfold BCC_DA_INIT_CAP
          omega
        · intro j _
          omega
    · have hk1 : 1 ≤ k := by
        rcases Nat.eq_zero_or_pos k with h0 | hpos
        · subst h0
          simp [Da.base, hzero] at hle
          omega
        · exact hpos
      have hdouble : da.capacity * 2 < SIZE_MODULUS := by
        have h1 : da.capacity * 2 ^ 1 ≤ da.capacity * 2 ^ k :=
          Nat.mul_le_mul_left _ (Nat.pow_le_pow_right (by norm_num) hk1)
        simp only [Da.base, hzero, if_false] at hlt
        omega
      have hmod : da.capacity * 2 % SIZE_MODULUS = da.capacity * 2 := Nat.mod_eq_of_lt hdouble
      refine ⟨{ items := (realloc_cells da.items (da.capacity * 2)).set da.count (some item),
                count := da.count + 1, capacity := da.capacity * 2 }, ?_, ?_, ?_, rfl, ?_, ?_, ?_⟩
      · have : da.count < da.capacity * 2 := by omega
        simp only [bcc_da_append, hgrow, if_true]
        simp only [hzero, if_false, hmod, realloc_cells_length, hcount1, this, if_true]
      · exact ⟨by rw [List.length_set, realloc_cells_length], hdouble⟩
      · simp only
        omega
      · unfold Da.contents
        simp only
        rw [set_take_succ _ _ _ (by rw [realloc_cells_length]; omega),
          realloc_cells_take da.items _ da.count (by omega) (by omega)]
      · intro h
        omega
      · intro _
        refine ⟨1, ?_, ?_, ?_⟩
        · simp [Da.base, hzero]
        · simp only
          omega
        · intro j hj
          rcases Nat.eq_zero_or_pos j with h0 | hpos
          · subst h0
            simp [Da.base, hzero] at hj
            omega
          · exact hpos
  · have hlt2 : da.count < da.items.length := by omega
    refine ⟨{ items := da.items.set da.count (some item),
              count := da.count + 1, capacity := da.capacity }, ?_, ?_, ?_, rfl, ?_, ?_, ?_⟩
    · simp only [bcc_da_append, hgrow, if_false, hlt2, if_true, hcount1]
    · exact ⟨by rw [List.length_set, hlen], hcapM⟩
    · simp only
      omega
    · unfold Da.contents
      simp only
      rw [set_take_succ _ _ _ hlt2]
    · intro _
      rfl
    · intro h
      omega

theorem take_drop_of_take_append {α : Type} (l a m : List α) (c n : Nat)
    (ha : a.length = c) (h : l.take (c + n) = a ++ m) :
    l.take c = a ∧ (l.drop c).take n = m := by
  constructor
  · have h1 : l.take c = (l.take (c + n)).take c := by
      rw [List.take_take, Nat.min_eq_left (Nat.le_add_right c n)]
    rw [h1, h]
    exact List.take_left' ha
  · have h2 : (l.drop c).take n = (l.take (c + n)).drop c := by
      rw [List.drop_take, Nat.add_sub_cancel_left]
    rw [h2, h]
    exact List.drop_left' ha

theorem da_contents_length {α : Type} (da : Da α) (hwf : da.WellFormed)
    (hcount : da.count ≤ da.capacity) : da.contents.length = da.count := by
  unfold Da.contents
  rw [List.length_take, hwf.1]
  omega

theorem da_capacity_le_base {α : Type} (da : Da α) : da.capacity ≤ da.base := by
  unfold Da.base
  split <;> omega

theorem leastDoubling_ge_base {c needed cap : Nat} (h : LeastDoubling c needed cap) :
    c ≤ cap := by
  obtain ⟨k, rfl, _, _⟩ := h
  have : c * 1 ≤ c * 2 ^ k := Nat.mul_le_mul_left _ Nat.one_le_two_pow
  omega

/-- C14: on a buffer with `count <= capacity` (its block having `capacity`
cells) and when no `size_t` overflows, `bcc_da_append_many` returns with
`count` increased by the number of new items, the first `count` cells
unchanged and the new items, in order, in the cells that follow;
`bcc_da_append` does the same with one item, stored at index `count`. -/
theorem da_append_many_appends {α : Type} (da : Da α) (new_items : List α) (item : α)
    (hwf : da.WellFormed) (hcount : da.count ≤ da.capacity)
    (hfit : da.Fits new_items.length) (hfit1 : da.Fits 1) :
    (∃ da2, bcc_da_append_many da new_items = .ok da2 ∧
      da2.count = da.count + new_items.length ∧
      da2.items.take da.count = da.items.take da.count ∧
      (da2.items.drop da.count).take new_items.length = new_items.map some) ∧
    (∃ da3, bcc_da_append da item = .ok da3 ∧
      da3.count = da.count + 1 ∧
      da3.items.take da.count = da.items.take da.count ∧
      da3.items[da.count]? = some (some item)) := by
  constructor
  · obtain ⟨da2, hok, _, _, hc, hcont, _, _⟩ := bcc_da_append_many_spec da new_items hwf hcount hfit
    refine ⟨da2, hok, hc, ?_⟩
    unfold Da.contents at hcont
    rw [hc] at hcont
    exact take_drop_of_take_append da2.items _ _ da.count new_items.length
      (da_contents_length da hwf hcount) hcont
  · obtain ⟨da3, hok, _, _, hc, hcont, _, _⟩ := bcc_da_append_spec da item hwf hcount hfit1
    unfold Da.contents at hcont
    rw [hc] at hcont
    obtain ⟨h1, h2⟩ := take_drop_of_take_append da3.items _ _ da.count 1
      (da_contents_length da hwf hcount) hcont
    refine ⟨da3, hok, hc, h1, ?_⟩
    have h3 : ((da3.items.drop da.count).take 1)[0]? = some (some item) := by
      rw [h2]
      rfl
    rw [List.getElem?_take_of_lt (by omega), List.getElem?_drop] at h3
    simpa using h3

/-- An instance of `da_append_many_appends`: two items appended to an array
of two cells, one in use, which has to grow. -/
theorem da_append_many_appends_witness :
    (∃ da2, bcc_da_append_many da_one_of_two [5, 6] = .ok da2 ∧
      da2.count = da_one_of_two.count + [5, 6].length ∧
      da2.items.take da_one_of_two.count = da_one_of_two.items.take da_one_of_two.count ∧
      (da2.items.drop da_one_of_two.count).take [5, 6].length = [5, 6].map some) ∧
    (∃ da3, bcc_da_append da_one_of_two 7 = .ok da3 ∧
      da3.count = da_one_of_two.count + 1 ∧
      da3.items.take da_one_of_two.count = da_one_of_two.items.take da_one_of_two.count ∧
      da3.items[da_one_of_two.count]? = some (some 7)) :=
  da_append_many_appends da_one_of_two [5, 6] 7 ⟨rfl, by decide⟩ (by decide)
    ⟨1, by decide, by decide⟩ ⟨0, by decide, by decide⟩

/-- C15: on a buffer with `count <= capacity` and when no `size_t`
overflows, an append (of `n` items by `bcc_da_append_many`, of one item by
`bcc_da_append`) leaves a capacity that is at least the old capacity and at
least the new count; the capacity is unchanged when `count + n <= capacity`,
and otherwise it is the smallest of the values `c * 2^k` that is at least
`count + n`, where `c` is the old capacity, or 256 when that was 0. -/
theorem da_growth_law {α : Type} (da : Da α) (new_items : List α) (item : α)
    (hwf : da.WellFormed) (hcount : da.count ≤ da.capacity)
    (hfit : da.Fits new_items.length) (hfit1 : da.Fits 1) :
    (∃ da2, bcc_da_append_many da new_items = .ok da2 ∧
      da.capacity ≤ da2.capacity ∧ da2.count ≤ da2.capacity ∧
      (da.count + new_items.length ≤ da.capacity → da2.capacity = da.capacity) ∧
      (da.capacity < da.count + new_items.length →
        LeastDoubling (if da.capacity = 0 then BCC_DA_INIT_CAP else da.capacity)
          (da.count + new_items.length) da2.capacity)) ∧
    (∃ da3, bcc_da_append da item = .ok da3 ∧
      da.capacity ≤ da3.capacity ∧ da3.count ≤ da3.capacity ∧
      (da.count + 1 ≤ da.capacity → da3.capacity = da.capacity) ∧
      (da.capacity < da.count + 1 →
        LeastDoubling (if da.capacity = 0 then BCC_DA_INIT_CAP else da.capacity)
          (da.count + 1) da3.capacity)) := by
  constructor
  · obtain ⟨da2, hok, _, hle, _, _, hsame, hgrow⟩ :=
      bcc_da_append_many_spec da new_items hwf hcount hfit
    refine ⟨da2, hok, ?_, hle, hsame, hgrow⟩
    by_cases h : da.count + new_items.length ≤ da.capacity
    · rw [hsame h]
    · exact le_trans (da_capacity_le_base da) (leastDoubling_ge_base (hgrow (by omega)))
  · obtain ⟨da3, hok, _, hle, _, _, hsame, hgrow⟩ := bcc_da_append_spec da item hwf hcount hfit1
    refine ⟨da3, hok, ?_, hle, hsame, hgrow⟩
    by_cases h : da.count + 1 ≤ da.capacity
    · rw [hsame h]
    · exact le_trans (da_capacity_le_base da) (leastDoubling_ge_base (hgrow (by omega)))

/-- An instance of `da_growth_law`: appending two items to an array of two
cells, one in use, doubles the capacity once; appending one item leaves it. -/
theorem da_growth_law_witness :
    (∃ da2, bcc_da_append_many da_one_of_two [5, 6] = .ok da2 ∧ da2.capacity = 4) ∧
    (∃ da3, bcc_da_append da_one_of_two 7 = .ok da3 ∧ da3.capacity = 2) :=
  ⟨(da_growth_law da_one_of_two [5, 6] 7 ⟨rfl, by decide⟩ (by decide)
      ⟨1, by decide, by decide⟩ ⟨0, by decide, by decide⟩).1.imp
      (fun da2 h => ⟨h.1, by
        obtain ⟨k, hk, hle, hmin⟩ := h.2.2.2.2 (by decide)
        have hk1 : k ≤ 1 := hmin 1 (by decide)
        have hk0 : k ≠ 0 := by
          intro h0
          subst h0
          rw [hk] at hle
          revert hle
          decide
        have : k = 1 := by omega
        subst this
        rw [hk]
        rfl⟩),
    (da_growth_law da_one_of_two [5, 6] 7 ⟨rfl, by decide⟩ (by decide)
      ⟨1, by decide, by decide⟩ ⟨0, by decide, by decide⟩).2.imp
      (fun da3 h => ⟨h.1, h.2.2.2.1 (by decide)⟩)⟩

/-! ## String views -/

/-- Where the shared scanning loop stops. -/
theorem scan_while_spec (cond : Nat → Bool) (count : Nat) (n i : Nat) (h : i + n = count) :
    i ≤ scan_while cond count n i ∧ scan_while cond count n i ≤ count ∧
    (∀ j, i ≤ j → j < scan_while cond count n i → cond j = true) ∧
    (scan_while cond count n i < count → cond (scan_while cond count n i) = false) := by
  induction n generalizing i with
  | zero =>
    simp only [scan_while]
    exact ⟨le_refl _, by omega, fun j h1 h2 => by omega, fun h2 => by omega⟩
  | succ n ih =>
    by_cases hc : i < count ∧ cond i = true
    · simp only [scan_while, hc, and_self, if_true]
      obtain ⟨h1, h2, h3, h4⟩ := ih (i + 1) (by omega)
      refine ⟨by omega, h2, ?_, h4⟩
      intro j hj1 hj2
      rcases Nat.eq_or_lt_of_le hj1 with heq | hlt
      · rw [← heq]
        exact hc.2
      · exact h3 j (by omega) hj2
    · simp only [scan_while, hc, if_false]
      refine ⟨le_refl _, by omega, fun j h1 h2 => by omega, ?_⟩
      intro hlt
      cases hci : cond i with
      | false => rfl
      | true => exact absurd ⟨hlt, hci⟩ hc

/-- A run of `r` elements satisfying `p`, followed by the end of the list or
by an element that does not, is what `takeWhile` takes. -/
theorem takeWhile_eq_take_of_run {α : Type} (p : α → Bool) (s : List α) (r : Nat)
    (hr : r ≤ s.length)
    (hall : ∀ j, j < r → ∃ b, s[j]? = some b ∧ p b = true)
    (hstop : r < s.length → ∃ b, s[r]? = some b ∧ p b = false) :
    s.takeWhile p = s.take r ∧ s.dropWhile p = s.drop r := by
  induction s generalizing r with
  | nil =>
    simp at hr
    subst hr
    exact ⟨rfl, rfl⟩
  | cons a s ih =>
    cases r with
    | zero =>
      obtain ⟨b, hb, hpb⟩ := hstop (by simp)
      simp only [List.getElem?_cons_zero, Option.some.injEq] at hb
      subst hb
      simp [List.takeWhile, List.dropWhile, hpb]
    | succ r =>
      obtain ⟨b, hb, hpb⟩ := hall 0 (by omega)
      simp only [List.getElem?_cons_zero, Option.some.injEq] at hb
      subst hb
      obtain ⟨h1, h2⟩ := ih r (by simpa using hr)
        (fun j hj => by simpa using hall (j + 1) (by omega))
        (fun hlt => by simpa using hstop (by simpa using hlt))
      simp [List.takeWhile, List.dropWhile, hpb, h1, h2]

theorem sv_bytes_length (mem : List Nat) (sv : BCC_String_View) (hv : sv.Valid mem) :
    (sv.bytes mem).length = sv.count := by
  unfold BCC_String_View.bytes BCC_String_View.Valid at *
  rw [List.length_take, List.length_drop]
  omega

theorem sv_bytes_get (mem : List Nat) (sv : BCC_String_View) (hv : sv.Valid mem) (j : Nat)
    (hj : j < sv.count) : (sv.bytes mem)[j]? = some (read_byte mem sv.data j) := by
  unfold BCC_String_View.bytes BCC_String_View.Valid read_byte at *
  rw [List.getElem?_take_of_lt hj, List.getElem?_drop, List.getD_eq_getElem?_getD]
  have : sv.data + j < mem.length := by omega
  rw [List.getElem?_eq_getElem this]
  rfl

/-- The bytes of a view that lies inside another view. -/
theorem sv_bytes_sub (mem : List Nat) (sv : BCC_String_View) (r c : Nat)
    (h : r + c ≤ sv.count) :
    BCC_String_View.bytes mem { count := c, data := sv.data + r }
      = ((sv.bytes mem).drop r).take c := by
  unfold BCC_String_View.bytes
  simp only
  rw [List.drop_take, List.take_take, List.drop_drop, Nat.min_eq_left (by omega)]

theorem sv_bytes_take (mem : List Nat) (sv : BCC_String_View) (c : Nat) (h : c ≤ sv.count) :
    BCC_String_View.bytes mem { count := c, data := sv.data } = (sv.bytes mem).take c := by
  have := sv_bytes_sub mem sv 0 c (by omega)
  simpa using this

/-- C16: `bcc_sv_chop_by_delim` returns the longest leading part of the
view that contains no delimiter.  If the delimiter occurs, the view is the
part returned, then the delimiter, then the view left in `*sv`; if it does
not occur, the view returned is the whole view and the view left is empty,
positioned at the end.  (The function reads memory only: the embedding
yields no new memory.) -/
theorem sv_chop_by_delim_spec (mem : List Nat) (sv : BCC_String_View) (delim : Nat)
    (hv : sv.Valid mem) :
    (bcc_sv_chop_by_delim mem sv delim).1.data = sv.data ∧
    (bcc_sv_chop_by_delim mem sv delim).1.count ≤ sv.count ∧
    (bcc_sv_chop_by_delim mem sv delim).1.bytes mem
      = (sv.bytes mem).take (bcc_sv_chop_by_delim mem sv delim).1.count ∧
    delim ∉ (bcc_sv_chop_by_delim mem sv delim).1.bytes mem ∧
    (∀ n, n ≤ sv.count → delim ∉ (sv.bytes mem).take n →
      n ≤ (bcc_sv_chop_by_delim mem sv delim).1.count) ∧
    (delim ∈ sv.bytes mem →
      sv.bytes mem = (bcc_sv_chop_by_delim mem sv delim).1.bytes mem
        ++ delim :: (bcc_sv_chop_by_delim mem sv delim).2.bytes mem) ∧
    (delim ∉ sv.bytes mem →
      (bcc_sv_chop_by_delim mem sv delim).1 = sv ∧
      (bcc_sv_chop_by_delim mem sv delim).2
        = { count := 0, data := sv.data + sv.count }) := by
  obtain ⟨_, hr, hall, hstop⟩ :=
    scan_while_spec (fun i => decide (read_byte mem sv.data i ≠ delim)) sv.count sv.count 0
      (by omega)
  generalize hrdef :
    scan_while (fun i => decide (read_byte mem sv.data i ≠ delim)) sv.count sv.count 0 = r
    at hr hall hstop
  have hlen := sv_bytes_length mem sv hv
  have hfst : (bcc_sv_chop_by_delim mem sv delim).1 = { count := r, data := sv.data } := by
    unfold bcc_sv_chop_by_delim bcc_sv_from_parts
    simp only [hrdef]
    split <;> rfl
  have hbytes : BCC_String_View.bytes mem { count := r, data := sv.data }
      = (sv.bytes mem).take r := sv_bytes_take mem sv r hr
  have hnot : ∀ j, j < r → (sv.bytes mem)[j]? ≠ some delim := by
    intro j hj
    rw [sv_bytes_get mem sv hv j (by omega)]
    have := hall j (by omega) hj
    simp only [decide_eq_true_eq] at this
    simpa using this
  have hnomem : delim ∉ (sv.bytes mem).take r := by
    intro hmem
    obtain ⟨j, hj⟩ := List.mem_iff_getElem?.mp hmem
    have hjr : j < r := by
      by_contra hge
      rw [List.getElem?_eq_none (by rw [List.length_take]; omega)] at hj
      cases hj
    rw [List.getElem?_take_of_lt hjr] at hj
    exact hnot j hjr hj
  rw [hfst]
  refine ⟨rfl, hr, hbytes, by rw [hbytes]; exact hnomem, ?_, ?_, ?_⟩
  · intro n hn hnone
    show n ≤ r
    by_contra hlt
    have hrn : r < n := by omega
    have hrc : r < sv.count := by omega
    have hd := hstop hrc
    simp only [decide_eq_false_iff_not, not_not] at hd
    apply hnone
    apply List.mem_iff_getElem?.mpr
    refine ⟨r, ?_⟩
    rw [List.getElem?_take_of_lt hrn, sv_bytes_get mem sv hv r hrc, hd]
  · intro hmem
    have hrc : r < sv.count := by
      by_contra hge
      have hrc2 : r = sv.count := by omega
      rw [hrc2, ← hlen, List.take_length] at hnomem
      exact hnomem hmem
    have hd := hstop hrc
    simp only [decide_eq_false_iff_not, not_not] at hd
    have hsnd : (bcc_sv_chop_by_delim mem sv delim).2
        = { count := sv.count - (r + 1), data := sv.data + (r + 1) } := by
      unfold bcc_sv_chop_by_delim
      simp only [hrdef, hrc, if_true]
    rw [hsnd, hbytes, sv_bytes_sub mem sv (r + 1) (sv.count - (r + 1)) (by omega)]
    have htake : ((sv.bytes mem).drop (r + 1)).take (sv.count - (r + 1))
        = (sv.bytes mem).drop (r + 1) := by
      apply List.take_of_length_le
      rw [List.length_drop, hlen]
    have hidx : r < (sv.bytes mem).length := by omega
    have hget : (sv.bytes mem)[r] = delim := by
      have h := sv_bytes_get mem sv hv r hrc
      rw [List.getElem?_eq_getElem hidx, hd] at h
      exact Option.some.inj h
    rw [htake, ← hget, ← List.drop_eq_getElem_cons hidx, List.take_append_drop]
  · intro hnmem
    have hrc : r = sv.count := by
      by_contra hne
      have hrc : r < sv.count := by omega
      have hd := hstop hrc
      simp only [decide_eq_false_iff_not, not_not] at hd
      apply hnmem
      apply List.mem_iff_getElem?.mpr
      exact ⟨r, by rw [sv_bytes_get mem sv hv r hrc, hd]⟩
    constructor
    · rw [hrc]
    · unfold bcc_sv_chop_by_delim
      simp only [hrdef, hrc, Nat.lt_irrefl, if_false, Nat.sub_self]

/-- An instance of `sv_chop_by_delim_spec`: "key=a=b" chopped at '='. -/
theorem sv_chop_by_delim_spec_witness :
    BCC_String_View.bytes mem_key_value { count := 7, data := 0 }
      = (bcc_sv_chop_by_delim mem_key_value { count := 7, data := 0 } 61).1.bytes mem_key_value
        ++ 61 :: (bcc_sv_chop_by_delim mem_key_value { count := 7, data := 0 } 61).2.bytes
          mem_key_value :=
  (sv_chop_by_delim_spec mem_key_value { count := 7, data := 0 } 61
    (by unfold BCC_String_View.Valid; decide)).2.2.2.2.2.1 (by decide)

/-- C17: `bcc_sv_trim` returns a contiguous part of the view: the view is a
run of whitespace bytes, then the part returned, then a run of whitespace
bytes, and the part returned is empty or begins and ends with a byte that is
not whitespace (so both runs are maximal and interior whitespace is kept);
for a view of whitespace only, or an empty one, the part returned is empty. -/
theorem sv_trim_spec (isspace : Nat → Bool) (mem : List Nat) (sv : BCC_String_View)
    (hv : sv.Valid mem) :
    ∃ ws1 ws2 : List Nat,
      sv.bytes mem = ws1 ++ (bcc_sv_trim isspace mem sv).bytes mem ++ ws2 ∧
      (bcc_sv_trim isspace mem sv).data = sv.data + ws1.length ∧
      (∀ b ∈ ws1, isspace b = true) ∧ (∀ b ∈ ws2, isspace b = true) ∧
      ((bcc_sv_trim isspace mem sv).bytes mem = [] ∨
        ∃ first last,
          ((bcc_sv_trim isspace mem sv).bytes mem).head? = some first ∧
          isspace first = false ∧
          ((bcc_sv_trim isspace mem sv).bytes mem).getLast? = some last ∧
          isspace last = false) ∧
      ((∀ b ∈ sv.bytes mem, isspace b = true) →
        (bcc_sv_trim isspace mem sv).bytes mem = []) := by
  -- the scan of `bcc_sv_trim_left`
  obtain ⟨_, hr1, hall1, hstop1⟩ :=
    scan_while_spec (fun i => isspace (read_byte mem sv.data i)) sv.count sv.count 0 (by omega)
  generalize hr1def :
    scan_while (fun i => isspace (read_byte mem sv.data i)) sv.count sv.count 0 = r1
    at hr1 hall1 hstop1
  have hleft : bcc_sv_trim_left isspace mem sv
      = { count := sv.count - r1, data := sv.data + r1 } := by
    unfold bcc_sv_trim_left bcc_sv_from_parts
    simp only [hr1def]
  have hv1 : BCC_String_View.Valid mem { count := sv.count - r1, data := sv.data + r1 } := by
    unfold BCC_String_View.Valid at *
    simp only
    omega
  have hlen := sv_bytes_length mem sv hv
  have ht : BCC_String_View.bytes mem { count := sv.count - r1, data := sv.data + r1 }
      = (sv.bytes mem).drop r1 := by
    rw [sv_bytes_sub mem sv r1 (sv.count - r1) (by omega)]
    apply List.take_of_length_le
    rw [List.length_drop, hlen]
  -- the scan of `bcc_sv_trim_right`
  obtain ⟨_, hr2, hall2, hstop2⟩ :=
    scan_while_spec
      (fun i => isspace (read_byte mem (sv.data + r1) (sv.count - r1 - 1 - i)))
      (sv.count - r1) (sv.count - r1) 0 (by omega)
  generalize hr2def :
    scan_while (fun i => isspace (read_byte mem (sv.data + r1) (sv.count - r1 - 1 - i)))
      (sv.count - r1) (sv.count - r1) 0 = r2 at hr2 hall2 hstop2
  have htrim : bcc_sv_trim isspace mem sv
      = { count := sv.count - r1 - r2, data := sv.data + r1 } := by
    unfold bcc_sv_trim
    rw [hleft]
    unfold bcc_sv_trim_right bcc_sv_from_parts
    simp only [hr2def]
  have hres : BCC_String_View.bytes mem { count := sv.count - r1 - r2, data := sv.data + r1 }
      = ((sv.bytes mem).drop r1).take (sv.count - r1 - r2) := by
    rw [← ht]
    exact sv_bytes_take mem { count := sv.count - r1, data := sv.data + r1 }
      (sv.count - r1 - r2) (by simp only; omega)
  have hget1 : ∀ m, m < sv.count - r1 →
      ((sv.bytes mem).drop r1)[m]? = some (read_byte mem (sv.data + r1) m) := by
    intro m hm
    rw [← ht]
    exact sv_bytes_get mem { count := sv.count - r1, data := sv.data + r1 } hv1 m hm
  have hfirst : 0 < sv.count - r1 → isspace (read_byte mem (sv.data + r1) 0) = false := by
    intro hpos
    have := hstop1 (by omega)
    unfold read_byte at *
    simpa using this
  rw [htrim, hres]
  refine ⟨(sv.bytes mem).take r1, ((sv.bytes mem).drop r1).drop (sv.count - r1 - r2),
    ?_, ?_, ?_, ?_, ?_, ?_⟩
  · rw [List.append_assoc, List.take_append_drop, List.take_append_drop]
  · simp only
    rw [List.length_take, hlen, Nat.min_eq_left hr1]
  · intro b hb
    obtain ⟨j, hj⟩ := List.mem_iff_getElem?.mp hb
    have hjr : j < r1 := by
      by_contra hge
      rw [List.getElem?_eq_none (by rw [List.length_take]; omega)] at hj
      cases hj
    rw [List.getElem?_take_of_lt hjr, sv_bytes_get mem sv hv j (by omega)] at hj
    cases hj
    exact hall1 j (by omega) hjr
  · intro b hb
    obtain ⟨idx, hidx⟩ := List.mem_iff_getElem?.mp hb
    rw [List.getElem?_drop] at hidx
    have hlt : sv.count - r1 - r2 + idx < sv.count - r1 := by
      by_contra hge
      rw [List.getElem?_eq_none (by rw [List.length_drop, hlen]; omega)] at hidx
      cases hidx
    rw [hget1 _ hlt] at hidx
    cases hidx
    have := hall2 (sv.count - r1 - 1 - (sv.count - r1 - r2 + idx)) (by omega) (by omega)
    simp only at this
    have heq : sv.count - r1 - 1 - (sv.count - r1 - 1 - (sv.count - r1 - r2 + idx))
        = sv.count - r1 - r2 + idx := by omega
    rw [heq] at this
    exact this
  · by_cases hm : sv.count - r1 - r2 = 0
    · left
      rw [hm]
      rfl
    · right
      have hpos : 0 < sv.count - r1 := by omega
      have hr2lt : r2 < sv.count - r1 := by omega
      refine ⟨read_byte mem (sv.data + r1) 0,
        read_byte mem (sv.data + r1) (sv.count - r1 - 1 - r2), ?_, hfirst hpos, ?_, hstop2 hr2lt⟩
      · rw [List.head?_eq_getElem?, List.getElem?_take_of_lt (by omega), hget1 0 hpos]
      · rw [List.getLast?_eq_getElem?, List.length_take, List.length_drop, hlen,
          Nat.min_eq_left (by omega), List.getElem?_take_of_lt (by omega),
          hget1 _ (by omega)]
        congr 2
        omega
  · intro hallws
    by_cases hm : sv.count - r1 - r2 = 0
    · rw [hm]
      rfl
    · exfalso
      have hpos : 0 < sv.count - r1 := by omega
      have hns := hstop1 (by omega)
      simp only at hns
      have hmem : read_byte mem sv.data r1 ∈ sv.bytes mem :=
        List.mem_iff_getElem?.mpr ⟨r1, sv_bytes_get mem sv hv r1 (by omega)⟩
      rw [hallws _ hmem] at hns
      cases hns

/-- An instance of `sv_trim_spec`: the view "  a b\t" inside a longer
memory, with the whitespace of the "C" locale. -/
theorem sv_trim_spec_witness :
    ∃ ws1 ws2 : List Nat,
      BCC_String_View.bytes mem_padded { count := 6, data := 1 }
        = ws1 ++ (bcc_sv_trim isspace_C mem_padded { count := 6, data := 1 }).bytes mem_padded
          ++ ws2 ∧
      (∀ b ∈ ws1, isspace_C b = true) ∧ (∀ b ∈ ws2, isspace_C b = true) :=
  (sv_trim_spec isspace_C mem_padded { count := 6, data := 1 }
    (by unfold BCC_String_View.Valid; decide)).imp
    (fun _ h => h.imp (fun _ h2 => ⟨h2.1, h2.2.2.1, h2.2.2.2.1⟩))

/-! ## Rendering of commands -/

theorem exists_fitting_doubling (needed : Nat) (hn : needed < 2 ^ 63) (d c : Nat)
    (hc1 : 1 ≤ c) (hc : c < SIZE_MODULUS) (hd : needed - c ≤ d) :
    ∃ k, needed ≤ c * 2 ^ k ∧ c * 2 ^ k < SIZE_MODULUS := by
  induction d generalizing c with
  | zero => exact ⟨0, by simp; omega, by simpa using hc⟩
  | succ d ih =>
    by_cases hle : needed ≤ c
    · exact ⟨0, by simpa using hle, by simpa using hc⟩
    · have h2 : c * 2 < SIZE_MODULUS := by
        unfold SIZE_MODULUS
        omega
      obtain ⟨k, hk1, hk2⟩ := ih (c * 2) (by omega) h2 (by omega)
      refine ⟨k + 1, ?_, ?_⟩
      · have : c * 2 ^ (k + 1) = c * 2 * 2 ^ k := by ring
        rw [this]
        exact hk1
      · have : c * 2 ^ (k + 1) = c * 2 * 2 ^ k := by ring
        rw [this]
        exact hk2

/-- An append that keeps the count below 2^63 overflows no `size_t`. -/
theorem da_fits_of_lt {α : Type} (da : Da α) (n : Nat) (hwf : da.WellFormed)
    (h : da.count + n < 2 ^ 63) : da.Fits n := by
  have hbase1 : 1 ≤ da.base := by
    unfold Da.base BCC_DA_INIT_CAP
    split <;> omega
  have hbase : da.base < SIZE_MODULUS := by
    unfold Da.base
    split
    · decide
    · exact hwf.2
  exact exists_fitting_doubling (da.count + n) h _ da.base hbase1 hbase (le_refl _)

theorem intercalate_cons (sep x : List Nat) (xs : List (List Nat)) :
    List.intercalate sep (x :: xs)
      = x ++ (if xs = [] then [] else sep ++ List.intercalate sep xs) := by
  cases xs with
  | nil => simp [List.intercalate, List.intersperse]
  | cons y ys => simp [List.intercalate, List.intersperse]

theorem render_text_from_cons (i : Nat) (arg : List Nat) (rest : List (Option (List Nat))) :
    render_text_from i (some arg :: rest)
      = (if 0 < i then [32] else []) ++ render_arg arg ++ render_text_from (i + 1) rest := by
  unfold render_text_from render_text
  simp only [cmd_args, List.map_cons, intercalate_cons, ne_eq, List.cons_ne_nil,
    not_false_eq_true, and_true, Nat.succ_pos, true_and, List.map_eq_nil_iff, ite_not]
  by_cases h : cmd_args rest = [] <;> simp [h, List.intercalate]

theorem bcc_sb_append_cstr_ok (sb : Da Nat) (cstr : List Nat) (hwf : sb.WellFormed)
    (hcount : sb.count ≤ sb.capacity) (h : sb.count + cstr.length < 2 ^ 63) :
    ∃ r, bcc_sb_append_cstr sb cstr = .ok r ∧ r.WellFormed ∧ r.count ≤ r.capacity ∧
      r.count = sb.count + cstr.length ∧ r.contents = sb.contents ++ cstr.map some := by
  obtain ⟨r, h1, h2, h3, h4, h5, _⟩ :=
    bcc_da_append_many_spec sb cstr hwf hcount (da_fits_of_lt sb _ hwf h)
  exact ⟨r, h1, h2, h3, h4, h5⟩

theorem bcc_da_append_ok (sb : Da Nat) (item : Nat) (hwf : sb.WellFormed)
    (hcount : sb.count ≤ sb.capacity) (h : sb.count + 1 < 2 ^ 63) :
    ∃ r, bcc_da_append sb item = .ok r ∧ r.WellFormed ∧ r.count ≤ r.capacity ∧
      r.count = sb.count + 1 ∧ r.contents = sb.contents ++ [some item] := by
  obtain ⟨r, h1, h2, h3, h4, h5, _⟩ :=
    bcc_da_append_spec sb item hwf hcount (da_fits_of_lt sb _ hwf h)
  exact ⟨r, h1, h2, h3, h4, h5⟩

/-- What the loop of `bcc_cmd_render` appends, when no `size_t` overflows. -/
theorem bcc_cmd_render_from_spec (cmd : List (Option (List Nat))) :
    ∀ (i : Nat) (render : Da Nat), render.WellFormed → render.count ≤ render.capacity →
      render.count + (render_text_from i cmd).length < 2 ^ 63 →
      ∃ r, bcc_cmd_render_from i cmd render = .ok r ∧ r.WellFormed ∧
        r.count ≤ r.capacity ∧
        r.contents = render.contents ++ (render_text_from i cmd).map some := by
  induction cmd with
  | nil =>
    intro i render hwf hcount _
    refine ⟨render, rfl, hwf, hcount, ?_⟩
    simp [render_text_from, render_text, cmd_args, List.intercalate]
  | cons item rest ih =>
    intro i render hwf hcount hsize
    cases item with
    | none =>
      refine ⟨render, rfl, hwf, hcount, ?_⟩
      simp [render_text_from, render_text, cmd_args, List.intercalate]
    | some arg =>
      rw [render_text_from_cons] at hsize ⊢
      simp only [List.length_append] at hsize
      -- the separator
      have hsep : ∃ r1, (if i > 0 then bcc_sb_append_cstr render [32] else .ok render)
          = .ok r1 ∧ r1.WellFormed ∧ r1.count ≤ r1.capacity ∧
          r1.count = render.count + (if 0 < i then [32] else []).length ∧
          r1.contents = render.contents ++ (if 0 < i then [32] else []).map some := by
        by_cases hi : 0 < i
        · simp only [hi, if_true, gt_iff_lt] at hsize ⊢
          exact bcc_sb_append_cstr_ok render [32] hwf hcount
            (by simp only [List.length_singleton] at hsize ⊢; omega)
        · simp only [hi, if_false, gt_iff_lt]
          exact ⟨render, rfl, hwf, hcount, by simp, by simp⟩
      obtain ⟨r1, h1, hwf1, hc1, hn1, hcont1⟩ := hsep
      -- the argument
      have harg : ∃ r2 : Da Nat, r2.WellFormed ∧ r2.count ≤ r2.capacity ∧
          r2.count = r1.count + (render_arg arg).length ∧
          r2.contents = r1.contents ++ (render_arg arg).map some ∧
          bcc_cmd_render_from i (some arg :: rest) render
            = bcc_cmd_render_from (i + 1) rest r2 := by
        by_cases hsp : 32 ∈ arg
        · have hlen : (render_arg arg).length = arg.length + 2 := by
            simp [render_arg, hsp]
          obtain ⟨a, ha, hwfa, hca, hna, hconta⟩ := bcc_da_append_ok r1 39 hwf1 hc1 (by omega)
          obtain ⟨b, hb, hwfb, hcb, hnb, hcontb⟩ :=
            bcc_sb_append_cstr_ok a arg hwfa hca (by omega)
          obtain ⟨c, hc, hwfc, hcc, hnc, hcontc⟩ := bcc_da_append_ok b 39 hwfb hcb (by omega)
          refine ⟨c, hwfc, hcc, by omega, ?_, ?_⟩
          · rw [hcontc, hcontb, hconta]
            simp [render_arg, hsp]
          · simp only [bcc_cmd_render_from, h1, hsp, not_true_eq_false, if_false, ha, hb, hc]
        · have hlen : (render_arg arg).length = arg.length := by
            simp [render_arg, hsp]
          obtain ⟨b, hb, hwfb, hcb, hnb, hcontb⟩ :=
            bcc_sb_append_cstr_ok r1 arg hwf1 hc1 (by omega)
          refine ⟨b, hwfb, hcb, by omega, ?_, ?_⟩
          · rw [hcontb]
            simp [render_arg, hsp]
          · simp only [bcc_cmd_render_from, h1, hsp, not_false_eq_true, if_true, hb]
      obtain ⟨r2, hwf2, hc2, hn2, hcont2, hstep⟩ := harg
      obtain ⟨r, hr, hwfr, hcr, hcontr⟩ := ih (i + 1) r2 hwf2 hc2 (by omega)
      refine ⟨r, by rw [hstep]; exact hr, hwfr, hcr, ?_⟩
      rw [hcontr, hcont2, hcont1]
      simp

/-- C18, as stated, fails: the argument "a\tb" contains a whitespace
character (a tab, byte 9) and no space, and `bcc_cmd_render` renders the
command `cc a\tb` with that argument verbatim, without quotes. -/
theorem cmd_render_tab_not_quoted :
    isspace_C 9 = true ∧ 9 ∈ [97, 9, 98] ∧
    (bcc_cmd_render [some [99, 99], some [97, 9, 98]] sb_sixteen).map Da.contents
      = .ok ([99, 99, 32, 97, 9, 98].map some) := by
  decide

/-- C18, amended: when no `size_t` overflows, `bcc_cmd_render` appends to the
builder the arguments of the command (its items up to the first NULL, if
any) in order, separated by single spaces, where every argument that
contains a space character (byte 32) is enclosed in single quotes (byte 39)
and every argument without a space appears verbatim. -/
theorem cmd_render_spec (cmd : List (Option (List Nat))) (render : Da Nat)
    (hwf : render.WellFormed) (hcount : render.count ≤ render.capacity)
    (hsize : render.count + (render_text cmd).length < 2 ^ 63) :
    (∃ r, bcc_cmd_render cmd render = .ok r ∧
      r.count = render.count + (render_text cmd).length ∧
      r.contents = render.contents ++ (render_text cmd).map some) ∧
    render_text cmd = List.intercalate [32] ((cmd_args cmd).map render_arg) ∧
    (∀ arg : List Nat, 32 ∈ arg → render_arg arg = [39] ++ arg ++ [39]) ∧
    (∀ arg : List Nat, 32 ∉ arg → render_arg arg = arg) := by
  have h0 : render_text_from 0 cmd = render_text cmd := by
    simp [render_text_from]
  refine ⟨?_, rfl, fun arg h => by simp [render_arg, h], fun arg h => by simp [render_arg, h]⟩
  obtain ⟨r, hr, hwfr, hcr, hcont⟩ :=
    bcc_cmd_render_from_spec cmd 0 render hwf hcount (by rw [h0]; exact hsize)
  rw [h0] at hcont
  refine ⟨r, hr, ?_, hcont⟩
  have hl := congrArg List.length hcont
  rw [List.length_append, List.length_map, da_contents_length r hwfr hcr,
    da_contents_length render hwf hcount] at hl
  exact hl

/-- An instance of `cmd_render_spec`: the command `cc "a b"` rendered into an
empty builder of 16 cells. -/
theorem cmd_render_spec_witness :
    ∃ r, bcc_cmd_render [some [99, 99], some [97, 32, 98]] sb_sixteen = .ok r ∧
      r.count = sb_sixteen.count + (render_text [some [99, 99], some [97, 32, 98]]).length ∧
      r.contents = sb_sixteen.contents
        ++ (render_text [some [99, 99], some [97, 32, 98]]).map some :=
  (cmd_render_spec [some [99, 99], some [97, 32, 98]] sb_sixteen ⟨by decide, by decide⟩
    (by decide) (by decide)).1


/-! ## Recursive copy -/

theorem copy_children_skip (copy : List String → List String → Sys → Ret Bool × Sys)
    (src dst : List String) (children : List String) (s : Sys) :
    copy_children copy src dst children s
      = copy_children copy src dst (real_children children) s := by
  induction children generalizing s with
  | nil => rfl
  | cons c rest ih =>
    by_cases h1 : c = "."
    · have hreal : real_children (c :: rest) = real_children rest := by
        simp [real_children, h1]
      rw [hreal]
      simp only [copy_children, h1, if_true]
      exact ih s
    · by_cases h2 : c = ".."
      · have hreal : real_children (c :: rest) = real_children rest := by
          simp [real_children, h2]
        rw [hreal]
        simp only [copy_children, h1, h2, if_true, if_false]
        exact ih s
      · have hreal : real_children (c :: rest) = c :: real_children rest := by
          simp [real_children, h1, h2]
        rw [hreal]
        simp only [copy_children, h1, h2, if_false]
        cases hc : copy (src ++ [c]) (dst ++ [c]) s with
        | mk r s1 =>
          cases r with
          | value b =>
            cases b with
            | true => exact ih s1
            | false => rfl
          | aborted => rfl
          | no_fuel => rfl

theorem real_children_not_dot (children : List String) :
    ∀ c ∈ real_children children, c ≠ "." ∧ c ≠ ".." := by
  intro c hc
  have := (List.mem_filter.mp hc).2
  simpa using this

theorem copy_children_cons (copy : List String → List String → Sys → Ret Bool × Sys)
    (src dst : List String) (c : String) (rest : List String) (s : Sys)
    (h1 : c ≠ ".") (h2 : c ≠ "..") :
    copy_children copy src dst (c :: rest) s
      = match copy (src ++ [c]) (dst ++ [c]) s with
        | (Ret.value true, s1) => copy_children copy src dst rest s1
        | (r, s1) => (r, s1) := by
  simp only [copy_children, h1, h2, if_false]

/-- The loop over the children returns true exactly when every child that is
not "." or ".." is copied with success. -/
theorem copy_children_true_iff (copy : List String → List String → Sys → Ret Bool × Sys)
    (src dst : List String) (cs : List String) (s s2 : Sys)
    (hcs : ∀ c ∈ cs, c ≠ "." ∧ c ≠ "..") :
    copy_children copy src dst cs s = (Ret.value true, s2)
      ↔ ChildrenSucceed copy src dst cs s s2 := by
  induction cs generalizing s with
  | nil =>
    simp only [copy_children, ChildrenSucceed, Prod.mk.injEq, true_and]
    exact eq_comm
  | cons c rest ih =>
    obtain ⟨h1, h2⟩ := hcs c (by simp)
    have hrest : ∀ c ∈ rest, c ≠ "." ∧ c ≠ ".." := fun d hd => hcs d (by simp [hd])
    rw [copy_children_cons copy src dst c rest s h1 h2]
    simp only [ChildrenSucceed]
    cases hc : copy (src ++ [c]) (dst ++ [c]) s with
    | mk r s1 =>
      cases r with
      | value b =>
        cases b with
        | true =>
          simp only [Prod.mk.injEq, true_and, exists_eq_left']
          exact ih s1 hrest
        | false => simp
      | aborted => simp
      | no_fuel => simp

/-- The loop over the children stops at the first child whose copy does not
return true, with the result and in the state of that copy. -/
theorem copy_children_stops (copy : List String → List String → Sys → Ret Bool × Sys)
    (src dst : List String) (pre : List String) (x : String) (post : List String)
    (s s1 s2 : Sys) (r : Ret Bool)
    (hcs : ∀ c ∈ pre ++ x :: post, c ≠ "." ∧ c ≠ "..")
    (hpre : ChildrenSucceed copy src dst pre s s1)
    (hx : copy (src ++ [x]) (dst ++ [x]) s1 = (r, s2)) (hr : r ≠ Ret.value true) :
    copy_children copy src dst (pre ++ x :: post) s = (r, s2) := by
  induction pre generalizing s with
  | nil =>
    simp only [ChildrenSucceed] at hpre
    subst hpre
    obtain ⟨h1, h2⟩ := hcs x (by simp)
    simp only [List.nil_append]
    rw [copy_children_cons copy src dst x post s1 h1 h2, hx]
    cases r with
    | value b =>
      cases b with
      | true => exact absurd rfl hr
      | false => rfl
    | aborted => rfl
    | no_fuel => rfl
  | cons c rest ih =>
    obtain ⟨h1, h2⟩ := hcs c (by simp)
    obtain ⟨s3, hc, hrest⟩ := hpre
    simp only [List.cons_append]
    rw [copy_children_cons copy src dst c _ s h1 h2, hc]
    exact ih s3 (fun d hd => hcs d (by simp only [List.cons_append, List.mem_cons]; right; exact hd))
      hrest

/-- All that `bcc_copy_file` changes is the entries of the file system. -/
theorem bcc_copy_file_frame (s : Sys) (src dst : List String) :
    ∃ entries, (bcc_copy_file s src dst).2 = { s with entries := entries } := by
  unfold bcc_copy_file
  split
  · split
    · exact ⟨s.entries, rfl⟩
    · exact ⟨_, rfl⟩
  · split
    · exact ⟨s.entries, rfl⟩
    · exact ⟨_, rfl⟩
  · exact ⟨s.entries, rfl⟩

theorem bcc_copy_file_arena (s : Sys) (src dst : List String) :
    (bcc_copy_file s src dst).2.arena = s.arena := by
  obtain ⟨entries, h⟩ := bcc_copy_file_frame s src dst
  rw [h]

theorem copy_defer_same_arena (s s1 : Sys) (b : Bool) (h : s1.arena = s.arena) :
    copy_defer (bcc_temp_save s.arena) b s1 = (Ret.value b, s1) := by
  unfold copy_defer bcc_temp_rewind bcc_temp_save
  rw [← h]

/-- C20: `bcc_copy_directory_recursively` by the type of the source.  A
SYMLINK gives success and changes nothing, and as a child it lets the loop go
on with the remaining siblings; OTHER gives failure and changes nothing; a
REGULAR file gives exactly the result and the effect of `bcc_copy_file`; a
DIRECTORY gives failure when creating `dst` fails or when listing `src`
fails, the entries "." and ".." are skipped, and when both steps succeed the
call succeeds if and only if the recursive copy of every child succeeds. -/
theorem copy_directory_by_type (enum_signed : Bool) (fuel : Nat) (src dst : List String)
    (s : Sys) :
    (bcc_get_file_type enum_signed s src = 2 →
      bcc_copy_directory_recursively enum_signed (fuel + 1) src dst s = (Ret.value true, s) ∧
      ∀ (parent_src parent_dst rest : List String) (child : String),
        child ≠ "." → child ≠ ".." → src = parent_src ++ [child] →
        dst = parent_dst ++ [child] →
        copy_children (bcc_copy_directory_recursively enum_signed (fuel + 1))
            parent_src parent_dst (child :: rest) s
          = copy_children (bcc_copy_directory_recursively enum_signed (fuel + 1))
            parent_src parent_dst rest s) ∧
    (bcc_get_file_type enum_signed s src = 3 →
      bcc_copy_directory_recursively enum_signed (fuel + 1) src dst s = (Ret.value false, s)) ∧
    (bcc_get_file_type enum_signed s src = 0 →
      bcc_copy_directory_recursively enum_signed (fuel + 1) src dst s
        = (Ret.value (bcc_copy_file s src dst).1, (bcc_copy_file s src dst).2)) ∧
    (bcc_get_file_type enum_signed s src = 1 →
      ((bcc_mkdir_if_not_exists s dst).1 = false →
        (bcc_copy_directory_recursively enum_signed (fuel + 1) src dst s).1
          = Ret.value false) ∧
      ((bcc_mkdir_if_not_exists s dst).1 = true →
        (bcc_read_entire_dir (bcc_mkdir_if_not_exists s dst).2 src).1 = Ret.value false →
        (bcc_copy_directory_recursively enum_signed (fuel + 1) src dst s).1
          = Ret.value false) ∧
      ((bcc_mkdir_if_not_exists s dst).1 = true →
        (bcc_read_entire_dir (bcc_mkdir_if_not_exists s dst).2 src).1 = Ret.value true →
        ((bcc_copy_directory_recursively enum_signed (fuel + 1) src dst s).1 = Ret.value true
          ↔ ∃ s3, ChildrenSucceed (bcc_copy_directory_recursively enum_signed fuel) src dst
              (real_children (bcc_read_entire_dir (bcc_mkdir_if_not_exists s dst).2 src).2.1)
              (bcc_read_entire_dir (bcc_mkdir_if_not_exists s dst).2 src).2.2 s3))) := by
  have hsym : bcc_get_file_type enum_signed s src = 2 →
      bcc_copy_directory_recursively enum_signed (fuel + 1) src dst s = (Ret.value true, s) := by
    intro h
    simp only [bcc_copy_directory_recursively, h]
    simp only [show ¬ ((2 : Int) < 0) by decide, show ¬ ((2 : Int) = 1) by decide,
      show ¬ ((2 : Int) = 0) by decide, if_false, if_true]
    exact copy_defer_same_arena s s true rfl
  refine ⟨fun h => ⟨hsym h, ?_⟩, ?_, ?_, ?_⟩
  · intro parent_src parent_dst rest child h1 h2 hsrc hdst
    rw [copy_children_cons _ _ _ child rest s h1 h2, ← hsrc, ← hdst, hsym h]
  · intro h
    simp only [bcc_copy_directory_recursively, h]
    simp only [show ¬ ((3 : Int) < 0) by decide, show ¬ ((3 : Int) = 1) by decide,
      show ¬ ((3 : Int) = 0) by decide, show ¬ ((3 : Int) = 2) by decide, if_false, if_true]
    exact copy_defer_same_arena s s false rfl
  · intro h
    simp only [bcc_copy_directory_recursively, h]
    simp only [show ¬ ((0 : Int) < 0) by decide, show ¬ ((0 : Int) = 1) by decide,
      if_false, if_true]
    have ha := bcc_copy_file_arena s src dst
    cases hc : bcc_copy_file s src dst with
    | mk b s1 =>
      rw [hc] at ha
      cases b with
      | true => exact copy_defer_same_arena s s1 true ha
      | false => exact copy_defer_same_arena s s1 false ha
  · intro h
    have hunfold : bcc_copy_directory_recursively enum_signed (fuel + 1) src dst s
        = match bcc_mkdir_if_not_exists s dst with
          | (false, s1) => copy_defer (bcc_temp_save s.arena) false s1
          | (true, s1) =>
            match bcc_read_entire_dir s1 src with
            | (Ret.value true, children, s2) =>
              match copy_children (bcc_copy_directory_recursively enum_signed fuel)
                  src dst children s2 with
              | (Ret.value result, s3) => copy_defer (bcc_temp_save s.arena) result s3
              | (r, s3) => (r, s3)
            | (Ret.value false, _, s2) => copy_defer (bcc_temp_save s.arena) false s2
            | (r, _, s2) => (r, s2) := by
      simp only [bcc_copy_directory_recursively, h]
      simp only [show ¬ ((1 : Int) < 0) by decide, if_false, if_true]
    rw [hunfold]
    cases hmk : bcc_mkdir_if_not_exists s dst with
    | mk ok s1 =>
      cases ok with
      | false =>
        refine ⟨?_, ?_, ?_⟩
        · intro _
          rfl
        · intro hc
          cases hc
        · intro hc
          cases hc
      | true =>
        refine ⟨?_, ?_, ?_⟩
        · intro hc
          cases hc
        · intro _ hls
          simp only at hls ⊢
          cases hrd : bcc_read_entire_dir s1 src with
          | mk r rest =>
            obtain ⟨children, s2⟩ := rest
            rw [hrd] at hls
            simp only at hls
            subst hls
            rfl
        · intro _ hls
          simp only at hls ⊢
          cases hrd : bcc_read_entire_dir s1 src with
          | mk r rest =>
            obtain ⟨children, s2⟩ := rest
            rw [hrd] at hls
            simp only at hls
            subst hls
            simp only
            rw [copy_children_skip]
            constructor
            · intro hres
              cases hcc : copy_children (bcc_copy_directory_recursively enum_signed fuel)
                  src dst (real_children children) s2 with
              | mk r s3 =>
                rw [hcc] at hres
                cases r with
                | value b =>
                  cases b with
                  | true =>
                    exact ⟨s3, (copy_children_true_iff _ src dst _ s2 s3
                      (real_children_not_dot children)).mp hcc⟩
                  | false =>
                    simp [copy_defer] at hres
                | aborted => simp at hres
                | no_fuel => simp at hres
            · rintro ⟨s3, hs3⟩
              rw [(copy_children_true_iff _ src dst _ s2 s3
                (real_children_not_dot children)).mpr hs3]
              rfl

/-- An instance of `copy_directory_by_type`: an entry of another kind gives
failure and changes nothing; a regular file is copied by `bcc_copy_file`. -/
theorem copy_directory_by_type_witness :
    bcc_copy_directory_recursively false (2 + 1) ["src", "dev"] ["dst", "dev"] sys_other_last
      = (Ret.value false, sys_other_last) ∧
    bcc_copy_directory_recursively false (0 + 1) ["src", "f.txt"] ["copy.txt"] sys_other_last
      = (Ret.value (bcc_copy_file sys_other_last ["src", "f.txt"] ["copy.txt"]).1,
         (bcc_copy_file sys_other_last ["src", "f.txt"] ["copy.txt"]).2) :=
  ⟨(copy_directory_by_type false 2 ["src", "dev"] ["dst", "dev"] sys_other_last).2.1
      (by decide),
    (copy_directory_by_type false 0 ["src", "f.txt"] ["copy.txt"] sys_other_last).2.2.1
      (by decide)⟩

theorem under_refl (p : List String) : Under p p :=
  ⟨[], by simp⟩

theorem under_of_under_child {dst p : List String} {c : String} (h : Under (dst ++ [c]) p) :
    Under dst p := by
  obtain ⟨t, rfl⟩ := h
  exact ⟨c :: t, by simp⟩

theorem frameOutside_refl (dst : List String) (s : Sys) : FrameOutside dst s s :=
  ⟨rfl, rfl, rfl, rfl, rfl, fun _ _ _ => rfl⟩

theorem frameOutside_trans {dst : List String} {s s1 s2 : Sys}
    (h1 : FrameOutside dst s s1) (h2 : FrameOutside dst s1 s2) : FrameOutside dst s s2 := by
  obtain ⟨hstat1, hmkdir1, hopendir1, hreaddir1, hfault1, hentries1⟩ := h1
  obtain ⟨hstat2, hmkdir2, hopendir2, hreaddir2, hfault2, hentries2⟩ := h2
  exact ⟨hstat2.trans hstat1, hmkdir2.trans hmkdir1, hopendir2.trans hopendir1,
    hreaddir2.trans hreaddir1, hfault2.trans hfault1,
    fun p hp hq => (hentries2 p hp hq).trans (hentries1 p hp hq)⟩

/-- What a copy into a child of `dst` may change, a copy into `dst` may. -/
theorem frameOutside_of_child {dst : List String} {c : String} {s s2 : Sys}
    (h : FrameOutside (dst ++ [c]) s s2) : FrameOutside dst s s2 := by
  obtain ⟨hstat, hmkdir, hopendir, hreaddir, hfault, hentries⟩ := h
  refine ⟨hstat, hmkdir, hopendir, hreaddir, hfault,
    fun p hp _ => hentries p (fun hu => hp (under_of_under_child hu)) ?_⟩
  rw [List.dropLast_concat]
  intro hpd
  exact hp (hpd ▸ under_refl dst)

theorem frameOutside_arena (dst : List String) (s : Sys) (a : Arena) :
    FrameOutside dst s { s with arena := a } :=
  ⟨rfl, rfl, rfl, rfl, rfl, fun _ _ _ => rfl⟩

theorem create_entry_frame {entries entries2 : List String → Option Entry}
    {path : List String} {e : Entry} (h : create_entry entries path e = some entries2)
    (p : List String) (hp : p ≠ path) (hq : p ≠ path.dropLast) : entries2 p = entries p := by
  unfold create_entry at h
  split at h
  · simp only [Option.some.injEq] at h
    rw [← h, Function.update_noteq hp, Function.update_noteq hq]
  · cases h

theorem open_truncate_frame {entries entries2 : List String → Option Entry}
    {path : List String} (h : open_truncate entries path = some entries2)
    (p : List String) (hp : p ≠ path) (hq : p ≠ path.dropLast) : entries2 p = entries p := by
  unfold open_truncate at h
  split at h
  · simp only [Option.some.injEq] at h
    rw [← h, Function.update_noteq hp]
  · cases h
  · exact create_entry_frame h p hp hq

theorem mkdir_frame {s s1 : Sys} {dst : List String} (h : mkdir s dst = .ok s1) :
    FrameOutside dst s s1 ∧ s1.arena = s.arena := by
  unfold mkdir at h
  cases hm : s.mkdir_errno dst with
  | some e => simp [hm] at h
  | none =>
    cases he : s.entries dst with
    | some e => simp [hm, he] at h
    | none =>
      cases hce : create_entry s.entries dst (Entry.directory [".", ".."]) with
      | some entries =>
        simp only [hm, he, hce, Except.ok.injEq] at h
        subst h
        refine ⟨⟨rfl, rfl, rfl, rfl, rfl, fun p hp hq => ?_⟩, rfl⟩
        exact create_entry_frame hce p (fun hpd => hp (hpd ▸ under_refl dst)) hq
      | none =>
        simp only [hm, he, hce] at h
        split at h <;> cases h

theorem bcc_mkdir_if_not_exists_frame (s : Sys) (dst : List String) :
    FrameOutside dst s (bcc_mkdir_if_not_exists s dst).2 ∧
    (bcc_mkdir_if_not_exists s dst).2.arena = s.arena := by
  unfold bcc_mkdir_if_not_exists
  cases h : mkdir s dst with
  | error e =>
    simp only
    split <;> exact ⟨frameOutside_refl dst s, rfl⟩
  | ok s1 => exact mkdir_frame h

theorem bcc_copy_file_frameOutside (s : Sys) (src dst : List String) :
    FrameOutside dst s (bcc_copy_file s src dst).2 := by
  have hup : ∀ (entries : List String → Option Entry) (e : Option Entry),
      open_truncate s.entries dst = some entries →
      FrameOutside dst s { s with entries := Function.update entries dst e } := by
    intro entries e hop
    refine ⟨rfl, rfl, rfl, rfl, rfl, fun p hp hq => ?_⟩
    have hpd : p ≠ dst := fun hpd => hp (hpd ▸ under_refl dst)
    simp only
    rw [Function.update_noteq hpd]
    exact open_truncate_frame hop p hpd hq
  unfold bcc_copy_file
  split
  · cases hop : open_truncate s.entries dst with
    | none => exact frameOutside_refl dst s
    | some entries => exact hup entries _ hop
  · cases hop : open_truncate s.entries dst with
    | none => exact frameOutside_refl dst s
    | some entries => exact hup entries _ hop
  · exact frameOutside_refl dst s

/-- All that `bcc_read_entire_dir` changes is the arena. -/
theorem bcc_read_entire_dir_frame (s : Sys) (parent : List String) :
    ∃ a, (bcc_read_entire_dir s parent).2.2 = { s with arena := a } := by
  unfold bcc_read_entire_dir
  split
  · next names _ _ =>
    cases h : read_dir_names (readdir_yield s parent names) s.arena with
    | mk o a =>
      cases o with
      | some children => exact ⟨a, rfl⟩
      | none => exact ⟨a, rfl⟩
  · exact ⟨s.arena, rfl⟩

theorem copy_children_frame (copy : List String → List String → Sys → Ret Bool × Sys)
    (src dst : List String)
    (hcopy : ∀ (c : String) (s : Sys),
      FrameOutside (dst ++ [c]) s (copy (src ++ [c]) (dst ++ [c]) s).2)
    (children : List String) (s : Sys) :
    FrameOutside dst s (copy_children copy src dst children s).2 := by
  induction children generalizing s with
  | nil => exact frameOutside_refl dst s
  | cons c rest ih =>
    simp only [copy_children]
    split
    · exact ih s
    · split
      · exact ih s
      · have hc := frameOutside_of_child (hcopy c s)
        cases hcc : copy (src ++ [c]) (dst ++ [c]) s with
        | mk r s1 =>
          rw [hcc] at hc
          cases r with
          | value b =>
            cases b with
            | true => exact frameOutside_trans hc (ih s1)
            | false => exact hc
          | aborted => exact hc
          | no_fuel => exact hc

/-- Frame of the recursive copy: outside the arena it changes only what is
named by `dst`, by the paths below `dst` and by the directory that contains
`dst`. -/
theorem copy_directory_frame (enum_signed : Bool) (fuel : Nat) :
    ∀ (src dst : List String) (s : Sys),
      FrameOutside dst s (bcc_copy_directory_recursively enum_signed fuel src dst s).2 := by
  induction fuel with
  | zero =>
    intro src dst s
    exact frameOutside_refl dst s
  | succ fuel ih =>
    intro src dst s
    simp only [bcc_copy_directory_recursively]
    split
    · exact frameOutside_refl dst s
    · split
      · have hmk := (bcc_mkdir_if_not_exists_frame s dst).1
        cases hm : bcc_mkdir_if_not_exists s dst with
        | mk ok s1 =>
          rw [hm] at hmk
          cases ok with
          | false => exact frameOutside_trans hmk (frameOutside_arena dst s1 _)
          | true =>
            simp only
            obtain ⟨a, ha⟩ := bcc_read_entire_dir_frame s1 src
            cases hrd : bcc_read_entire_dir s1 src with
            | mk r rest =>
              obtain ⟨children, s2⟩ := rest
              rw [hrd] at ha
              simp only at ha
              have h12 : FrameOutside dst s1 s2 := ha ▸ frameOutside_arena dst s1 a
              have hch := copy_children_frame
                (bcc_copy_directory_recursively enum_signed fuel) src dst
                (fun c s => ih (src ++ [c]) (dst ++ [c]) s) children s2
              cases r with
              | value b =>
                cases b with
                | true =>
                  simp only
                  cases hcc : copy_children (bcc_copy_directory_recursively enum_signed fuel)
                      src dst children s2 with
                  | mk r3 s3 =>
                    rw [hcc] at hch
                    have h03 := frameOutside_trans hmk (frameOutside_trans h12 hch)
                    cases r3 with
                    | value b3 => exact frameOutside_trans h03 (frameOutside_arena dst s3 _)
                    | aborted => exact h03
                    | no_fuel => exact h03
                | false =>
                  exact frameOutside_trans (frameOutside_trans hmk h12)
                    (frameOutside_arena dst s2 _)
              | aborted => exact frameOutside_trans hmk h12
              | no_fuel => exact frameOutside_trans hmk h12
      · split
        · have hcf := bcc_copy_file_frameOutside s src dst
          cases hc : bcc_copy_file s src dst with
          | mk b s1 =>
            rw [hc] at hcf
            cases b <;> exact frameOutside_trans hcf (frameOutside_arena dst s1 _)
        · split
          · exact frameOutside_arena dst s _
          · split
            · exact frameOutside_arena dst s _
            · exact frameOutside_refl dst s

theorem concat_eq_append_nonempty {x y u : List String} {c : String}
    (h : x ++ [c] = y ++ u) (hu : u ≠ []) : ∃ u0, u = u0 ++ [c] ∧ x = y ++ u0 := by
  rcases List.eq_nil_or_concat u with h0 | ⟨u0, c2, rfl⟩
  · exact absurd h0 hu
  · rw [List.concat_eq_append, ← List.append_assoc] at h
    have := List.append_inj' h rfl
    obtain ⟨h1, h2⟩ := this
    simp only [List.cons.injEq, and_true] at h2
    subst h2
    exact ⟨u0, by simp, h1⟩

theorem apart_symm {a b : List String} (h : Apart a b) : Apart b a :=
  ⟨h.2, h.1⟩

theorem apart_child {src dst : List String} (h : Apart src dst) (c : String) :
    Apart (src ++ [c]) (dst ++ [c]) := by
  have key : ∀ a b : List String, ¬ Under a b → ¬ Under (a ++ [c]) (b ++ [c]) := by
    intro a b hab hu
    obtain ⟨t, ht⟩ := hu
    by_cases ht0 : t = []
    · subst ht0
      simp only [List.append_nil] at ht
      have := List.append_inj' ht rfl
      exact hab ⟨[], by simp [this.1]⟩
    · rw [List.append_assoc] at ht
      obtain ⟨u0, _, hb⟩ := concat_eq_append_nonempty ht (by simp)
      exact hab ⟨u0, hb⟩
  exact ⟨key src dst h.1, key dst src h.2⟩

theorem not_under_of_apart {src dst : List String} (h : Apart src dst) (u : List String) :
    ¬ Under dst (src ++ u) := by
  rintro ⟨t, ht⟩
  rcases List.append_eq_append_iff.mp ht with ⟨a, h1, _⟩ | ⟨c, h1, _⟩
  · exact h.1 ⟨a, h1⟩
  · exact h.2 ⟨c, h1⟩

theorem ne_dropLast_of_apart {src dst : List String} (h : Apart src dst) (u : List String) :
    src ++ u ≠ dst.dropLast := by
  intro heq
  rcases List.eq_nil_or_concat dst with h0 | ⟨d0, l, hd⟩
  · subst h0
    exact h.2 ⟨src, by simp⟩
  · subst hd
    rw [List.concat_eq_append, List.dropLast_concat] at heq
    apply h.1
    exact ⟨u ++ [l], by rw [List.concat_eq_append, ← heq, List.append_assoc]⟩

/-- A change confined to `dst` and its surroundings leaves what lies at or
below a path apart from `dst` as it was. -/
theorem frameOutside_apart {src dst : List String} {s s2 : Sys} (h : Apart src dst)
    (hf : FrameOutside dst s s2) (u : List String) :
    s2.entries (src ++ u) = s.entries (src ++ u) :=
  hf.2.2.2.2.2 (src ++ u) (not_under_of_apart h u) (ne_dropLast_of_apart h u)

theorem listed_congr {s s2 : Sys} (dir : List String)
    (h : ∀ u, s2.entries (dir ++ u) = s.entries (dir ++ u)) (t : List String)
    (hl : Listed s dir t) : Listed s2 dir t := by
  induction t generalizing dir with
  | nil => trivial
  | cons c t ih =>
    obtain ⟨⟨names, hn, hc⟩, hrest⟩ := hl
    refine ⟨⟨names, ?_, hc⟩, ih (dir ++ [c]) (fun u => ?_) hrest⟩
    · have := h []
      simp only [List.append_nil] at this
      rw [this, hn]
    · rw [List.append_assoc]
      exact h ([c] ++ u)

theorem exists_last_occurrence (c : String) (l : List String) (h : c ∈ l) :
    ∃ a b, l = a ++ c :: b ∧ c ∉ b := by
  induction l with
  | nil => simp at h
  | cons x l ih =>
    by_cases hl : c ∈ l
    · obtain ⟨a, b, hab, hb⟩ := ih hl
      exact ⟨x :: a, b, by simp [hab], hb⟩
    · rcases List.mem_cons.mp h with rfl | h2
      · exact ⟨[], l, rfl, hl⟩
      · exact absurd h2 hl

theorem childrenSucceed_append (copy : List String → List String → Sys → Ret Bool × Sys)
    (src dst : List String) (a b : List String) (s s2 : Sys) :
    ChildrenSucceed copy src dst (a ++ b) s s2
      ↔ ∃ s1, ChildrenSucceed copy src dst a s s1 ∧ ChildrenSucceed copy src dst b s1 s2 := by
  induction a generalizing s with
  | nil =>
    simp only [List.nil_append, ChildrenSucceed]
    constructor
    · intro h
      exact ⟨s, rfl, h⟩
    · rintro ⟨s1, rfl, h⟩
      exact h
  | cons c a ih =>
    simp only [List.cons_append, ChildrenSucceed]
    constructor
    · rintro ⟨s1, hc, hrest⟩
      obtain ⟨s3, h3, h4⟩ := (ih s1).mp hrest
      exact ⟨s3, ⟨s1, hc, h3⟩, h4⟩
    · rintro ⟨s3, ⟨s1, hc, h3⟩, h4⟩
      exact ⟨s1, hc, (ih s1).mpr ⟨s3, h3, h4⟩⟩

/-- What the successful copies of a run of children leave untouched. -/
theorem childrenSucceed_frame (enum_signed : Bool) (fuel : Nat) (src dst : List String)
    (cs : List String) (s s2 : Sys)
    (h : ChildrenSucceed (bcc_copy_directory_recursively enum_signed fuel) src dst cs s s2) :
    FrameOutside dst s s2 ∧
    ∀ q, q ≠ dst → (∀ c ∈ cs, ¬ Under (dst ++ [c]) q) → s2.entries q = s.entries q := by
  induction cs generalizing s with
  | nil =>
    simp only [ChildrenSucceed] at h
    subst h
    exact ⟨frameOutside_refl dst _, fun _ _ _ => rfl⟩
  | cons c rest ih =>
    obtain ⟨s1, hc, hrest⟩ := h
    have hf := copy_directory_frame enum_signed fuel (src ++ [c]) (dst ++ [c]) s
    rw [hc] at hf
    obtain ⟨ih1, ih2⟩ := ih s1 hrest
    refine ⟨frameOutside_trans (frameOutside_of_child hf) ih1, fun q hq hall => ?_⟩
    rw [ih2 q hq (fun d hd => hall d (by simp [hd]))]
    apply hf.2.2.2.2.2 q (hall c (by simp))
    rw [List.dropLast_concat]
    exact hq

theorem enum_value_neg_one_ne (enum_signed : Bool) :
    enum_value enum_signed (-1) ≠ 0 ∧ enum_value enum_signed (-1) ≠ 1 ∧
    enum_value enum_signed (-1) ≠ 2 ∧ enum_value enum_signed (-1) ≠ 3 := by
  cases enum_signed <;> decide

/-- What the source names when it is classified as a regular file, a
directory or a symbolic link. -/
theorem bcc_get_file_type_entry (enum_signed : Bool) (s : Sys) (p : List String) :
    (bcc_get_file_type enum_signed s p = 0 → ∃ data, s.entries p = some (Entry.regular data)) ∧
    (bcc_get_file_type enum_signed s p = 1 →
      ∃ names, s.entries p = some (Entry.directory names)) ∧
    (bcc_get_file_type enum_signed s p = 2 → s.entries p = some Entry.symlink) := by
  have hne := enum_value_neg_one_ne enum_signed
  unfold bcc_get_file_type
  split
  · next h1 h2 =>
    refine ⟨?_, ?_, ?_⟩ <;> intro h <;>
      first | exact ⟨_, h2⟩ | exact h2 | exact absurd h (by decide)
  · next h1 h2 =>
    refine ⟨?_, ?_, ?_⟩ <;> intro h <;>
      first | exact ⟨_, h2⟩ | exact h2 | exact absurd h (by decide)
  · next h1 h2 =>
    refine ⟨?_, ?_, ?_⟩ <;> intro h <;>
      first | exact ⟨_, h2⟩ | exact h2 | exact absurd h (by decide)
  · refine ⟨?_, ?_, ?_⟩ <;> intro h <;> exact absurd h (by decide)
  · exact ⟨fun h => absurd h hne.1, fun h => absurd h hne.2.1, fun h => absurd h hne.2.2.1⟩

theorem read_dir_names_eq (names : List String) (a a2 : Arena) (children : List String)
    (h : read_dir_names names a = (some children, a2)) : children = names := by
  induction names generalizing a a2 children with
  | nil =>
    simp only [read_dir_names, Prod.mk.injEq, Option.some.injEq] at h
    exact h.1.symm
  | cons d rest ih =>
    simp only [read_dir_names] at h
    cases hd : bcc_temp_strdup a d with
    | mk o a1 =>
      rw [hd] at h
      cases o with
      | none => simp at h
      | some off =>
        simp only at h
        cases hr : read_dir_names rest a1 with
        | mk o2 a3 =>
          rw [hr] at h
          cases o2 with
          | none => simp at h
          | some cs =>
            simp only [Prod.mk.injEq, Option.some.injEq] at h
            rw [← h.1, ih a1 a3 cs hr]

/-- A listing that succeeds yields the names of the directory, in order. -/
theorem bcc_read_entire_dir_true (s s2 : Sys) (parent : List String) (children : List String)
    (h : bcc_read_entire_dir s parent = (Ret.value true, children, s2)) :
    s.entries parent = some (Entry.directory children) ∧ ∃ a, s2 = { s with arena := a } := by
  unfold bcc_read_entire_dir at h
  split at h
  · next names h1 h2 =>
    cases hr : read_dir_names (readdir_yield s parent names) s.arena with
    | mk o a =>
      rw [hr] at h
      cases o with
      | none => simp at h
      | some cs =>
        simp only [Prod.mk.injEq, Ret.value.injEq, Option.isNone_iff_eq_none] at h
        obtain ⟨hf, hc, hs⟩ := h
        have hy : readdir_yield s parent names = names := by
          simp only [readdir_yield, hf]
        rw [hy] at hr
        have := read_dir_names_eq names _ _ _ hr
        subst hc
        exact ⟨by rw [h2, this], a, hs.symm⟩
  · simp at h

/-- A successful `bcc_copy_file` between two different paths leaves the bytes
of the source at the destination. -/
theorem bcc_copy_file_true (s s1 : Sys) (src dst : List String) (data : List Nat)
    (h : bcc_copy_file s src dst = (true, s1)) (hsrc : s.entries src = some (Entry.regular data))
    (hne : src ≠ dst) : s1.entries dst = some (Entry.regular data) := by
  unfold bcc_copy_file at h
  split at h
  · next data0 h1 h2 =>
    cases hop : open_truncate s.entries dst with
    | none => simp [hop] at h
    | some entries =>
      simp only [hop, hne, if_false, Prod.mk.injEq, true_and] at h
      rw [hsrc] at h1
      simp only [Option.some.injEq, Entry.regular.injEq] at h1
      subst h1
      rw [← h]
      simp
  · cases hop : open_truncate s.entries dst with
    | none => simp [hop] at h
    | some entries => simp [hop] at h
  · simp at h

/-- The ways in which a call of the recursive copy returns true. -/
theorem copy_directory_true_inv (enum_signed : Bool) (fuel : Nat) (src dst : List String)
    (s s4 : Sys)
    (h : bcc_copy_directory_recursively enum_signed (fuel + 1) src dst s = (Ret.value true, s4)) :
    (bcc_get_file_type enum_signed s src = 1 ∧ ∃ s1 children s2 s3,
      bcc_mkdir_if_not_exists s dst = (true, s1) ∧
      bcc_read_entire_dir s1 src = (Ret.value true, children, s2) ∧
      ChildrenSucceed (bcc_copy_directory_recursively enum_signed fuel) src dst
        (real_children children) s2 s3 ∧
      s4.entries = s3.entries) ∨
    (bcc_get_file_type enum_signed s src = 0 ∧ ∃ s1,
      bcc_copy_file s src dst = (true, s1) ∧ s4.entries = s1.entries) ∨
    (bcc_get_file_type enum_signed s src = 2 ∧ s4.entries = s.entries) := by
  simp only [bcc_copy_directory_recursively] at h
  by_cases h0 : bcc_get_file_type enum_signed s src < 0
  · simp [h0] at h
  rw [if_neg h0] at h
  by_cases h1 : bcc_get_file_type enum_signed s src = 1
  · left
    refine ⟨h1, ?_⟩
    rw [if_pos h1] at h
    cases hm : bcc_mkdir_if_not_exists s dst with
    | mk ok s1 =>
      rw [hm] at h
      cases ok with
      | false => simp [copy_defer] at h
      | true =>
        simp only at h
        cases hrd : bcc_read_entire_dir s1 src with
        | mk r rest =>
          obtain ⟨children, s2⟩ := rest
          rw [hrd] at h
          cases r with
          | value b =>
            cases b with
            | false => simp [copy_defer] at h
            | true =>
              simp only at h
              cases hcc : copy_children (bcc_copy_directory_recursively enum_signed fuel)
                  src dst children s2 with
              | mk r3 s3 =>
                rw [hcc] at h
                cases r3 with
                | value b3 =>
                  cases b3 with
                  | false => simp [copy_defer] at h
                  | true =>
                    simp only [copy_defer, Prod.mk.injEq, true_and] at h
                    refine ⟨s1, children, s2, s3, rfl, hrd, ?_, ?_⟩
                    · rw [copy_children_skip] at hcc
                      exact (copy_children_true_iff _ _ _ _ _ _
                        (real_children_not_dot children)).mp hcc
                    · rw [← h]
                | aborted => simp at h
                | no_fuel => simp at h
          | aborted => simp at h
          | no_fuel => simp at h
  rw [if_neg h1] at h
  by_cases h2 : bcc_get_file_type enum_signed s src = 0
  · right
    left
    refine ⟨h2, ?_⟩
    rw [if_pos h2] at h
    cases hc : bcc_copy_file s src dst with
    | mk b s1 =>
      rw [hc] at h
      cases b with
      | false => simp [copy_defer] at h
      | true =>
        simp only [copy_defer, Prod.mk.injEq, true_and] at h
        exact ⟨s1, rfl, by rw [← h]⟩
  rw [if_neg h2] at h
  by_cases h3 : bcc_get_file_type enum_signed s src = 2
  · right
    right
    refine ⟨h3, ?_⟩
    rw [if_pos h3] at h
    simp only [copy_defer, Prod.mk.injEq, true_and] at h
    rw [← h]
  rw [if_neg h3] at h
  split at h
  · simp [copy_defer] at h
  · simp at h

/-- Reproduction: when the recursive copy of `src` to a `dst` apart from it
returns true, every regular file that the listings reach from `src` has its
bytes at the corresponding path under `dst`. -/
theorem copy_directory_reproduces (enum_signed : Bool) (fuel : Nat) :
    ∀ (src dst : List String) (s s4 : Sys) (t : List String) (data : List Nat),
      bcc_copy_directory_recursively enum_signed fuel src dst s = (Ret.value true, s4) →
      Apart src dst → Listed s src t →
      s.entries (src ++ t) = some (Entry.regular data) →
      s4.entries (dst ++ t) = some (Entry.regular data) := by
  induction fuel with
  | zero =>
    intro src dst s s4 t data h
    simp [bcc_copy_directory_recursively] at h
  | succ fuel ih =>
    intro src dst s s4 t data h hapart hl hdata
    have hty := bcc_get_file_type_entry enum_signed s src
    rcases copy_directory_true_inv enum_signed fuel src dst s s4 h with
      ⟨ht, s1, children, s2, s3, hmk, hrd, hcs, he⟩ | ⟨ht, s1, hcf, he⟩ | ⟨ht, he⟩
    · obtain ⟨names, hnames⟩ := hty.2.1 ht
      cases t with
      | nil =>
        rw [List.append_nil, hnames] at hdata
        cases hdata
      | cons c t =>
        obtain ⟨⟨names2, hn2, hc⟩, hrest⟩ := hl
        have hf1 : FrameOutside dst s s1 := by
          have := (bcc_mkdir_if_not_exists_frame s dst).1
          rw [hmk] at this
          exact this
        obtain ⟨hdir1, a, hs2⟩ := bcc_read_entire_dir_true s1 s2 src children hrd
        have hsrc1 : s1.entries src = s.entries src := by
          have := frameOutside_apart hapart hf1 []
          rwa [List.append_nil] at this
        rw [hsrc1, hn2] at hdir1
        simp only [Option.some.injEq, Entry.directory.injEq] at hdir1
        subst hdir1
        obtain ⟨pre, post, hsplit, hpost⟩ := exists_last_occurrence c _ hc
        rw [hsplit] at hcs
        obtain ⟨sa, hpre, sc, hcopy, hafter⟩ :=
          (childrenSucceed_append _ src dst pre (c :: post) s2 s3).mp hcs
        have hf2 : FrameOutside dst s1 s2 := hs2 ▸ frameOutside_arena dst s1 a
        have hfa : FrameOutside dst s sa :=
          frameOutside_trans hf1 (frameOutside_trans hf2
            (childrenSucceed_frame enum_signed fuel src dst pre s2 sa hpre).1)
        have hsame : ∀ u, sa.entries (src ++ u) = s.entries (src ++ u) :=
          frameOutside_apart hapart hfa
        have hla : Listed sa (src ++ [c]) t := by
          apply listed_congr (src ++ [c]) _ t hrest
          intro u
          rw [List.append_assoc]
          exact hsame ([c] ++ u)
        have hda : sa.entries (src ++ [c] ++ t) = some (Entry.regular data) := by
          rw [List.append_assoc, hsame]
          exact hdata
        have hsc := ih (src ++ [c]) (dst ++ [c]) sa sc t data hcopy (apart_child hapart c)
          hla hda
        have hkeep := (childrenSucceed_frame enum_signed fuel src dst post sc s3 hafter).2
          (dst ++ [c] ++ t)
          (by
            intro heq
            have := congrArg List.length heq
            simp at this)
          (by
            intro d hd hu
            obtain ⟨u, hu⟩ := hu
            rw [List.append_assoc, List.append_assoc] at hu
            have := List.append_cancel_left hu
            simp only [List.singleton_append, List.cons.injEq] at this
            exact hpost (this.1 ▸ hd))
        rw [he]
        have hq : dst ++ c :: t = dst ++ [c] ++ t := by simp
        rw [hq, hkeep, hsc]
    · obtain ⟨data0, hd0⟩ := hty.1 ht
      cases t with
      | nil =>
        rw [List.append_nil] at hdata ⊢
        rw [he]
        apply bcc_copy_file_true s s1 src dst data hcf hdata
        intro heq
        exact hapart.1 (heq ▸ under_refl src)
      | cons c t =>
        obtain ⟨⟨names2, hn2, _⟩, _⟩ := hl
        rw [hd0] at hn2
        cases hn2
    · have hsym := hty.2.2 ht
      cases t with
      | nil =>
        rw [List.append_nil, hsym] at hdata
        cases hdata
      | cons c t =>
        obtain ⟨⟨names2, hn2, _⟩, _⟩ := hl
        rw [hsym] at hn2
        cases hn2

theorem copy_directory_of_other (enum_signed : Bool) (fuel : Nat) (src dst : List String)
    (s : Sys) (h : bcc_get_file_type enum_signed s src = 3) :
    bcc_copy_directory_recursively enum_signed (fuel + 1) src dst s = (Ret.value false, s) := by
  simp only [bcc_copy_directory_recursively, h]
  simp only [show ¬ ((3 : Int) < 0) by decide, show ¬ ((3 : Int) = 1) by decide,
    show ¬ ((3 : Int) = 0) by decide, show ¬ ((3 : Int) = 2) by decide, if_false, if_true]
  exact copy_defer_same_arena s s false rfl

theorem copy_directory_of_directory (enum_signed : Bool) (fuel : Nat) (src dst : List String)
    (s : Sys) (h : bcc_get_file_type enum_signed s src = 1) :
    bcc_copy_directory_recursively enum_signed (fuel + 1) src dst s
      = match bcc_mkdir_if_not_exists s dst with
        | (false, s1) => copy_defer (bcc_temp_save s.arena) false s1
        | (true, s1) =>
          match bcc_read_entire_dir s1 src with
          | (Ret.value true, children, s2) =>
            match copy_children (bcc_copy_directory_recursively enum_signed fuel)
                src dst children s2 with
            | (Ret.value result, s3) => copy_defer (bcc_temp_save s.arena) result s3
            | (r, s3) => (r, s3)
          | (Ret.value false, _, s2) => copy_defer (bcc_temp_save s.arena) false s2
          | (r, _, s2) => (r, s2) := by
  simp only [bcc_copy_directory_recursively, h]
  simp only [show ¬ ((1 : Int) < 0) by decide, if_false, if_true]

/-- All that `bcc_mkdir_if_not_exists` may change is what `dst` names and the
listing of the directory that contains it. -/
theorem bcc_mkdir_if_not_exists_entries (s : Sys) (dst p : List String) (hp : p ≠ dst)
    (hq : p ≠ dst.dropLast) : (bcc_mkdir_if_not_exists s dst).2.entries p = s.entries p := by
  unfold bcc_mkdir_if_not_exists
  cases h : mkdir s dst with
  | error e =>
    simp only
    split <;> rfl
  | ok s1 =>
    simp only
    unfold mkdir at h
    cases hm : s.mkdir_errno dst with
    | some e => simp [hm] at h
    | none =>
      cases he : s.entries dst with
      | some e => simp [hm, he] at h
      | none =>
        cases hce : create_entry s.entries dst (Entry.directory [".", ".."]) with
        | some entries =>
          simp only [hm, he, hce, Except.ok.injEq] at h
          subst h
          exact create_entry_frame hce p hp hq
        | none =>
          simp only [hm, he, hce] at h
          split at h <;> cases h

/-- Every regular file reached from a child whose copy succeeded has its bytes
at the corresponding path under `dst` once the run of children is done. -/
theorem children_reproduce (enum_signed : Bool) (fuel : Nat) (src dst : List String)
    (cs : List String) (s2 s3 : Sys)
    (hcs : ChildrenSucceed (bcc_copy_directory_recursively enum_signed fuel) src dst cs s2 s3)
    (hapart : Apart src dst) (c : String) (hc : c ∈ cs) (t : List String) (data : List Nat)
    (hl : Listed s2 (src ++ [c]) t)
    (hdata : s2.entries (src ++ c :: t) = some (Entry.regular data)) :
    s3.entries (dst ++ c :: t) = some (Entry.regular data) := by
  obtain ⟨pre, post, hsplit, hpost⟩ := exists_last_occurrence c cs hc
  rw [hsplit] at hcs
  obtain ⟨sa, hpre, sc, hcopy, hafter⟩ :=
    (childrenSucceed_append _ src dst pre (c :: post) s2 s3).mp hcs
  have hsame : ∀ u, sa.entries (src ++ u) = s2.entries (src ++ u) :=
    frameOutside_apart hapart (childrenSucceed_frame enum_signed fuel src dst pre s2 sa hpre).1
  have hla : Listed sa (src ++ [c]) t := by
    apply listed_congr (src ++ [c]) _ t hl
    intro u
    rw [List.append_assoc]
    exact hsame ([c] ++ u)
  have hda : sa.entries (src ++ [c] ++ t) = some (Entry.regular data) := by
    rw [List.append_assoc, hsame]
    exact hdata
  have hsc := copy_directory_reproduces enum_signed fuel (src ++ [c]) (dst ++ [c]) sa sc t data
    hcopy (apart_child hapart c) hla hda
  have hkeep := (childrenSucceed_frame enum_signed fuel src dst post sc s3 hafter).2
    (dst ++ [c] ++ t)
    (by
      intro heq
      have := congrArg List.length heq
      simp at this)
    (by
      intro d hd hu
      obtain ⟨u, hu⟩ := hu
      rw [List.append_assoc, List.append_assoc] at hu
      have := List.append_cancel_left hu
      simp only [List.singleton_append, List.cons.injEq] at this
      exact hpost (this.1 ▸ hd))
  have hq : dst ++ c :: t = dst ++ [c] ++ t := by simp
  rw [hq, hkeep, hsc]

/-- C19, as the code has it: the loop over the children stops at the first
child that fails.  When `src` is a directory, `dst` is created and `src` is
listed, the children listed before the child `x` are copied with success and
`x` is of the unsupported type OTHER, the call returns false in the state that
the earlier children left, with the arena rewound; every regular file reached
from an earlier child has its bytes at the corresponding path under `dst`, and
nothing is changed at or below `dst/c` for a name `c` that is not an earlier
child, so that the children listed after `x` are not copied. -/
theorem copy_directory_stops_at_other (enum_signed : Bool) (fuel : Nat)
    (src dst : List String) (s s1 s2 s3 : Sys) (children pre post : List String) (x : String)
    (hdir : bcc_get_file_type enum_signed s src = 1)
    (hmk : bcc_mkdir_if_not_exists s dst = (true, s1))
    (hrd : bcc_read_entire_dir s1 src = (Ret.value true, children, s2))
    (hsplit : real_children children = pre ++ x :: post)
    (hpre : ChildrenSucceed (bcc_copy_directory_recursively enum_signed (fuel + 1))
      src dst pre s2 s3)
    (hother : bcc_get_file_type enum_signed s3 (src ++ [x]) = 3)
    (hapart : Apart src dst) :
    bcc_copy_directory_recursively enum_signed (fuel + 2) src dst s
      = (Ret.value false, { s3 with arena := s.arena }) ∧
    (∀ c ∈ pre, ∀ (t : List String) (data : List Nat), Listed s (src ++ [c]) t →
      s.entries (src ++ c :: t) = some (Entry.regular data) →
      s3.entries (dst ++ c :: t) = some (Entry.regular data)) ∧
    (∀ c, c ∉ pre → ∀ t : List String,
      s3.entries (dst ++ c :: t) = s.entries (dst ++ c :: t)) := by
  have hf1 : FrameOutside dst s s1 := by
    have := (bcc_mkdir_if_not_exists_frame s dst).1
    rw [hmk] at this
    exact this
  obtain ⟨_, a, hs2⟩ := bcc_read_entire_dir_true s1 s2 src children hrd
  have hf2 : FrameOutside dst s1 s2 := hs2 ▸ frameOutside_arena dst s1 a
  have hsame : ∀ u, s2.entries (src ++ u) = s.entries (src ++ u) :=
    frameOutside_apart hapart (frameOutside_trans hf1 hf2)
  refine ⟨?_, ?_, ?_⟩
  · rw [copy_directory_of_directory enum_signed (fuel + 1) src dst s hdir, hmk]
    simp only
    rw [hrd]
    simp only
    rw [copy_children_skip, hsplit,
      copy_children_stops _ src dst pre x post s2 s3 s3 (Ret.value false)
        (hsplit ▸ real_children_not_dot children) hpre
        (copy_directory_of_other enum_signed fuel (src ++ [x]) (dst ++ [x]) s3 hother)
        (by simp)]
    rfl
  · intro c hc t data hl hdata
    apply children_reproduce enum_signed (fuel + 1) src dst pre s2 s3 hpre hapart c hc t data
    · apply listed_congr (src ++ [c]) _ t hl
      intro u
      rw [List.append_assoc]
      exact hsame ([c] ++ u)
    · rw [hsame]
      exact hdata
  · intro c hc t
    have hne : dst ++ c :: t ≠ dst := by
      intro heq
      have := congrArg List.length heq
      simp at this
    have hne2 : dst ++ c :: t ≠ dst.dropLast := by
      intro heq
      have := congrArg List.length heq
      simp at this
      omega
    have h3 := (childrenSucceed_frame enum_signed (fuel + 1) src dst pre s2 s3 hpre).2
      (dst ++ c :: t) hne
      (by
        intro d hd hu
        obtain ⟨u, hu⟩ := hu
        rw [List.append_assoc] at hu
        have := List.append_cancel_left hu
        simp only [List.singleton_append, List.cons.injEq] at this
        exact hc (this.1 ▸ hd))
    have h1 := bcc_mkdir_if_not_exists_entries s dst (dst ++ c :: t) hne hne2
    rw [hmk] at h1
    rw [h3, hs2]
    exact h1

/-- An instance of `copy_directory_stops_at_other`: with "dev" listed last,
the regular file "f.txt" and the file "g.txt" of the directory "sub" have
their bytes under "dst" when the call returns false. -/
theorem copy_directory_stops_at_other_witness :
    bcc_copy_directory_recursively false (1 + 2) ["src"] ["dst"] sys_other_last
      = (Ret.value false, { sys_after_sub with arena := sys_other_last.arena }) ∧
    (∀ c ∈ ["f.txt", "sub"], ∀ (t : List String) (data : List Nat),
      Listed sys_other_last (["src"] ++ [c]) t →
      sys_other_last.entries (["src"] ++ c :: t) = some (Entry.regular data) →
      sys_after_sub.entries (["dst"] ++ c :: t) = some (Entry.regular data)) ∧
    (∀ c, c ∉ ["f.txt", "sub"] → ∀ t : List String,
      sys_after_sub.entries (["dst"] ++ c :: t) = sys_other_last.entries (["dst"] ++ c :: t)) :=
  copy_directory_stops_at_other false 1 ["src"] ["dst"] sys_other_last sys_after_mkdir
    sys_after_listing sys_after_sub [".", "..", "f.txt", "sub", "dev"] ["f.txt", "sub"] []
    "dev" (by decide) rfl rfl (by decide) ⟨sys_after_file, rfl, sys_after_sub, rfl, rfl⟩
    (by decide)
    ⟨by
      rintro ⟨t, h⟩
      simp at h, by
      rintro ⟨t, h⟩
      simp at h⟩

/-- C19, counterexample: the listing of "src" yields the entry "dev" of
unsupported type before the regular file "f.txt" and the directory "sub"; the
call returns false, and neither "f.txt" nor "sub" exists under "dst". -/
theorem copy_directory_other_first_copies_nothing :
    (bcc_copy_directory_recursively false 3 ["src"] ["dst"] sys_other_first).1
      = Ret.value false ∧
    (bcc_copy_directory_recursively false 3 ["src"] ["dst"] sys_other_first).2.entries
      ["dst", "f.txt"] = none ∧
    (bcc_copy_directory_recursively false 3 ["src"] ["dst"] sys_other_first).2.entries
      ["dst", "sub"] = none ∧
    sys_other_first.entries ["src", "f.txt"] = some (Entry.regular [1, 2, 3]) ∧
    sys_other_first.entries ["src", "sub"] = some (Entry.directory [".", "..", "g.txt"]) := by
  decide


/-! ## Timestamp comparison -/

/-- C23, the code at the failing inputs: an input written 2^32 seconds after
the epoch is newer than an output written one second after it, yet the
comparison of the two `int` variables is false and `bcc_needs_rebuild` returns
FRESH (0); an input written one second after the epoch is older than an
output written 2^32 seconds after it, yet the comparison is true and
`bcc_needs_rebuild` returns STALE (1). -/
theorem mtime_comparison_wraps_at_two_pow_32 :
    ((4294967296 : Int) > 1 ∧ ¬ (toInt32 4294967296 > toInt32 1) ∧
      world_input_at_two_pow_32.files "out" = .ok ⟨1, []⟩ ∧
      world_input_at_two_pow_32.files "in.c" = .ok ⟨4294967296, []⟩ ∧
      (bcc_needs_rebuild world_input_at_two_pow_32 "out" ["in.c"]).1 = 0) ∧
    (¬ ((1 : Int) > 4294967296) ∧ toInt32 1 > toInt32 4294967296 ∧
      world_output_at_two_pow_32.files "out" = .ok ⟨4294967296, []⟩ ∧
      world_output_at_two_pow_32.files "in.c" = .ok ⟨1, []⟩ ∧
      (bcc_needs_rebuild world_output_at_two_pow_32 "out" ["in.c"]).1 = 1) := by
  decide

/-- For modification times that fit in an `int`, the comparison of the two
`int` variables is the comparison of the times. -/
theorem mtime_comparison_faithful_in_int_range (t_in t_out : Int) (hin : InInt32 t_in)
    (hout : InInt32 t_out) : toInt32 t_in > toInt32 t_out ↔ t_in > t_out := by
  rw [toInt32_of_inInt32 hin, toInt32_of_inInt32 hout]

/-! ## Arena bounds -/

theorem bcc_temp_alloc_cursor_le (a : Arena) (size : Nat)
    (h : a.bcc_temp_size ≤ BCC_TEMP_CAPACITY) :
    (bcc_temp_alloc a size).2.bcc_temp_size ≤ BCC_TEMP_CAPACITY := by
  unfold bcc_temp_alloc
  split
  · exact h
  · simp only
    omega

/-- The cursor stays within the arena: after every call of a sequence in which
every rewind goes to a value returned by an earlier `bcc_temp_save`, started
with the cursor and all saved values within the capacity, the cursor is at
most BCC_TEMP_CAPACITY. -/
theorem temp_trace_cursor_le (calls : List TempCall) (a : Arena) (saved : List Nat)
    (ha : a.bcc_temp_size ≤ BCC_TEMP_CAPACITY) (hsaved : ∀ c ∈ saved, c ≤ BCC_TEMP_CAPACITY)
    (hd : Disciplined calls a saved) :
    ∀ a2 ∈ temp_trace calls a, a2.bcc_temp_size ≤ BCC_TEMP_CAPACITY := by
  induction calls generalizing a saved with
  | nil =>
    intro a2 h2
    simp [temp_trace] at h2
  | cons call rest ih =>
    intro a2 h2
    simp only [temp_trace, List.mem_cons] at h2
    cases call with
    | alloc size =>
      have hstep := bcc_temp_alloc_cursor_le a size ha
      rcases h2 with rfl | h2
      · exact hstep
      · exact ih _ saved hstep hsaved hd.2 a2 h2
    | save =>
      rcases h2 with rfl | h2
      · exact ha
      · refine ih a (bcc_temp_save a :: saved) ha ?_ hd a2 h2
        intro c hc
        rcases List.mem_cons.mp hc with rfl | hc
        · exact ha
        · exact hsaved c hc
    | reset =>
      have hstep : (bcc_temp_reset a).bcc_temp_size ≤ BCC_TEMP_CAPACITY := by
        simp [bcc_temp_reset]
      rcases h2 with rfl | h2
      · exact hstep
      · exact ih _ saved hstep hsaved hd a2 h2
    | rewind checkpoint =>
      have hstep : (bcc_temp_rewind a checkpoint).bcc_temp_size ≤ BCC_TEMP_CAPACITY :=
        hsaved checkpoint hd.1
      rcases h2 with rfl | h2
      · exact hstep
      · exact ih _ saved hstep hsaved hd.2 a2 h2

/-- C22, the code at the failing input: from the cursor 0, `bcc_temp_alloc(1)`
and then `bcc_temp_alloc(2^64 - 1)`, a sequence without rewind.  Both calls
succeed, and the second returns the region of 2^64 - 1 bytes at offset 1,
which ends far beyond the arena; the cursor is 1 and then 0, within the
capacity all along. -/
theorem temp_region_outside_arena :
    Disciplined [TempCall.alloc 1, TempCall.alloc 18446744073709551615]
      { bcc_temp_size := 0 } [] ∧
    temp_regions [TempCall.alloc 1, TempCall.alloc 18446744073709551615]
      { bcc_temp_size := 0 } = [(0, 1), (1, 18446744073709551615)] ∧
    1 + 18446744073709551615 > BCC_TEMP_CAPACITY ∧
    temp_trace [TempCall.alloc 1, TempCall.alloc 18446744073709551615]
      { bcc_temp_size := 0 } = [{ bcc_temp_size := 1 }, { bcc_temp_size := 0 }] := by
  refine ⟨?_, by decide, by decide, by decide⟩
  simp [Disciplined, SIZE_MODULUS]

/-- Without wrap-around the regions lie inside the arena: a successful
`bcc_temp_alloc` for which the sum of the cursor and the size is a value of
`size_t` returns a region that ends at the new cursor, within the capacity. -/
theorem temp_region_inside_without_wrap (a a2 : Arena) (size offset : Nat)
    (hsum : a.bcc_temp_size + size < SIZE_MODULUS)
    (h : bcc_temp_alloc a size = (some offset, a2)) :
    offset = a.bcc_temp_size ∧ offset + size = a2.bcc_temp_size ∧
    offset + size ≤ BCC_TEMP_CAPACITY := by
  unfold bcc_temp_alloc at h
  rw [Nat.mod_eq_of_lt hsum] at h
  by_cases hgt : a.bcc_temp_size + size > BCC_TEMP_CAPACITY
  · simp [hgt] at h
  · simp only [hgt, if_false, Prod.mk.injEq, Option.some.injEq] at h
    obtain ⟨h1, h2⟩ := h
    subst h1 h2
    exact ⟨rfl, rfl, by omega⟩

/-! ## Append-one and append-many -/

/-- C24: on a buffer with `count <= capacity` (its block having `capacity`
cells) and when no `size_t` overflows, `bcc_da_append(da, x)` and
`bcc_da_append_many(da, [x], 1)` both return and leave the same array: the
same count, the same block and so the same contents, and the same capacity.
For a buffer with `count > capacity` they need not agree: on a block of one
cell with `count = 3`, `bcc_da_append` doubles the capacity once and writes
outside the block, while `bcc_da_append_many` doubles it twice and returns. -/
theorem da_append_agrees_with_append_many {α : Type} (da : Da α) (x : α) :
    (da.WellFormed → da.count ≤ da.capacity → da.Fits 1 →
      bcc_da_append da x = bcc_da_append_many da [x] ∧
      ∃ da2, bcc_da_append da x = .ok da2 ∧ da2.count = da.count + 1 ∧
        da2.contents = da.contents ++ [some x]) ∧
    (da_count_beyond_capacity.count > da_count_beyond_capacity.capacity ∧
      bcc_da_append da_count_beyond_capacity 7 = .error Fault.out_of_bounds ∧
      bcc_da_append_many da_count_beyond_capacity [7]
        = .ok { items := [none, none, none, some 7], count := 4, capacity := 4 }) := by
  refine ⟨?_, by decide⟩
  intro hwf hcount hfit
  obtain ⟨da2, hok, _, _, hc2, hcont2, _, _⟩ := bcc_da_append_spec da x hwf hcount hfit
  refine ⟨?_, da2, hok, hc2, hcont2⟩
  obtain ⟨hlen, hcapM⟩ := hwf
  obtain ⟨hsum, _⟩ := da_fits_bound da 1 hfit
  obtain ⟨k, hle, hlt⟩ := hfit
  have hneeded : (da.count + 1) % SIZE_MODULUS = da.count + 1 := Nat.mod_eq_of_lt hsum
  have hset : ∀ (l : List (Option α)), da.count < l.length →
      l.set da.count (some x) = l.take da.count ++ [some x] ++ l.drop (da.count + 1) := by
    intro l hl
    rw [List.set_eq_take_cons_drop (some x) hl]
    simp
  by_cases hgrow : da.count ≥ da.capacity
  · have heq : da.count = da.capacity := by omega
    by_cases hzero : da.capacity = 0
    · have hc0 : da.count = 0 := by omega
      have hl : da.count < (realloc_cells da.items BCC_DA_INIT_CAP).length := by
        rw [realloc_cells_length, hc0]
        decide
      have hn : da.count + 1 > da.capacity := by omega
      simp only [bcc_da_append, bcc_da_append_many, hgrow, if_true, List.length_singleton,
        hneeded, hn]
      simp only [hzero, if_true, hl]
      have hloop : da_grow_loop (da.count + 1) 65 BCC_DA_INIT_CAP = some BCC_DA_INIT_CAP := by
        rw [hc0]
        decide
      simp only [hloop, memcpy_cells, List.length_singleton]
      have hl2 : da.count + 1 ≤ (realloc_cells da.items BCC_DA_INIT_CAP).length := hl
      simp only [show ¬ (1 = 0) by decide, if_false, hl2, if_true, List.map_cons, List.map_nil]
      rw [hset _ hl]
    · have hk : 1 ≤ k := by
        rcases Nat.eq_zero_or_pos k with h0 | hpos
        · subst h0
          simp only [Da.base, hzero, if_false, pow_zero, mul_one] at hle
          omega
        · exact hpos
      have hdouble : da.capacity * 2 < SIZE_MODULUS := by
        simp only [Da.base, hzero, if_false] at hlt
        have h2 : 2 ^ 1 ≤ 2 ^ k := Nat.pow_le_pow_right (by decide) hk
        have : da.capacity * 2 ^ 1 ≤ da.capacity * 2 ^ k := Nat.mul_le_mul_left _ h2
        omega
      have hmod : (da.capacity * 2) % SIZE_MODULUS = da.capacity * 2 :=
        Nat.mod_eq_of_lt hdouble
      have hl : da.count < (realloc_cells da.items (da.capacity * 2)).length := by
        rw [realloc_cells_length]
        omega
      have hn : da.count + 1 > da.capacity := by omega
      simp only [bcc_da_append, bcc_da_append_many, hgrow, if_true, List.length_singleton,
        hneeded, hn]
      simp only [hzero, if_false, hmod, hl, if_true]
      have hloop : da_grow_loop (da.count + 1) 65 da.capacity = some (da.capacity * 2) := by
        have h65 : (65 : Nat) = 63 + 1 + 1 := rfl
        rw [h65]
        simp only [da_grow_loop, hn, if_true, hmod]
        have : ¬ (da.count + 1 > da.capacity * 2) := by omega
        simp only [this, if_false]
      simp only [hloop, memcpy_cells, List.length_singleton]
      have hl2 : da.count + 1 ≤ (realloc_cells da.items (da.capacity * 2)).length := hl
      simp only [show ¬ (1 = 0) by decide, if_false, hl2, if_true, List.map_cons, List.map_nil]
      rw [hset _ hl]
  · have hlt2 : da.count < da.items.length := by omega
    have hn : ¬ (da.count + 1 > da.capacity) := by omega
    simp only [bcc_da_append, bcc_da_append_many, hgrow, if_false, hlt2, if_true,
      List.length_singleton, hneeded, hn, memcpy_cells]
    have hl2 : da.count + 1 ≤ da.items.length := hlt2
    simp only [show ¬ (1 = 0) by decide, if_false, hl2, if_true, List.map_cons, List.map_nil]
    rw [hset _ hlt2]

/-- An instance of `da_append_agrees_with_append_many`: on a full array of two
cells both appends double the capacity and store the item in the third cell. -/
theorem da_append_agrees_with_append_many_witness :
    bcc_da_append da_two_of_two 3 = bcc_da_append_many da_two_of_two [3] ∧
    ∃ da2, bcc_da_append da_two_of_two 3 = .ok da2 ∧ da2.count = da_two_of_two.count + 1 ∧
      da2.contents = da_two_of_two.contents ++ [some 3] :=
  (da_append_agrees_with_append_many da_two_of_two 3).1 ⟨by decide, by decide⟩ (by decide)
    ⟨1, by decide, by decide⟩

/-! ## The arena across the recursive copy -/

theorem copy_defer_arena (s s1 s2 : Sys) (b : Bool) (r : Ret Bool)
    (h : copy_defer (bcc_temp_save s.arena) b s1 = (r, s2)) :
    r = Ret.value b ∧ s2.arena = s.arena := by
  simp only [copy_defer, Prod.mk.injEq] at h
  obtain ⟨h1, h2⟩ := h
  subst h1 h2
  exact ⟨rfl, rfl⟩

/-- Whenever the recursive copy returns, the arena is the one it was entered
with. -/
theorem copy_directory_arena (enum_signed : Bool) (fuel : Nat) (src dst : List String)
    (s s4 : Sys) (b : Bool)
    (h : bcc_copy_directory_recursively enum_signed fuel src dst s = (Ret.value b, s4)) :
    s4.arena = s.arena := by
  cases fuel with
  | zero => simp [bcc_copy_directory_recursively] at h
  | succ fuel =>
    simp only [bcc_copy_directory_recursively] at h
    split at h
    · simp only [Prod.mk.injEq] at h
      rw [← h.2]
    · split at h
      · cases hm : bcc_mkdir_if_not_exists s dst with
        | mk ok s1 =>
          rw [hm] at h
          cases ok with
          | false => exact (copy_defer_arena s s1 s4 _ _ h).2
          | true =>
            simp only at h
            cases hrd : bcc_read_entire_dir s1 src with
            | mk r rest =>
              obtain ⟨children, s2⟩ := rest
              rw [hrd] at h
              cases r with
              | value b2 =>
                cases b2 with
                | false => exact (copy_defer_arena s s2 s4 _ _ h).2
                | true =>
                  simp only at h
                  cases hcc : copy_children (bcc_copy_directory_recursively enum_signed fuel)
                      src dst children s2 with
                  | mk r3 s3 =>
                    rw [hcc] at h
                    cases r3 with
                    | value b3 => exact (copy_defer_arena s s3 s4 _ _ h).2
                    | aborted => simp at h
                    | no_fuel => simp at h
              | aborted => simp at h
              | no_fuel => simp at h
      · split at h
        · cases hc : bcc_copy_file s src dst with
          | mk ok s1 =>
            rw [hc] at h
            cases ok <;> exact (copy_defer_arena s s1 s4 _ _ h).2
        · split at h
          · exact (copy_defer_arena s s s4 _ _ h).2
          · split at h
            · exact (copy_defer_arena s s s4 _ _ h).2
            · simp at h

theorem tree_within_congr (s s2 : Sys) (depth : Nat) (p : List String)
    (h : ∀ u, s2.entries (p ++ u) = s.entries (p ++ u)) (ht : tree_within s depth p = true) :
    tree_within s2 depth p = true := by
  induction depth generalizing p with
  | zero => simp [tree_within] at ht
  | succ depth ih =>
    have hp : s2.entries p = s.entries p := by
      have := h []
      rwa [List.append_nil] at this
    simp only [tree_within] at ht ⊢
    rw [hp]
    cases he : s.entries p with
    | none => rfl
    | some e =>
      cases e with
      | directory names =>
        rw [he] at ht
        simp only [List.all_eq_true] at ht ⊢
        intro c hc
        apply ih (p ++ [c]) _ (ht c hc)
        intro u
        rw [List.append_assoc]
        exact h ([c] ++ u)
      | regular data => rfl
      | symlink => rfl
      | other => rfl

theorem bcc_read_entire_dir_not_no_fuel (s : Sys) (parent : List String) :
    (bcc_read_entire_dir s parent).1 ≠ Ret.no_fuel := by
  unfold bcc_read_entire_dir
  split
  · next names _ _ =>
    cases h : read_dir_names (readdir_yield s parent names) s.arena with
    | mk o a =>
      cases o with
      | some children => simp
      | none => simp
  · simp

/-- The loop over the children does not use up the recursion allowance when
the copy of no child does, whatever the earlier children left under `dst`. -/
theorem copy_children_not_no_fuel (enum_signed : Bool) (fuel : Nat) (src dst : List String)
    (s : Sys) (hapart : Apart src dst) (children : List String)
    (hchild : ∀ c ∈ real_children children, ∀ sa : Sys,
      (∀ u, sa.entries (src ++ u) = s.entries (src ++ u)) →
      (bcc_copy_directory_recursively enum_signed fuel (src ++ [c]) (dst ++ [c]) sa).1
        ≠ Ret.no_fuel)
    (s2 : Sys) (hs2 : ∀ u, s2.entries (src ++ u) = s.entries (src ++ u)) :
    (copy_children (bcc_copy_directory_recursively enum_signed fuel) src dst children s2).1
      ≠ Ret.no_fuel := by
  rw [copy_children_skip]
  have hreal := real_children_not_dot children
  generalize real_children children = cs at hchild hreal
  induction cs generalizing s2 with
  | nil => simp [copy_children]
  | cons c rest ih =>
    obtain ⟨h1, h2⟩ := hreal c (by simp)
    rw [copy_children_cons _ src dst c rest s2 h1 h2]
    have hc := hchild c (by simp) s2 hs2
    have hframe := copy_directory_frame enum_signed fuel (src ++ [c]) (dst ++ [c]) s2
    cases hcc : bcc_copy_directory_recursively enum_signed fuel (src ++ [c]) (dst ++ [c]) s2 with
    | mk r s3 =>
      rw [hcc] at hc hframe
      cases r with
      | value b =>
        cases b with
        | true =>
          simp only
          apply ih s3 ?_ (fun d hd => hchild d (List.mem_cons_of_mem _ hd))
            (fun d hd => hreal d (List.mem_cons_of_mem _ hd))
          intro u
          rw [frameOutside_apart hapart (frameOutside_of_child hframe) u]
          exact hs2 u
        | false => simp
      | aborted => simp
      | no_fuel => exact absurd rfl hc

/-- Enough fuel: on a source tree apart from the destination whose directories
nest fewer than `fuel` levels deep, the recursive copy ends, by returning or
by a failed assertion. -/
theorem copy_directory_not_no_fuel (enum_signed : Bool) (fuel : Nat) :
    ∀ (src dst : List String) (s : Sys), Apart src dst → tree_within s fuel src = true →
      (bcc_copy_directory_recursively enum_signed fuel src dst s).1 ≠ Ret.no_fuel := by
  induction fuel with
  | zero =>
    intro src dst s _ ht
    simp [tree_within] at ht
  | succ fuel ih =>
    intro src dst s hapart ht
    simp only [bcc_copy_directory_recursively]
    split
    · simp
    · split
      · next _ hdir =>
        obtain ⟨names, hnames⟩ := (bcc_get_file_type_entry enum_signed s src).2.1 hdir
        simp only [tree_within, hnames, List.all_eq_true] at ht
        have hf1 := (bcc_mkdir_if_not_exists_frame s dst).1
        cases hm : bcc_mkdir_if_not_exists s dst with
        | mk ok s1 =>
          rw [hm] at hf1
          cases ok with
          | false => simp [copy_defer]
          | true =>
            simp only
            have hnf := bcc_read_entire_dir_not_no_fuel s1 src
            cases hrd : bcc_read_entire_dir s1 src with
            | mk r rest =>
              obtain ⟨children, s2⟩ := rest
              rw [hrd] at hnf
              cases r with
              | value b2 =>
                cases b2 with
                | false => simp [copy_defer]
                | true =>
                  simp only
                  obtain ⟨hdir1, a, hs2⟩ := bcc_read_entire_dir_true s1 s2 src children hrd
                  have hsrc1 : s1.entries src = s.entries src := by
                    have := frameOutside_apart hapart hf1 []
                    rwa [List.append_nil] at this
                  rw [hsrc1, hnames] at hdir1
                  simp only [Option.some.injEq, Entry.directory.injEq] at hdir1
                  subst hdir1
                  have hf2 : FrameOutside dst s1 s2 := hs2 ▸ frameOutside_arena dst s1 a
                  have hloop := copy_children_not_no_fuel enum_signed fuel src dst s hapart
                    names
                    (fun c hc sa hsa => ih (src ++ [c]) (dst ++ [c]) sa (apart_child hapart c)
                      (tree_within_congr s sa fuel (src ++ [c])
                        (fun u => by
                          rw [List.append_assoc]
                          exact hsa ([c] ++ u))
                        (ht c hc)))
                    s2 (frameOutside_apart hapart (frameOutside_trans hf1 hf2))
                  cases hcc : copy_children (bcc_copy_directory_recursively enum_signed fuel)
                      src dst names s2 with
                  | mk r3 s3 =>
                    rw [hcc] at hloop
                    cases r3 with
                    | value b3 => simp [copy_defer]
                    | aborted => simp
                    | no_fuel => exact absurd rfl hloop
              | aborted => simp
              | no_fuel => exact absurd rfl hnf
      · split
        · cases hc : bcc_copy_file s src dst with
          | mk ok s1 => cases ok <;> simp [copy_defer]
        · split
          · simp [copy_defer]
          · split
            · simp [copy_defer]
            · simp

/-- When the classification of the source fails, the call returns false at
once if the compiler represents `BCC_File_Type` by a signed type; if it
represents it by an unsigned type, the test `type < 0` is false and the call
ends in the assertion of the `default` case. -/
theorem copy_directory_classification_failure (fuel : Nat) (src dst : List String) (s : Sys)
    (hstat : s.stat_errno src ≠ none ∨ s.entries src = none) :
    bcc_copy_directory_recursively true (fuel + 1) src dst s = (Ret.value false, s) ∧
    bcc_copy_directory_recursively false (fuel + 1) src dst s = (Ret.aborted, s) := by
  have htype : ∀ enum_signed, bcc_get_file_type enum_signed s src
      = enum_value enum_signed (-1) := by
    intro enum_signed
    unfold bcc_get_file_type
    rcases hstat with h | h
    · cases hs : s.stat_errno src with
      | none => exact absurd hs h
      | some e => rfl
    · rw [h]
      cases hs : s.stat_errno src <;> rfl
  constructor
  · simp only [bcc_copy_directory_recursively, htype true]
    simp [enum_value]
  · have hv : enum_value false (-1) = 4294967295 := by decide
    simp only [bcc_copy_directory_recursively, htype false, hv]
    simp only [show ¬ ((4294967295 : Int) < 0) by decide,
      show ¬ ((4294967295 : Int) = 1) by decide, show ¬ ((4294967295 : Int) = 0) by decide,
      show ¬ ((4294967295 : Int) = 2) by decide, show ¬ ((4294967295 : Int) = 3) by decide,
      if_false]

/-- C21: whenever `bcc_copy_directory_recursively` returns, with true or with
false and whatever happened in the nested calls, the arena cursor is the one
the call was entered with.  The call does end, by returning or by a failed
assertion, on every source tree apart from the destination whose directories
nest fewer than `fuel` levels deep. -/
theorem copy_directory_restores_arena (enum_signed : Bool) (fuel : Nat)
    (src dst : List String) (s : Sys) :
    (∀ (b : Bool) (s4 : Sys),
      bcc_copy_directory_recursively enum_signed fuel src dst s = (Ret.value b, s4) →
      s4.arena.bcc_temp_size = s.arena.bcc_temp_size) ∧
    (Apart src dst → tree_within s fuel src = true →
      (bcc_copy_directory_recursively enum_signed fuel src dst s).1 ≠ Ret.no_fuel) := by
  constructor
  · intro b s4 h
    rw [copy_directory_arena enum_signed fuel src dst s s4 b h]
  · exact copy_directory_not_no_fuel enum_signed fuel src dst s

/-- An instance of `copy_directory_restores_arena`: `stat` fails on the
subdirectory "src/sub", two levels into the call; the call returns false and
the cursor is where it was. -/
theorem copy_directory_restores_arena_witness :
    (bcc_copy_directory_recursively true 3 ["src"] ["dst"] sys_stat_fails_below).1
      = Ret.value false ∧
    (bcc_copy_directory_recursively true 3 ["src"] ["dst"]
        sys_stat_fails_below).2.arena.bcc_temp_size
      = sys_stat_fails_below.arena.bcc_temp_size ∧
    (bcc_copy_directory_recursively true 3 ["src"] ["dst"] sys_stat_fails_below).1
      ≠ Ret.no_fuel :=
  ⟨by decide,
    (copy_directory_restores_arena true 3 ["src"] ["dst"] sys_stat_fails_below).1 false
      (bcc_copy_directory_recursively true 3 ["src"] ["dst"] sys_stat_fails_below).2 rfl,
    (copy_directory_restores_arena true 3 ["src"] ["dst"] sys_stat_fails_below).2
      ⟨by
        rintro ⟨t, h⟩
        simp at h, by
        rintro ⟨t, h⟩
        simp at h⟩
      (by decide)⟩

end BCC
